import Mathlib

/-!
# buddyBTree: a binary buddy allocator over an array-backed complete binary tree

Shallow embedding of `src/buddyBTree.c`.

Conventions of the embedding.

* The C type `unsigned` is 32 bits wide: unsigned values are natural numbers and every
  unsigned operation that can wrap is reduced modulo `4294967296 = 2 ^ 32`.
* The C type `int` is 32 bits wide: arguments of type `int` are integers, and the
  theorems restrict them to the range of `int`.
* `struct buddy2` is a record of the field `size` and of the cells of `longest`; the
  storage obtained from `malloc` holds `2 * size` words, one for `size` and
  `2 * size - 1` for `longest`, so the valid indices of `longest` are
  `0 .. 2 * size - 2`.
* A function returns `none` when the C program leaves defined behaviour (a read or
  write outside `longest`, a signed overflow) or aborts on a failed `assert`.
  `malloc` is assumed to succeed.
* Loops are recursive functions on a step budget that is fixed by the caller (from the
  length of `longest`, from the loop bound in `buddy2_new`, from the width of `unsigned`
  in `fixsize`); running out of budget also yields `none`.  The theorems about calls
  that return establish a result `some ..`, so no budget is exhausted there.
-/

namespace BuddyBTree

/-! ## The program -/

/-- The allocator object `struct buddy2`. -/
structure buddy2 where
  size : Nat
  longest : List Nat
  deriving DecidableEq, Repr

/-- `#define LEFT_LEAF(index) ((index) * 2 + 1)` on `unsigned`. -/
def LEFT_LEAF (index : Nat) : Nat := (index * 2 + 1) % 4294967296

/-- `#define RIGHT_LEAF(index) ((index) * 2 + 2)` on `unsigned`. -/
def RIGHT_LEAF (index : Nat) : Nat := (index * 2 + 2) % 4294967296

/-- `#define PARENT(index) (((index)+1)/2-1)` on `unsigned`; at `index = 0` the
subtraction wraps to `4294967295`. -/
def PARENT (index : Nat) : Nat :=
  ((index + 1) % 4294967296 / 2 + 4294967295) % 4294967296

/-- `#define IS_POWER_OF_2(x) (!((x)&((x)-1)))`.  Every use in the program applies it
to a value that is at least `1` (a guard `size < 1` or `size <= 0` precedes it, or the
argument is `i + 1` with `i >= 0`), so the value is a natural number. -/
def IS_POWER_OF_2 (x : Nat) : Bool := (x &&& (x - 1)) == 0

/-- `#define MAX(a, b) ((a) > (b) ? (a) : (b))`. -/
def MAX (a b : Nat) : Nat := if a > b then a else b

/-- The loop `while(size) { size = size >> 1; ++idx; }` of `fixsize`. -/
def fixsize_loop : Nat → Nat → Nat → Option Nat
  | 0, _, _ => none
  | fuel + 1, size, idx =>
    if size ≠ 0 then fixsize_loop fuel (size >>> 1) (idx + 1) else some idx

/-- `static unsigned fixsize(unsigned size)`: returns `1 << idx` where `idx` is the
number of significant bits of `size`.  The shift is taken modulo `2 ^ 32`
(`1 << 31` yields the bit pattern `0x80000000`). -/
def fixsize (size : Nat) : Option Nat :=
  match fixsize_loop 34 size 0 with
  | none => none
  | some idx => some ((1 <<< idx) % 4294967296)

/-- Read of `self->longest[index]`. -/
def rd (longest : List Nat) (index : Nat) : Option Nat := longest[index]?

/-- Write `self->longest[index] = v`. -/
def wr (longest : List Nat) (index v : Nat) : Option (List Nat) :=
  if index < longest.length then some (longest.set index v) else none

/-- The loop `for(i = 0; i < 2 * size - 1; ++i)` of `buddy2_new`; `bound` is
`2 * size - 1`. -/
def new_loop (bound : Nat) : Nat → Nat → Nat → List Nat → Option (List Nat)
  | 0, _, _, _ => none
  | fuel + 1, i, node_size, longest =>
    if i < bound then
      let node_size := if IS_POWER_OF_2 (i + 1) then node_size / 2 else node_size
      match wr longest i node_size with
      | none => none
      | some longest => new_loop bound fuel (i + 1) node_size longest
    else some longest

/-- `struct buddy2* buddy2_new(int size)`.  The inner option is the returned pointer
(`none` is `NULL`).  When `2 * size` does not fit in `int` the program has no defined
behaviour.  The fresh storage is modelled as zeroes; the loop overwrites every cell. -/
def buddy2_new (size : Int) : Option (Option buddy2) :=
  if size < 1 ∨ IS_POWER_OF_2 size.toNat = false then some none
  else if 2147483647 < 2 * size then none
  else
    let n := size.toNat
    match new_loop (2 * n - 1) (2 * n) 0 (n * 2) (List.replicate (2 * n - 1) 0) with
    | none => none
    | some longest => some (some { size := n, longest := longest })

/-- The size that `buddy2_alloc` works with after lines 98-103, for `size > 0`: `size`
itself when it is a power of two, `fixsize(size)` otherwise.  The result is kept as
the unsigned value, which is how every later comparison reads it
(`longest[..] < size`, `node_size != size`, `longest[..] >= size` all convert the
`int` to `unsigned`). -/
def normalize (size : Int) : Option Nat :=
  if IS_POWER_OF_2 size.toNat then some size.toNat else fixsize size.toNat

/-- The descent `for(node_size = self->size; node_size != size; node_size /= 2)` of
`buddy2_alloc`; returns the final `index` and `node_size`. -/
def alloc_descend (longest : List Nat) (size : Nat) : Nat → Nat → Nat → Option (Nat × Nat)
  | 0, _, _ => none
  | fuel + 1, node_size, index =>
    if node_size ≠ size then
      match rd longest (LEFT_LEAF index) with
      | none => none
      | some v =>
        if v ≥ size then alloc_descend longest size fuel (node_size / 2) (LEFT_LEAF index)
        else alloc_descend longest size fuel (node_size / 2) (RIGHT_LEAF index)
    else some (index, node_size)

/-- The loop `while (index) { index = PARENT(index); longest[index] = MAX(..); }` of
`buddy2_alloc`. -/
def alloc_update : Nat → List Nat → Nat → Option (List Nat)
  | 0, _, _ => none
  | fuel + 1, longest, index =>
    if index ≠ 0 then
      let index := PARENT index
      match rd longest (LEFT_LEAF index), rd longest (RIGHT_LEAF index) with
      | some a, some b =>
        match wr longest index (MAX a b) with
        | none => none
        | some longest => alloc_update fuel longest index
      | _, _ => none
    else some longest

/-- Conversion of an `unsigned` value to `int` (the `return offset;` of
`buddy2_alloc`). -/
def toInt (u : Nat) : Int := if u < 2147483648 then (u : Int) else (u : Int) - 4294967296

/-- `int buddy2_alloc(struct buddy2* self, int size)` for a non-null `self`: the new
state and the returned value. -/
def buddy2_alloc (self : buddy2) (size : Int) : Option (buddy2 × Int) :=
  if size ≤ 0 then some (self, -1)
  else
    match normalize size with
    | none => none
    | some size =>
      match rd self.longest 0 with
      | none => none
      | some v =>
        if v < size then some (self, -1)
        else
          match alloc_descend self.longest size (self.longest.length + 1) self.size 0 with
          | none => none
          | some (index, node_size) =>
            match wr self.longest index 0 with
            | none => none
            | some longest =>
              let offset :=
                ((index + 1) * node_size % 4294967296 + (4294967296 - self.size % 4294967296))
                  % 4294967296
              match alloc_update (longest.length + 1) longest index with
              | none => none
              | some longest => some ({ self with longest := longest }, toInt offset)

/-- `int buddy2_alloc` with the pointer argument: a null `self` returns `-1`. -/
def buddy2_alloc_ptr (self : Option buddy2) (size : Int) : Option (Option buddy2 × Int) :=
  match self with
  | none => some (none, -1)
  | some b =>
    match buddy2_alloc b size with
    | none => none
    | some (b, r) => some (some b, r)

/-- The first loop of `buddy2_free`,
`for(; longest[index]; index = PARENT(index)) { node_size *= 2; if(index == 0) return; }`.
The inner option is `none` when the function returns from inside the loop. -/
def free_climb (longest : List Nat) : Nat → Nat → Nat → Option (Option (Nat × Nat))
  | 0, _, _ => none
  | fuel + 1, index, node_size =>
    match rd longest index with
    | none => none
    | some v =>
      if v ≠ 0 then
        let node_size := node_size * 2 % 4294967296
        if index = 0 then some none
        else free_climb longest fuel (PARENT index) node_size
      else some (some (index, node_size))

/-- The second loop of `buddy2_free`, `while(index) { ... }`. -/
def free_coalesce : Nat → List Nat → Nat → Nat → Option (List Nat)
  | 0, _, _, _ => none
  | fuel + 1, longest, index, node_size =>
    if index ≠ 0 then
      let index := PARENT index
      let node_size := node_size * 2 % 4294967296
      match rd longest (LEFT_LEAF index), rd longest (RIGHT_LEAF index) with
      | some left_longest, some right_longest =>
        let v :=
          if (left_longest + right_longest) % 4294967296 = node_size then node_size
          else MAX left_longest right_longest
        match wr longest index v with
        | none => none
        | some longest => free_coalesce fuel longest index node_size
      | _, _ => none
    else some longest

/-- `void buddy2_free(struct buddy2* self, int offset)` for a non-null `self`; a
failed `assert` yields `none`. -/
def buddy2_free (self : buddy2) (offset : Int) : Option buddy2 :=
  if 0 ≤ offset ∧ offset.toNat < self.size then
    let index := (offset.toNat + self.size + 4294967295) % 4294967296
    match free_climb self.longest (self.longest.length + 1) index 1 with
    | none => none
    | some none => some self
    | some (some (index, node_size)) =>
      match wr self.longest index node_size with
      | none => none
      | some longest =>
        match free_coalesce (longest.length + 1) longest index node_size with
        | none => none
        | some longest => some { self with longest := longest }
  else none

/-- The loop of `buddy2_size`,
`for(index = ..; longest[index]; index = PARENT(index)) node_size *= 2;`. -/
def size_climb (longest : List Nat) : Nat → Nat → Nat → Option Nat
  | 0, _, _ => none
  | fuel + 1, index, node_size =>
    match rd longest index with
    | none => none
    | some v =>
      if v ≠ 0 then size_climb longest fuel (PARENT index) (node_size * 2 % 4294967296)
      else some node_size

/-- `int buddy2_size(struct buddy2* self, int offset)` for a non-null `self`. -/
def buddy2_size (self : buddy2) (offset : Int) : Option Int :=
  if 0 ≤ offset ∧ offset.toNat < self.size then
    let index := (offset.toNat + self.size + 4294967295) % 4294967296
    match size_climb self.longest (self.longest.length + 2) index 1 with
    | none => none
    | some node_size => some (toInt node_size)
  else none

/-! ## Vocabulary of the specification and of the proofs -/

/-- The content of cell `i` of `longest` (`0` outside the array; only used for indices
known to be inside). -/
def val (l : List Nat) (i : Nat) : Nat := l.getD i 0

/-- `Below i j x`: node `x` lies `j` levels below node `i` (so `Below i 0 i`, and the
children of a node below `i` are one level further down). -/
inductive Below (i : Nat) : Nat → Nat → Prop
  | self : Below i 0 i
  | left {j x : Nat} : Below i j x → Below i (j + 1) (2 * x + 1)
  | right {j x : Nat} : Below i j x → Below i (j + 1) (2 * x + 2)

/-- The relation between the value `v` of an internal node whose children have span
`2 ^ h` and the values `a`, `b` of its children: either both children are entirely free
and the node is entirely free (`2 ^ (h + 1)`) or handed out (`0`), or the node holds
the larger of the two. -/
def Rule (h v a b : Nat) : Prop :=
  (a = 2 ^ h ∧ b = 2 ^ h ∧ (v = 2 ^ (h + 1) ∨ v = 0)) ∨
  (¬ (a = 2 ^ h ∧ b = 2 ^ h) ∧ v = max a b)

/-- Well-formedness of `longest` for a tree of height `k` (capacity `2 ^ k`). -/
structure Tree (k : Nat) (l : List Nat) : Prop where
  len : l.length = 2 * 2 ^ k - 1
  bound : ∀ d h i, d + h = k → Below 0 d i → val l i ≤ 2 ^ h
  rule : ∀ d h i, d + (h + 1) = k → Below 0 d i →
    Rule h (val l i) (val l (2 * i + 1)) (val l (2 * i + 2))

/-- The invariant of allocator states. -/
structure Inv (k : Nat) (b : buddy2) : Prop where
  k_le : k ≤ 29
  size_eq : b.size = 2 ^ k
  tree : Tree k b.longest

/-- Node `i` is the top of a block that is handed out: its value is `0` and, unless it
is a leaf, its left child is not `0`. -/
def IsLive (k : Nat) (l : List Nat) (i : Nat) : Prop :=
  ∃ d h, d + h = k ∧ Below 0 d i ∧ val l i = 0 ∧ (h = 0 ∨ val l (2 * i + 1) ≠ 0)

/-- `PathEdit F k index v0 l l2`: the array `l2` is `l` with cell `index` set to `v0`
and every proper ancestor `x` of `index` recomputed, bottom-up, as `F h a b` from the
final values `a`, `b` of its children, where `2 ^ h` is the span of `x`. -/
structure PathEdit (F : Nat → Nat → Nat → Nat) (k index v0 : Nat) (l l2 : List Nat) : Prop where
  len : l2.length = l.length
  off : ∀ x, (∀ j, ¬ Below x j index) → val l2 x = val l x
  mark : val l2 index = v0
  anc : ∀ x j d h, Below x (j + 1) index → Below 0 d x → d + h = k →
    val l2 x = F h (val l2 (2 * x + 1)) (val l2 (2 * x + 2))

/-- The recomputation used by `buddy2_alloc`: the larger of the two children. -/
def maxRule (_h a b : Nat) : Nat := max a b

/-- The recomputation used by `buddy2_free` for a node of span `2 ^ h`: the whole span
when the values of the children add up to it, the larger child otherwise. -/
def coalesce (h a b : Nat) : Nat := if a + b = 2 ^ h then 2 ^ h else max a b

/-- The leaf of unit `p` in a tree of capacity `2 ^ k`. -/
def leafOf (k p : Nat) : Nat := p + 2 ^ k - 1

/-- The values of the C type `int`. -/
def InIntRange (x : Int) : Prop := -2147483648 ≤ x ∧ x ≤ 2147483647

/-- States reachable from `buddy2_new` by calls of `buddy2_alloc` and `buddy2_free`
that return normally. -/
inductive Reachable : buddy2 → Prop
  | create {size : Int} {b : buddy2} : buddy2_new size = some (some b) → Reachable b
  | alloc {b b2 : buddy2} {size r : Int} : Reachable b → InIntRange size →
      buddy2_alloc b size = some (b2, r) → Reachable b2
  | free {b b2 : buddy2} {offset : Int} : Reachable b →
      buddy2_free b offset = some b2 → Reachable b2

/-- A block `(o, n)` covers the units `o, .., o + n - 1`. -/
def covers (blk : Int × Nat) (p : Int) : Prop := blk.1 ≤ p ∧ p < blk.1 + blk.2

instance (blk : Int × Nat) (p : Int) : Decidable (covers blk p) := by
  unfold covers; exact inferInstance

/-- Two blocks share no unit. -/
def apart (a c : Int × Nat) : Prop := a.1 + a.2 ≤ c.1 ∨ c.1 + c.2 ≤ a.1

/-- `History b L`: the state `b` is reached from `buddy2_new` by calls of `buddy2_alloc`
and `buddy2_free`, and `L` lists the blocks `(offset, normalised size)` returned by a
successful `buddy2_alloc` and not released since.  `free_live` is the release of a
block of `L` by the offset that `buddy2_alloc` returned for it; `free_any` is a call of
`buddy2_free` with any offset that passes its `assert`, after which the blocks that
cover the unit `p` no longer count as handed out. -/
inductive History : buddy2 → List (Int × Nat) → Prop
  | create {size : Int} {b : buddy2} : buddy2_new size = some (some b) → History b []
  | alloc_ok {b b2 : buddy2} {L : List (Int × Nat)} {size o : Int} {n : Nat} :
      History b L → InIntRange size → buddy2_alloc b size = some (b2, o) → o ≠ -1 →
      normalize size = some n → History b2 ((o, n) :: L)
  | alloc_fail {b b2 : buddy2} {L : List (Int × Nat)} {size : Int} :
      History b L → InIntRange size → buddy2_alloc b size = some (b2, -1) → History b2 L
  | free_live {b b2 : buddy2} {L : List (Int × Nat)} {o : Int} {n : Nat} :
      History b L → (o, n) ∈ L → buddy2_free b o = some b2 → History b2 (L.erase (o, n))
  | free_any {b b2 : buddy2} {L : List (Int × Nat)} {p : Int} :
      History b L → buddy2_free b p = some b2 →
      History b2 (L.filter (fun blk => decide (¬ covers blk p)))

/-- `LiveBlock k l o n`: in the array `l` of a tree of height `k`, the block `(o, n)`
is the span of a live node. -/
def LiveBlock (k : Nat) (l : List Nat) (o : Int) (n : Nat) : Prop :=
  ∃ i d h, d + h = k ∧ Below 0 d i ∧ val l i = 0 ∧ (h = 0 ∨ val l (2 * i + 1) ≠ 0) ∧
    n = 2 ^ h ∧ o + ((2 ^ k : Nat) : Int) = (((i + 1) * 2 ^ h : Nat) : Int)

/-- The link between a history and its state: the listed blocks are exactly the spans
of the live nodes. -/
def HistInv (b : buddy2) (L : List (Int × Nat)) : Prop :=
  ∃ k, Inv k b ∧ L.Nodup ∧ ∀ o n, (o, n) ∈ L ↔ LiveBlock k b.longest o n

/-- The state returned by `buddy2_new(2)`. -/
def st2_fresh : buddy2 := { size := 2, longest := [2, 1, 1] }

/-- The state after `buddy2_alloc(1)` on `st2_fresh`: unit `0` is handed out. -/
def st2_one : buddy2 := { size := 2, longest := [1, 0, 1] }

/-- The state after a second `buddy2_alloc(1)`: both units are handed out. -/
def st2_both : buddy2 := { size := 2, longest := [0, 0, 0] }

/-- The state returned by `buddy2_new(16)`. -/
def st16_fresh : buddy2 :=
  { size := 16,
    longest := [16, 8, 8, 4, 4, 4, 4, 2, 2, 2, 2, 2, 2, 2, 2,
      1, 1, 1, 1, 1, 1, 1, 1, 1, 1, 1, 1, 1, 1, 1, 1] }

/-- The state after `buddy2_alloc(5)` on `st16_fresh`: units `0..7` are handed out. -/
def st16_five : buddy2 :=
  { size := 16,
    longest := [8, 0, 8, 4, 4, 4, 4, 2, 2, 2, 2, 2, 2, 2, 2,
      1, 1, 1, 1, 1, 1, 1, 1, 1, 1, 1, 1, 1, 1, 1, 1] }

/-- The level of node `i` in the implicit tree, `floor(log2(i + 1))`; the root is at
level `0`. -/
def depth (i : Nat) : Nat := Nat.log 2 (i + 1)

/-- The span of node `i`: `size / 2 ^ depth(i)` units. -/
def span (b : buddy2) (i : Nat) : Nat := b.size / 2 ^ depth i

/-- The block of node `i`: its offset by the formula of `buddy2_alloc`,
`(i + 1) * span - size`, and its size `span`. -/
def blockOf (b : buddy2) (i : Nat) : Int × Nat :=
  ((((i + 1) * span b i : Nat) : Int) - (b.size : Int), span b i)

/-- Block `a` lies within block `c`. -/
def within (a c : Int × Nat) : Prop := c.1 ≤ a.1 ∧ a.1 + a.2 ≤ c.1 + c.2

/-- No unit of block `a` belongs to a block of the list `L`. -/
def freeIn (L : List (Int × Nat)) (a : Int × Nat) : Prop := ∀ blk ∈ L, apart a blk

/-- The state returned by `buddy2_new(8)`. -/
def st8_fresh : buddy2 :=
  { size := 8, longest := [8, 4, 4, 2, 2, 2, 2, 1, 1, 1, 1, 1, 1, 1, 1] }

/-- After `buddy2_alloc(3)` on `st8_fresh`: units `0..3` are handed out. -/
def st8_a : buddy2 :=
  { size := 8, longest := [4, 0, 4, 2, 2, 2, 2, 1, 1, 1, 1, 1, 1, 1, 1] }

/-- After `buddy2_alloc(4)` on `st8_a`: every unit is handed out. -/
def st8_ab : buddy2 :=
  { size := 8, longest := [0, 0, 0, 2, 2, 2, 2, 1, 1, 1, 1, 1, 1, 1, 1] }

/-- After `buddy2_free(0)` on `st8_ab`: units `4..7` are handed out. -/
def st8_b : buddy2 :=
  { size := 8, longest := [4, 4, 0, 2, 2, 2, 2, 1, 1, 1, 1, 1, 1, 1, 1] }

/-- The state returned by `buddy2_new(4)`. -/
def st4_fresh : buddy2 := { size := 4, longest := [4, 2, 2, 1, 1, 1, 1] }

/-- After `buddy2_alloc(2)` on `st4_fresh`: units `0..1` are handed out. -/
def st4_a : buddy2 := { size := 4, longest := [2, 0, 2, 1, 1, 1, 1] }

/-- After `buddy2_alloc(1)` on `st4_a`: units `0..1` and unit `2` are handed out. -/
def st4_ab : buddy2 := { size := 4, longest := [1, 0, 1, 1, 1, 0, 1] }

/-- After `buddy2_free(0)` on `st4_ab`: only unit `2` is handed out; units `0..1` form
a free block of size 2 and unit `3` a free block of size 1. -/
def st4_split : buddy2 := { size := 4, longest := [2, 2, 1, 1, 1, 0, 1] }

/-- After `buddy2_alloc(1)` on `st4_split`: units `0` and `2` are handed out. -/
def st4_after : buddy2 := { size := 4, longest := [1, 1, 1, 0, 1, 0, 1] }

/-- The calls `buddy2_free(self, o)` for the offsets `o` of a list, one after the other,
each on the state the previous one left; `none` as soon as one of them does not
return. -/
def free_each (b : buddy2) : List Int → Option buddy2
  | [] => some b
  | o :: os =>
    match buddy2_free b o with
    | none => none
    | some b2 => free_each b2 os

/-! ## Bit test and size normalisation -/

theorem land_mod_two_zero (a b : Nat) (h : a % 2 = 0 ∨ b % 2 = 0) : (a &&& b) % 2 = 0 := by
  have := @Nat.and_mod_two_eq_one a b
  omega

theorem land_pred_even (y : Nat) (hy : 0 < y) :
    (2 * y) &&& (2 * y - 1) = 2 * (y &&& (y - 1)) := by
  have h1 : ((2 * y) &&& (2 * y - 1)) / 2 = y &&& (y - 1) := by
    rw [Nat.and_div_two]
    congr 1 <;> omega
  have h2 := land_mod_two_zero (2 * y) (2 * y - 1) (by omega)
  omega

theorem land_pred_odd (y : Nat) : (2 * y + 1) &&& (2 * y + 1 - 1) = 2 * y := by
  have h1 : ((2 * y + 1) &&& (2 * y + 1 - 1)) / 2 = y := by
    rw [Nat.and_div_two]
    have a1 : (2 * y + 1) / 2 = y := by omega
    have a2 : (2 * y + 1 - 1) / 2 = y := by omega
    rw [a1, a2, Nat.and_self]
  have h2 := land_mod_two_zero (2 * y + 1) (2 * y + 1 - 1) (by omega)
  omega

theorem land_pred_eq_zero_iff :
    ∀ x : Nat, 0 < x → ((x &&& (x - 1)) = 0 ↔ ∃ k, x = 2 ^ k) := by
  intro x
  induction x using Nat.strong_induction_on with
  | _ x ih =>
    intro hx
    rcases Nat.even_or_odd' x with ⟨y, rfl | rfl⟩
    · have hy : 0 < y := by omega
      rw [land_pred_even y hy]
      have := ih y (by omega) hy
      constructor
      · intro h
        obtain ⟨k, hk⟩ := this.mp (by omega)
        exact ⟨k + 1, by rw [hk, pow_succ]; ring⟩
      · rintro ⟨k, hk⟩
        cases k with
        | zero => rw [pow_zero] at hk; omega
        | succ k =>
          have : y = 2 ^ k := by rw [pow_succ] at hk; omega
          have := (ih y (by omega) hy).mpr ⟨k, this⟩
          omega
    · rw [land_pred_odd y]
      constructor
      · intro h
        exact ⟨0, by rw [pow_zero]; omega⟩
      · rintro ⟨k, hk⟩
        cases k with
        | zero => rw [pow_zero] at hk; omega
        | succ k => rw [pow_succ] at hk; omega

theorem isPow2_iff (x : Nat) (hx : 0 < x) : IS_POWER_OF_2 x = true ↔ ∃ k, x = 2 ^ k := by
  unfold IS_POWER_OF_2
  rw [beq_iff_eq]
  exact land_pred_eq_zero_iff x hx

theorem isPow2_pow (k : Nat) : IS_POWER_OF_2 (2 ^ k) = true :=
  (isPow2_iff _ (Nat.pos_pow_of_pos k (by decide))).mpr ⟨k, rfl⟩

theorem pow_le_pow2 {a b : Nat} (h : a ≤ b) : 2 ^ a ≤ 2 ^ b :=
  Nat.pow_le_pow_right (by decide) h

theorem pow2_pos (a : Nat) : 0 < 2 ^ a := Nat.pos_pow_of_pos a (by decide)

theorem pow2_lt_iff {a b : Nat} : 2 ^ a < 2 ^ b ↔ a < b :=
  Nat.pow_lt_pow_iff_right (by decide)

theorem pow2_le_iff {a b : Nat} : 2 ^ a ≤ 2 ^ b ↔ a ≤ b :=
  Nat.pow_le_pow_iff_right (by decide)

theorem pow2_inj {a b : Nat} (h : 2 ^ a = 2 ^ b) : a = b :=
  Nat.pow_right_injective (le_refl 2) h

theorem fixsize_loop_spec :
    ∀ fuel size idx e, size < 2 ^ e → e < fuel →
      ∃ j, fixsize_loop fuel size idx = some (idx + j) ∧ j ≤ e ∧ size < 2 ^ j ∧
        (size ≠ 0 → 2 ^ j ≤ 2 * size) ∧ (size = 0 → j = 0) := by
  intro fuel
  induction fuel with
  | zero => intro size idx e _ h; omega
  | succ fuel ih =>
    intro size idx e hs he
    unfold fixsize_loop
    by_cases h0 : size = 0
    · subst h0
      exact ⟨0, by simp, by omega, by simp, by simp, by simp⟩
    · rw [if_pos h0]
      cases e with
      | zero => rw [pow_zero] at hs; omega
      | succ e =>
        have hs2 : size >>> 1 < 2 ^ e := by
          rw [Nat.shiftRight_eq_div_pow, pow_one]
          rw [pow_succ] at hs; omega
        obtain ⟨j, hj, hje, hlt, hge, hz⟩ := ih (size >>> 1) (idx + 1) e hs2 (by omega)
        rw [Nat.shiftRight_eq_div_pow, pow_one] at hj hlt hge hz
        refine ⟨j + 1, ?_, by omega, ?_, ?_, ?_⟩
        · rw [Nat.shiftRight_eq_div_pow, pow_one, hj]; congr 1; omega
        · rw [pow_succ]; omega
        · intro _
          rw [pow_succ]
          by_cases h2 : size / 2 = 0
          · have := hz h2; subst this; rw [pow_zero]; omega
          · have := hge h2; omega
        · intro h; exact absurd h h0

theorem normalize_spec (size : Int) (h0 : 0 < size) (h1 : size ≤ 2147483647) :
    ∃ j n, normalize size = some n ∧ n = 2 ^ j ∧ j ≤ 31 ∧ size ≤ (n : Int) ∧
      (n : Int) < 2 * size := by
  obtain ⟨s, rfl⟩ : ∃ s : Nat, size = (s : Int) := ⟨size.toNat, by omega⟩
  have hs0 : 0 < s := by omega
  have hs1 : s < 2 ^ 31 := by norm_num; omega
  unfold normalize
  rw [Int.toNat_ofNat]
  by_cases hp : IS_POWER_OF_2 s = true
  · rw [if_pos hp]
    obtain ⟨k, hk⟩ := (isPow2_iff s hs0).mp hp
    refine ⟨k, s, rfl, hk, ?_, le_refl _, by omega⟩
    rw [hk] at hs1
    have := pow2_lt_iff.mp hs1
    omega
  · rw [if_neg hp]
    obtain ⟨j, hj, hje, hlt, hge, _⟩ := fixsize_loop_spec 34 s 0 31 hs1 (by decide)
    have hge := hge (by omega)
    have hne : 2 ^ j ≠ 2 * s := by
      intro he
      cases j with
      | zero => rw [pow_zero] at he; omega
      | succ j =>
        apply hp
        exact (isPow2_iff s hs0).mpr ⟨j, by rw [pow_succ] at he; omega⟩
    have hj32 : 2 ^ j < 4294967296 := by
      have : 2 ^ j ≤ 2 ^ 31 := pow_le_pow2 hje
      norm_num at this ⊢; omega
    refine ⟨j, 2 ^ j, ?_, rfl, hje, ?_, ?_⟩
    · unfold fixsize
      rw [hj]
      simp only [Nat.zero_add, Nat.one_shiftLeft]
      rw [Nat.mod_eq_of_lt hj32]
    · have : s ≤ 2 ^ j := by omega
      exact_mod_cast this
    · have : 2 ^ j < 2 * s := by omega
      exact_mod_cast this

/-! ## Cells of `longest` -/

theorem getElem?_eq_val {l : List Nat} {i : Nat} (h : i < l.length) :
    l[i]? = some (val l i) := by
  unfold val
  rw [List.getD_eq_getElem?_getD, List.getElem?_eq_getElem h]
  rfl

theorem rd_of_lt {l : List Nat} {i : Nat} (h : i < l.length) : rd l i = some (val l i) :=
  getElem?_eq_val h

theorem rd_some {l : List Nat} {i v : Nat} (h : rd l i = some v) :
    i < l.length ∧ val l i = v := by
  unfold rd at h
  have hlt : i < l.length := by
    by_contra hc
    rw [List.getElem?_eq_none (by omega)] at h
    cases h
  refine ⟨hlt, ?_⟩
  rw [getElem?_eq_val hlt] at h
  exact Option.some.inj h

theorem rd_none {l : List Nat} {i : Nat} (h : l.length ≤ i) : rd l i = none := by
  unfold rd
  exact List.getElem?_eq_none h

theorem wr_of_lt {l : List Nat} {i : Nat} (v : Nat) (h : i < l.length) :
    wr l i v = some (l.set i v) := by
  unfold wr
  rw [if_pos h]

theorem val_set_eq {l : List Nat} {i : Nat} (v : Nat) (h : i < l.length) :
    val (l.set i v) i = v := by
  unfold val
  rw [List.getD_eq_getElem?_getD, List.getElem?_set]
  simp [h]

theorem val_set_ne {l : List Nat} {i j : Nat} (v : Nat) (h : j ≠ i) :
    val (l.set i v) j = val l j := by
  unfold val
  rw [List.getD_eq_getElem?_getD, List.getD_eq_getElem?_getD, List.getElem?_set]
  rw [if_neg (fun e => h e.symm)]

theorem list_ext_val {l1 l2 : List Nat} (hlen : l1.length = l2.length)
    (h : ∀ i, i < l1.length → val l1 i = val l2 i) : l1 = l2 := by
  apply List.ext_getElem?
  intro n
  by_cases hn : n < l1.length
  · rw [getElem?_eq_val hn, getElem?_eq_val (hlen ▸ hn), h n hn]
  · rw [List.getElem?_eq_none (by omega), List.getElem?_eq_none (by omega)]

/-! ## Index arithmetic of the implicit tree -/

theorem LEFT_LEAF_eq {i : Nat} (h : i < 2147483648) : LEFT_LEAF i = 2 * i + 1 := by
  unfold LEFT_LEAF; omega

theorem RIGHT_LEAF_eq {i : Nat} (h : i < 2147483647) : RIGHT_LEAF i = 2 * i + 2 := by
  unfold RIGHT_LEAF; omega

theorem PARENT_left {p : Nat} (h : p < 2147483647) : PARENT (2 * p + 1) = p := by
  unfold PARENT; omega

theorem PARENT_right {p : Nat} (h : p < 2147483647) : PARENT (2 * p + 2) = p := by
  unfold PARENT; omega

theorem PARENT_zero : PARENT 0 = 4294967295 := by decide

theorem below_zero {i x : Nat} (h : Below i 0 x) : x = i := by
  cases h; rfl

theorem below_succ_inv {j i x : Nat} (h : Below i (j + 1) x) :
    ∃ p, Below i j p ∧ (x = 2 * p + 1 ∨ x = 2 * p + 2) := by
  cases h with
  | left h => exact ⟨_, h, Or.inl rfl⟩
  | right h => exact ⟨_, h, Or.inr rfl⟩

theorem below_range {j i x : Nat} (h : Below i j x) :
    (i + 1) * 2 ^ j ≤ x + 1 ∧ x + 1 < (i + 2) * 2 ^ j := by
  induction h with
  | self => simp
  | left _ ih =>
    rw [pow_succ, ← Nat.mul_assoc, ← Nat.mul_assoc]; omega
  | right _ ih =>
    rw [pow_succ, ← Nat.mul_assoc, ← Nat.mul_assoc]; omega

theorem below_of_range : ∀ (j i x : Nat), (i + 1) * 2 ^ j ≤ x + 1 → x + 1 < (i + 2) * 2 ^ j →
    Below i j x := by
  intro j
  induction j with
  | zero =>
    intro i x h1 h2
    rw [pow_zero] at h1 h2
    have : x = i := by omega
    subst this; exact Below.self
  | succ j ih =>
    intro i x h1 h2
    rw [pow_succ, ← Nat.mul_assoc] at h1 h2
    have hpos : 0 < (i + 1) * 2 ^ j := Nat.mul_pos (by omega) (pow2_pos j)
    rcases Nat.even_or_odd' (x + 1) with ⟨q, hq | hq⟩
    · have hb : Below i j (q - 1) := ih i (q - 1) (by omega) (by omega)
      have : x = 2 * (q - 1) + 1 := by omega
      rw [this]; exact Below.left hb
    · have hb : Below i j (q - 1) := ih i (q - 1) (by omega) (by omega)
      have : x = 2 * (q - 1) + 2 := by omega
      rw [this]; exact Below.right hb

theorem below_root_range {d i : Nat} (h : Below 0 d i) : 2 ^ d ≤ i + 1 ∧ i + 1 < 2 ^ (d + 1) := by
  have := below_range h
  rw [pow_succ]; omega

theorem below_root_of_range {d i : Nat} (h1 : 2 ^ d ≤ i + 1) (h2 : i + 1 < 2 ^ (d + 1)) :
    Below 0 d i := by
  apply below_of_range
  · omega
  · rw [pow_succ] at h2; omega

theorem below_trans {a i m b x : Nat} (h1 : Below i a m) (h2 : Below m b x) :
    Below i (a + b) x := by
  induction h2 with
  | self => exact h1
  | left _ ih => exact Below.left ih
  | right _ ih => exact Below.right ih

theorem below_le {j i x : Nat} (h : Below i j x) : i ≤ x := by
  induction h with
  | self => exact le_refl _
  | left _ ih => omega
  | right _ ih => omega

theorem below_lt {j i x : Nat} (h : Below i (j + 1) x) : i < x := by
  obtain ⟨p, hp, hx⟩ := below_succ_inv h
  have := below_le hp
  omega

theorem below_common {j a x : Nat} (h1 : Below a j x) :
    ∀ {j2 a2 : Nat}, Below a2 j2 x → j ≤ j2 → Below a2 (j2 - j) a := by
  induction h1 with
  | self => intro j2 a2 h2 _; exact h2
  | @left j p _ ih =>
    intro j2 a2 h2 hle
    cases j2 with
    | zero => omega
    | succ j2 =>
      obtain ⟨q, hq, hx⟩ := below_succ_inv h2
      have : q = p := by omega
      subst this
      have := ih hq (by omega)
      rw [Nat.succ_sub_succ]; exact this
  | @right j p _ ih =>
    intro j2 a2 h2 hle
    cases j2 with
    | zero => omega
    | succ j2 =>
      obtain ⟨q, hq, hx⟩ := below_succ_inv h2
      have : q = p := by omega
      subst this
      have := ih hq (by omega)
      rw [Nat.succ_sub_succ]; exact this

theorem below_depth_unique {d1 d2 i : Nat} (h1 : Below 0 d1 i) (h2 : Below 0 d2 i) :
    d1 = d2 := by
  have r1 := below_root_range h1
  have r2 := below_root_range h2
  by_contra hne
  rcases Nat.lt_or_gt_of_ne hne with h | h
  · have : 2 ^ (d1 + 1) ≤ 2 ^ d2 := pow_le_pow2 h
    omega
  · have : 2 ^ (d2 + 1) ≤ 2 ^ d1 := pow_le_pow2 h
    omega

theorem below_same {j a1 a2 x : Nat} (h1 : Below a1 j x) (h2 : Below a2 j x) : a1 = a2 := by
  have := below_common h1 h2 (le_refl _)
  rw [Nat.sub_self] at this
  exact (below_zero this)

/-! ## The state invariant -/

theorem index_lt_of_below {k d i : Nat} (hd : d ≤ k) (h : Below 0 d i) :
    i < 2 * 2 ^ k - 1 := by
  have r := below_root_range h
  have : 2 ^ (d + 1) ≤ 2 ^ (k + 1) := pow_le_pow2 (by omega)
  rw [pow_succ 2 k] at this
  omega

theorem pow_k_le {k : Nat} (hk : k ≤ 29) : 2 ^ k ≤ 536870912 := by
  have : 2 ^ k ≤ 2 ^ 29 := pow_le_pow2 hk
  norm_num at this
  exact this

theorem log_succ_of_range {x e : Nat} (h1 : 2 ^ e ≤ 2 * (x + 1)) (h2 : x + 1 < 2 ^ e) :
    Nat.log 2 (x + 1) + 1 = e := by
  cases e with
  | zero => rw [pow_zero] at h2; omega
  | succ e =>
    have : Nat.log 2 (x + 1) = e := by
      apply (Nat.log_eq_iff (Or.inr ⟨by decide, by omega⟩)).mpr
      rw [pow_succ] at h1
      exact ⟨by omega, h2⟩
    rw [this]

theorem new_loop_spec (bound N : Nat) :
    ∀ fuel i l e, l.length = bound → i ≤ bound → bound < fuel + i →
      i < 2 ^ e → (i ≠ 0 → 2 ^ e ≤ 2 * i) → (i = 0 → e = 0) →
      ∃ l2, new_loop bound fuel i (N / 2 ^ e) l = some l2 ∧ l2.length = bound ∧
        (∀ x, x < i → val l2 x = val l x) ∧
        (∀ x, i ≤ x → x < bound → val l2 x = N / 2 ^ (Nat.log 2 (x + 1) + 1)) := by
  intro fuel
  induction fuel with
  | zero => intro i l e _ h1 h2; omega
  | succ fuel ih =>
    intro i l e hlen hi hf he1 he2 he3
    unfold new_loop
    by_cases hib : i < bound
    · rw [if_pos hib]
      -- the exponent after the optional halving
      obtain ⟨e2, hns, hr1, hr2⟩ : ∃ e2,
          (if IS_POWER_OF_2 (i + 1) = true then N / 2 ^ e / 2 else N / 2 ^ e) = N / 2 ^ e2 ∧
          i + 1 < 2 ^ e2 ∧ 2 ^ e2 ≤ 2 * (i + 1) := by
        by_cases hp : IS_POWER_OF_2 (i + 1) = true
        · obtain ⟨q, hq⟩ := (isPow2_iff (i + 1) (by omega)).mp hp
          have heq : e = q := by
            by_cases hi0 : i = 0
            · have := he3 hi0
              subst hi0
              cases q with
              | zero => omega
              | succ q =>
                have := pow2_pos q
                rw [pow_succ] at hq; omega
            · have h2 := he2 hi0
              have a1 : 2 ^ q ≤ 2 ^ e := by omega
              have a2 : 2 ^ e < 2 ^ (q + 1) := by rw [pow_succ]; omega
              have := pow2_le_iff.mp a1
              have := pow2_lt_iff.mp a2
              omega
          subst heq
          refine ⟨e + 1, ?_, ?_, ?_⟩
          · rw [if_pos hp, Nat.div_div_eq_div_mul, pow_succ]
          · rw [pow_succ]; omega
          · rw [pow_succ]; omega
        · refine ⟨e, by rw [if_neg hp], ?_, ?_⟩
          · have : i + 1 ≠ 2 ^ e := fun h => hp ((isPow2_iff (i + 1) (by omega)).mpr ⟨e, h⟩)
            omega
          · by_cases hi0 : i = 0
            · exfalso; apply hp; subst hi0; exact isPow2_pow 0
            · have := he2 hi0; omega
      simp only [hns]
      rw [wr_of_lt _ (by omega)]
      obtain ⟨l2, hrun, hlen2, hlo, hhi⟩ :=
        ih (i + 1) (l.set i (N / 2 ^ e2)) e2 (by rw [List.length_set]; exact hlen)
          (by omega) (by omega) hr1 (fun _ => hr2) (by omega)
      refine ⟨l2, hrun, hlen2, ?_, ?_⟩
      · intro x hx
        rw [hlo x (by omega), val_set_ne _ (by omega)]
      · intro x hx1 hx2
        by_cases hxi : x = i
        · subst hxi
          rw [hlo x (by omega), val_set_eq _ (by omega), log_succ_of_range hr2 hr1]
        · exact hhi x (by omega) hx2
    · rw [if_neg hib]
      exact ⟨l, rfl, hlen, fun _ _ => rfl, fun x h1 h2 => by omega⟩

theorem buddy2_new_pow (k : Nat) (hk : k ≤ 29) :
    ∃ l, buddy2_new ((2 : Int) ^ k) = some (some { size := 2 ^ k, longest := l }) ∧
      l.length = 2 * 2 ^ k - 1 ∧
      ∀ i, i < 2 * 2 ^ k - 1 → val l i = 2 ^ k / 2 ^ Nat.log 2 (i + 1) := by
  have hc := pow_k_le hk
  have hpos := pow2_pos k
  have hcast : ((2 : Int) ^ k) = ((2 ^ k : Nat) : Int) := by push_cast; rfl
  unfold buddy2_new
  rw [hcast, Int.toNat_ofNat]
  rw [if_neg (by
    intro h
    rcases h with h | h
    · omega
    · rw [isPow2_pow] at h; cases h)]
  rw [if_neg (by omega)]
  obtain ⟨l, hrun, hlen, _, hv⟩ :=
    new_loop_spec (2 * 2 ^ k - 1) (2 ^ k * 2) (2 * 2 ^ k) 0
      (List.replicate (2 * 2 ^ k - 1) 0) 0 (by simp) (by omega) (by omega)
      (by simp) (by simp) (by simp)
  rw [pow_zero, Nat.div_one] at hrun
  simp only [hrun]
  refine ⟨l, rfl, hlen, ?_⟩
  intro i hi
  rw [hv i (by omega) hi, pow_succ, Nat.mul_div_mul_right _ _ (by decide)]

theorem tree_of_new {k : Nat} {l : List Nat} (hlen : l.length = 2 * 2 ^ k - 1)
    (hv : ∀ i, i < 2 * 2 ^ k - 1 → val l i = 2 ^ k / 2 ^ Nat.log 2 (i + 1)) :
    Tree k l ∧ ∀ d h i, d + h = k → Below 0 d i → val l i = 2 ^ h := by
  have key : ∀ d h i, d + h = k → Below 0 d i → val l i = 2 ^ h := by
    intro d h i hdh hb
    have r := below_root_range hb
    rw [hv i (index_lt_of_below (by omega) hb)]
    have : Nat.log 2 (i + 1) = d :=
      (Nat.log_eq_iff (Or.inr ⟨by decide, by omega⟩)).mpr r
    rw [this, Nat.pow_div (by omega) (by decide)]
    congr 1; omega
  refine ⟨⟨hlen, ?_, ?_⟩, key⟩
  · intro d h i hdh hb
    exact le_of_eq (key d h i hdh hb)
  · intro d h i hdh hb
    left
    exact ⟨key (d + 1) h _ (by omega) (Below.left hb),
      key (d + 1) h _ (by omega) (Below.right hb), Or.inl (key d (h + 1) i hdh hb)⟩

theorem buddy2_new_some {size : Int} {b : buddy2} (h : buddy2_new size = some (some b)) :
    ∃ k, k ≤ 29 ∧ size = ((2 ^ k : Nat) : Int) := by
  unfold buddy2_new at h
  by_cases h1 : size < 1 ∨ IS_POWER_OF_2 size.toNat = false
  · rw [if_pos h1] at h; cases h
  · rw [if_neg h1] at h
    by_cases h2 : 2147483647 < 2 * size
    · rw [if_pos h2] at h; cases h
    · have hs : ¬ size < 1 := fun hc => h1 (Or.inl hc)
      have hp : IS_POWER_OF_2 size.toNat = true := by
        cases hq : IS_POWER_OF_2 size.toNat
        · exact absurd (Or.inr hq) h1
        · rfl
      obtain ⟨k, hk⟩ := (isPow2_iff _ (by omega)).mp hp
      refine ⟨k, ?_, by omega⟩
      by_contra hk30
      have : 2 ^ 30 ≤ 2 ^ k := pow_le_pow2 (by omega)
      norm_num at this
      omega

theorem inv_of_new {size : Int} {b : buddy2} (h : buddy2_new size = some (some b)) :
    ∃ k, Inv k b ∧ (b.size : Int) = size ∧
      ∀ d h i, d + h = k → Below 0 d i → val b.longest i = 2 ^ h := by
  obtain ⟨k, hk, hs⟩ := buddy2_new_some h
  obtain ⟨l, hnew, hlen, hv⟩ := buddy2_new_pow k hk
  have hcast : ((2 : Int) ^ k) = ((2 ^ k : Nat) : Int) := by push_cast; rfl
  rw [hcast, ← hs, h] at hnew
  have hb : b = { size := 2 ^ k, longest := l } := Option.some.inj (Option.some.inj hnew)
  subst hb
  obtain ⟨ht, hfull⟩ := tree_of_new hlen hv
  exact ⟨k, ⟨hk, rfl, ht⟩, hs.symm, hfull⟩

/-! ## Consequences of the invariant -/

theorem below_top {x : Nat} : ∀ {j i : Nat}, Below x (j + 1) i →
    Below (2 * x + 1) j i ∨ Below (2 * x + 2) j i := by
  intro j
  induction j with
  | zero =>
    intro i h
    obtain ⟨p, hp, hi⟩ := below_succ_inv h
    have := below_zero hp
    subst this
    rcases hi with rfl | rfl
    · exact Or.inl Below.self
    · exact Or.inr Below.self
  | succ j ih =>
    intro i h
    obtain ⟨p, hp, hi⟩ := below_succ_inv h
    rcases ih hp with hc | hc
    · left
      rcases hi with rfl | rfl
      · exact Below.left hc
      · exact Below.right hc
    · right
      rcases hi with rfl | rfl
      · exact Below.left hc
      · exact Below.right hc

theorem below_child_left {x j i : Nat} (h : Below (2 * x + 1) j i) : Below x (j + 1) i := by
  have := below_trans (Below.left (Below.self : Below x 0 x)) h
  rwa [show 0 + 1 + j = j + 1 by omega] at this

theorem below_child_right {x j i : Nat} (h : Below (2 * x + 2) j i) : Below x (j + 1) i := by
  have := below_trans (Below.right (Below.self : Below x 0 x)) h
  rwa [show 0 + 1 + j = j + 1 by omega] at this

theorem below_root_trans {d j x i : Nat} (h1 : Below 0 d x) (h2 : Below x j i) :
    Below 0 (d + j) i := below_trans h1 h2

theorem tree_lt {k : Nat} {l : List Nat} (ht : Tree k l) {d i : Nat} (hd : d ≤ k)
    (h : Below 0 d i) : i < l.length := by
  rw [ht.len]; exact index_lt_of_below hd h

theorem tree_full_children {k : Nat} {l : List Nat} (ht : Tree k l) {d h i : Nat}
    (hdh : d + (h + 1) = k) (hb : Below 0 d i) (hv : val l i = 2 ^ (h + 1)) :
    val l (2 * i + 1) = 2 ^ h ∧ val l (2 * i + 2) = 2 ^ h := by
  rcases ht.rule d h i hdh hb with ⟨ha, hb2, _⟩ | ⟨_, hmax⟩
  · exact ⟨ha, hb2⟩
  · have b1 := ht.bound (d + 1) h _ (by omega) (Below.left hb)
    have b2 := ht.bound (d + 1) h _ (by omega) (Below.right hb)
    have : val l i ≤ 2 ^ h := by rw [hmax]; exact max_le b1 b2
    rw [hv, pow_succ] at this
    have := pow2_pos h
    omega

theorem tree_full_below {k : Nat} {l : List Nat} (ht : Tree k l) {d h i : Nat}
    (hdh : d + h = k) (hb : Below 0 d i) (hv : val l i = 2 ^ h) :
    ∀ {j x : Nat}, Below i j x → j ≤ h → val l x = 2 ^ (h - j) := by
  intro j x hx
  induction hx with
  | self => intro _; exact hv
  | @left j p hp ih =>
    intro hj
    have hpv := ih (by omega)
    have e : h - j = (h - (j + 1)) + 1 := by omega
    rw [e] at hpv
    exact (tree_full_children ht (by omega) (below_root_trans hb hp) hpv).1
  | @right j p hp ih =>
    intro hj
    have hpv := ih (by omega)
    have e : h - j = (h - (j + 1)) + 1 := by omega
    rw [e] at hpv
    exact (tree_full_children ht (by omega) (below_root_trans hb hp) hpv).2

theorem tree_zero_children {k : Nat} {l : List Nat} (ht : Tree k l) {d h i : Nat}
    (hdh : d + (h + 1) = k) (hb : Below 0 d i) (hv : val l i = 0)
    (hc : val l (2 * i + 1) ≠ 0 ∨ val l (2 * i + 2) ≠ 0) :
    val l (2 * i + 1) = 2 ^ h ∧ val l (2 * i + 2) = 2 ^ h := by
  rcases ht.rule d h i hdh hb with ⟨ha, hb2, _⟩ | ⟨_, hmax⟩
  · exact ⟨ha, hb2⟩
  · rw [hv] at hmax
    have h1 : val l (2 * i + 1) ≤ 0 := by rw [hmax]; exact le_max_left _ _
    have h2 : val l (2 * i + 2) ≤ 0 := by rw [hmax]; exact le_max_right _ _
    omega

/-- Every node strictly below a live node is entirely free in the array. -/
theorem live_below {k : Nat} {l : List Nat} (ht : Tree k l) {d h i : Nat}
    (hdh : d + h = k) (hb : Below 0 d i) (hv : val l i = 0)
    (hl : h = 0 ∨ val l (2 * i + 1) ≠ 0) :
    ∀ {j x : Nat}, Below i (j + 1) x → j + 1 ≤ h → val l x = 2 ^ (h - (j + 1)) := by
  intro j x hx hj
  cases h with
  | zero => omega
  | succ h =>
    have hne : val l (2 * i + 1) ≠ 0 := by
      rcases hl with h0 | h0
      · omega
      · exact h0
    obtain ⟨c1, c2⟩ := tree_zero_children ht hdh hb hv (Or.inl hne)
    rcases below_top hx with hc | hc
    · have := tree_full_below ht (show d + 1 + h = k by omega) (Below.left hb) c1 hc (by omega)
      rw [this]; congr 1; omega
    · have := tree_full_below ht (show d + 1 + h = k by omega) (Below.right hb) c2 hc (by omega)
      rw [this]; congr 1; omega

/-! ## Recomputing the path from a node to the root -/

theorem off_child_left {index x : Nat} (h : ∀ j, ¬ Below x j index) :
    ∀ j, ¬ Below (2 * x + 1) j index :=
  fun j hc => h (j + 1) (below_child_left hc)

theorem off_child_right {index x : Nat} (h : ∀ j, ¬ Below x j index) :
    ∀ j, ¬ Below (2 * x + 2) j index :=
  fun j hc => h (j + 1) (below_child_right hc)

theorem off_below {index x : Nat} {j : Nat} (h : Below index (j + 1) x) :
    ∀ j2, ¬ Below x j2 index := by
  intro j2 hc
  have h1 := below_lt h
  have h2 := below_le hc
  omega

theorem pathEdit_height {k index : Nat} {x j d h di : Nat} (hi : Below 0 di index) (hdi : di ≤ k)
    (hx : Below x (j + 1) index) (hd : Below 0 d x) (hdh : d + h = k) : 1 ≤ h := by
  have := below_depth_unique hi (below_root_trans hd hx)
  omega

theorem pathEdit_bound {F : Nat → Nat → Nat → Nat} {k index v0 di hi : Nat} {l l2 : List Nat}
    (hF : ∀ h a b, a ≤ 2 ^ h → b ≤ 2 ^ h → F (h + 1) a b ≤ 2 ^ (h + 1))
    (ht : Tree k l) (hidx : Below 0 di index) (hdi : di + hi = k) (hv0 : v0 ≤ 2 ^ hi)
    (pe : PathEdit F k index v0 l l2) :
    ∀ h d x, d + h = k → Below 0 d x → val l2 x ≤ 2 ^ h := by
  intro h
  induction h with
  | zero =>
    intro d x hdh hx
    by_cases hon : ∃ j, Below x j index
    · obtain ⟨j, hj⟩ := hon
      cases j with
      | zero =>
        have := below_zero hj
        subst this
        have := below_depth_unique hidx hx
        have : hi = 0 := by omega
        subst this
        rw [pe.mark]; exact hv0
      | succ j =>
        have := pathEdit_height hidx (by omega) hj hx hdh
        omega
    · rw [pe.off x (fun j hj => hon ⟨j, hj⟩)]
      exact ht.bound d 0 x hdh hx
  | succ h ih =>
    intro d x hdh hx
    by_cases hon : ∃ j, Below x j index
    · obtain ⟨j, hj⟩ := hon
      cases j with
      | zero =>
        have := below_zero hj
        subst this
        have := below_depth_unique hidx hx
        have : hi = h + 1 := by omega
        subst this
        rw [pe.mark]; exact hv0
      | succ j =>
        rw [pe.anc x j d (h + 1) hj hx hdh]
        exact hF h _ _ (ih (d + 1) _ (by omega) (Below.left hx))
          (ih (d + 1) _ (by omega) (Below.right hx))
    · rw [pe.off x (fun j hj => hon ⟨j, hj⟩)]
      exact ht.bound d (h + 1) x hdh hx

/-- The rule at a node that is neither `index` nor one of its ancestors is untouched. -/
theorem pathEdit_rule_off {F : Nat → Nat → Nat → Nat} {k index v0 : Nat} {l l2 : List Nat}
    (ht : Tree k l) (pe : PathEdit F k index v0 l l2) {d h x : Nat}
    (hdh : d + (h + 1) = k) (hx : Below 0 d x) (hoff : ∀ j, ¬ Below x j index) :
    Rule h (val l2 x) (val l2 (2 * x + 1)) (val l2 (2 * x + 2)) := by
  rw [pe.off x hoff, pe.off _ (off_child_left hoff), pe.off _ (off_child_right hoff)]
  exact ht.rule d h x hdh hx

/-! ## The loops of `buddy2_alloc` -/

theorem MAX_eq_max (a b : Nat) : MAX a b = max a b := by
  unfold MAX
  by_cases h : a > b
  · rw [if_pos h]; exact (max_eq_left (le_of_lt h)).symm
  · rw [if_neg h]; exact (max_eq_right (by omega)).symm

theorem index_small {k d i : Nat} (hk : k ≤ 29) (hd : d ≤ k) (h : Below 0 d i) :
    i < 1073741823 := by
  have := index_lt_of_below hd h
  have := pow_k_le hk
  omega

theorem alloc_descend_spec {k : Nat} {l : List Nat} (hk : k ≤ 29) (ht : Tree k l)
    {hn : Nat} :
    ∀ fuel d h i, d + h = k → hn ≤ h → Below 0 d i → h - hn < fuel →
      (∀ j x, Below x j i → 2 ^ hn ≤ val l x) →
      ∃ index, alloc_descend l (2 ^ hn) fuel (2 ^ h) i = some (index, 2 ^ hn) ∧
        Below 0 (k - hn) index ∧ val l index = 2 ^ hn ∧
        (∀ j x, Below x j index → 2 ^ hn ≤ val l x) := by
  intro fuel
  induction fuel with
  | zero => intro d h i _ _ _ hf; omega
  | succ fuel ih =>
    intro d h i hdh hle hi hf hpath
    unfold alloc_descend
    by_cases hne : 2 ^ h ≠ 2 ^ hn
    · rw [if_pos hne]
      have hlt : hn < h := by
        rcases Nat.lt_or_ge hn h with h1 | h1
        · exact h1
        · exfalso; apply hne; congr 1; omega
      obtain ⟨h2, rfl⟩ : ∃ h2, h = h2 + 1 := ⟨h - 1, by omega⟩
      have hsmall := index_small hk (by omega) hi
      rw [LEFT_LEAF_eq (by omega), RIGHT_LEAF_eq (by omega)]
      have hL : Below 0 (d + 1) (2 * i + 1) := Below.left hi
      have hR : Below 0 (d + 1) (2 * i + 2) := Below.right hi
      rw [rd_of_lt (tree_lt ht (by omega) hL)]
      have hhalf : 2 ^ (h2 + 1) / 2 = 2 ^ h2 := by rw [pow_succ]; omega
      simp only [hhalf]
      by_cases hv : val l (2 * i + 1) ≥ 2 ^ hn
      · rw [if_pos hv]
        apply ih (d + 1) h2 (2 * i + 1) (by omega) (by omega) hL (by omega)
        intro j x hx
        cases j with
        | zero => rw [← below_zero hx]; exact hv
        | succ j =>
          obtain ⟨p, hp, hq⟩ := below_succ_inv hx
          have : p = i := by omega
          subst this
          exact hpath j x hp
      · rw [if_neg hv]
        have hv2 : 2 ^ hn ≤ val l (2 * i + 2) := by
          have hvi := hpath 0 i Below.self
          rcases ht.rule d h2 i (by omega) hi with ⟨ha, _, _⟩ | ⟨_, hmax⟩
          · exfalso; apply hv; rw [ha]; exact pow_le_pow2 (by omega)
          · rw [hmax] at hvi
            rcases le_max_iff.mp hvi with h1 | h1
            · exact absurd h1 hv
            · exact h1
        apply ih (d + 1) h2 (2 * i + 2) (by omega) (by omega) hR (by omega)
        intro j x hx
        cases j with
        | zero => rw [← below_zero hx]; exact hv2
        | succ j =>
          obtain ⟨p, hp, hq⟩ := below_succ_inv hx
          have : p = i := by omega
          subst this
          exact hpath j x hp
    · rw [if_neg hne]
      have heq : h = hn := pow2_inj (not_not.mp hne)
      subst heq
      refine ⟨i, rfl, ?_, ?_, hpath⟩
      · have : k - h = d := by omega
        rw [this]; exact hi
      · exact le_antisymm (ht.bound d h i hdh hi) (hpath 0 i Below.self)

theorem alloc_update_spec {k : Nat} (hk : k ≤ 29) :
    ∀ d fuel l i, l.length = 2 * 2 ^ k - 1 → d ≤ k → Below 0 d i → d < fuel →
      ∃ l2, alloc_update fuel l i = some l2 ∧ l2.length = l.length ∧
        (∀ x, (∀ j, ¬ Below x (j + 1) i) → val l2 x = val l x) ∧
        (∀ x j, Below x (j + 1) i →
          val l2 x = max (val l2 (2 * x + 1)) (val l2 (2 * x + 2))) := by
  intro d
  induction d with
  | zero =>
    intro fuel l i hlen _ hi hf
    have := below_zero hi
    subst this
    obtain ⟨f, rfl⟩ : ∃ f, fuel = f + 1 := ⟨fuel - 1, by omega⟩
    refine ⟨l, by unfold alloc_update; simp, rfl, fun _ _ => rfl, ?_⟩
    intro x j hx
    have := below_lt hx
    omega
  | succ d ih =>
    intro fuel l i hlen hd hi hf
    obtain ⟨f, rfl⟩ : ∃ f, fuel = f + 1 := ⟨fuel - 1, by omega⟩
    obtain ⟨p, hp, hip⟩ := below_succ_inv hi
    have hps := index_small hk (by omega) hp
    have hpar : PARENT i = p := by
      rcases hip with rfl | rfl
      · exact PARENT_left (by omega)
      · exact PARENT_right (by omega)
    have hi0 : i ≠ 0 := by omega
    have hLlt : 2 * p + 1 < l.length := by
      rw [hlen]; exact index_lt_of_below hd (Below.left hp)
    have hRlt : 2 * p + 2 < l.length := by
      rw [hlen]; exact index_lt_of_below hd (Below.right hp)
    unfold alloc_update
    rw [if_pos hi0]
    simp only [hpar]
    rw [LEFT_LEAF_eq (by omega), RIGHT_LEAF_eq (by omega), rd_of_lt hLlt, rd_of_lt hRlt]
    simp only []
    rw [wr_of_lt _ (by omega), MAX_eq_max]
    simp only []
    obtain ⟨l2, hrun, hlen2, hoff, hanc⟩ :=
      ih f (l.set p (max (val l (2 * p + 1)) (val l (2 * p + 2)))) p
        (by rw [List.length_set]; exact hlen) (by omega) hp (by omega)
    have hpi : Below p 1 i := by
      rcases hip with rfl | rfl
      · exact Below.left Below.self
      · exact Below.right Below.self
    have notanc_p : ∀ j, ¬ Below p (j + 1) p := fun j hc => by
      have := below_lt hc; omega
    have notanc_c : ∀ c, p < c → ∀ j, ¬ Below c (j + 1) p := fun c hc j hb => by
      have := below_lt hb; omega
    refine ⟨l2, hrun, by rw [hlen2, List.length_set], ?_, ?_⟩
    · intro x hx
      have hxp : x ≠ p := fun e => hx 0 (e ▸ hpi)
      have hx2 : ∀ j, ¬ Below x (j + 1) p := fun j hc => by
        apply hx (j + 1)
        have := below_trans hc hpi
        exact this
      rw [hoff x hx2, val_set_ne _ hxp]
    · intro x j hx
      obtain ⟨q, hq, hiq⟩ := below_succ_inv hx
      have : q = p := by omega
      subst this
      cases j with
      | zero =>
        have := below_zero hq
        subst this
        rw [hoff q notanc_p, hoff _ (notanc_c (2 * q + 1) (by omega)),
          hoff _ (notanc_c (2 * q + 2) (by omega)), val_set_eq _ (by omega),
          val_set_ne _ (by omega), val_set_ne _ (by omega)]
      | succ j => exact hanc x j hq

theorem alloc_mark_spec {k : Nat} (hk : k ≤ 29) {l : List Nat} (ht : Tree k l) {d index : Nat}
    (hd : d ≤ k) (hi : Below 0 d index) :
    ∃ l2, alloc_update ((l.set index 0).length + 1) (l.set index 0) index = some l2 ∧
      PathEdit maxRule k index 0 l l2 := by
  have hlt := tree_lt ht hd hi
  have hsm := index_small hk hd hi
  obtain ⟨l2, hrun, hlen2, hoff, hanc⟩ :=
    alloc_update_spec hk d ((l.set index 0).length + 1) (l.set index 0) index
      (by rw [List.length_set]; exact ht.len) hd hi
      (by
        rw [List.length_set, ht.len]
        have := below_root_range hi
        have := @Nat.lt_two_pow d
        have : 2 ^ d ≤ 2 ^ k := pow_le_pow2 hd
        omega)
  refine ⟨l2, hrun, ⟨by rw [hlen2, List.length_set], ?_, ?_, ?_⟩⟩
  · intro x hx
    have hxi : x ≠ index := fun e => hx 0 (e ▸ Below.self)
    rw [hoff x (fun j => hx (j + 1)), val_set_ne _ hxi]
  · rw [hoff index (fun j hc => by have := below_lt hc; omega), val_set_eq _ hlt]
  · intro x j dx hx hb _ _
    exact hanc x j hb

/-! ## The loops of `buddy2_free` and `buddy2_size` -/

theorem free_climb_found {k : Nat} {l : List Nat} (hk : k ≤ 29) (ht : Tree k l) {z : Nat} :
    ∀ {j i : Nat}, Below z j i → ∀ dz fuel ns, Below 0 dz z → dz + j ≤ k → j < fuel →
      ns * 2 ^ j < 4294967296 → val l z = 0 →
      (∀ j2 x, j2 < j → Below x j2 i → val l x ≠ 0) →
      free_climb l fuel i ns = some (some (z, ns * 2 ^ j)) := by
  intro j i hb
  induction hb with
  | self =>
    intro dz fuel ns hz hd hf _ hv _
    obtain ⟨f, rfl⟩ : ∃ f, fuel = f + 1 := ⟨fuel - 1, by omega⟩
    unfold free_climb
    rw [rd_of_lt (tree_lt ht (by omega) hz), hv]
    simp
  | @left j p hp ih =>
    intro dz fuel ns hz hd hf hns hv hpath
    obtain ⟨f, rfl⟩ : ∃ f, fuel = f + 1 := ⟨fuel - 1, by omega⟩
    have hpd : Below 0 (dz + j) p := below_root_trans hz hp
    have hps := index_small hk (show dz + j ≤ k by omega) hpd
    have hilt : 2 * p + 1 < l.length :=
      tree_lt ht (show dz + j + 1 ≤ k by omega) (Below.left hpd)
    have hnz : val l (2 * p + 1) ≠ 0 := hpath 0 _ (by omega) Below.self
    have h2 := pow2_pos j
    rw [pow_succ] at hns
    have hns2 : ns * 2 < 4294967296 := by
      have : ns * 2 * 1 ≤ ns * 2 * 2 ^ j := Nat.mul_le_mul_left _ h2
      have e : ns * (2 ^ j * 2) = ns * 2 * 2 ^ j := by ring
      omega
    unfold free_climb
    rw [rd_of_lt hilt]
    simp only []
    rw [if_pos hnz, if_neg (by omega), PARENT_left (by omega), Nat.mod_eq_of_lt hns2]
    rw [ih dz f (ns * 2) hz (by omega) (by omega) (by
      have e : ns * (2 ^ j * 2) = ns * 2 * 2 ^ j := by ring
      omega) hv (fun j2 x hj2 hx => hpath (j2 + 1) x (by omega) (Below.left hx))]
    congr 3
    rw [pow_succ]; ring
  | @right j p hp ih =>
    intro dz fuel ns hz hd hf hns hv hpath
    obtain ⟨f, rfl⟩ : ∃ f, fuel = f + 1 := ⟨fuel - 1, by omega⟩
    have hpd : Below 0 (dz + j) p := below_root_trans hz hp
    have hps := index_small hk (show dz + j ≤ k by omega) hpd
    have hilt : 2 * p + 2 < l.length :=
      tree_lt ht (show dz + j + 1 ≤ k by omega) (Below.right hpd)
    have hnz : val l (2 * p + 2) ≠ 0 := hpath 0 _ (by omega) Below.self
    have h2 := pow2_pos j
    rw [pow_succ] at hns
    have hns2 : ns * 2 < 4294967296 := by
      have : ns * 2 * 1 ≤ ns * 2 * 2 ^ j := Nat.mul_le_mul_left _ h2
      have e : ns * (2 ^ j * 2) = ns * 2 * 2 ^ j := by ring
      omega
    unfold free_climb
    rw [rd_of_lt hilt]
    simp only []
    rw [if_pos hnz, if_neg (by omega), PARENT_right (by omega), Nat.mod_eq_of_lt hns2]
    rw [ih dz f (ns * 2) hz (by omega) (by omega) (by
      have e : ns * (2 ^ j * 2) = ns * 2 * 2 ^ j := by ring
      omega) hv (fun j2 x hj2 hx => hpath (j2 + 1) x (by omega) (Below.right hx))]
    congr 3
    rw [pow_succ]; ring

theorem free_climb_none {k : Nat} {l : List Nat} (hk : k ≤ 29) (ht : Tree k l) :
    ∀ {d i : Nat}, Below 0 d i → d ≤ k → ∀ fuel ns, d < fuel →
      (∀ j x, Below x j i → val l x ≠ 0) → free_climb l fuel i ns = some none := by
  intro d i hb
  induction hb with
  | self =>
    intro _ fuel ns hf hpath
    obtain ⟨f, rfl⟩ : ∃ f, fuel = f + 1 := ⟨fuel - 1, by omega⟩
    unfold free_climb
    rw [rd_of_lt (tree_lt ht (Nat.zero_le k) Below.self)]
    simp only []
    rw [if_pos (hpath 0 0 Below.self)]
    simp
  | @left j p hp ih =>
    intro hd fuel ns hf hpath
    obtain ⟨f, rfl⟩ : ∃ f, fuel = f + 1 := ⟨fuel - 1, by omega⟩
    have hps := index_small hk (show j ≤ k by omega) hp
    unfold free_climb
    rw [rd_of_lt (tree_lt ht hd (Below.left hp))]
    simp only []
    rw [if_pos (hpath 0 _ Below.self), if_neg (by omega), PARENT_left (by omega)]
    exact ih (by omega) f _ (by omega) (fun j2 x hx => hpath (j2 + 1) x (Below.left hx))
  | @right j p hp ih =>
    intro hd fuel ns hf hpath
    obtain ⟨f, rfl⟩ : ∃ f, fuel = f + 1 := ⟨fuel - 1, by omega⟩
    have hps := index_small hk (show j ≤ k by omega) hp
    unfold free_climb
    rw [rd_of_lt (tree_lt ht hd (Below.right hp))]
    simp only []
    rw [if_pos (hpath 0 _ Below.self), if_neg (by omega), PARENT_right (by omega)]
    exact ih (by omega) f _ (by omega) (fun j2 x hx => hpath (j2 + 1) x (Below.right hx))

theorem size_climb_found {k : Nat} {l : List Nat} (hk : k ≤ 29) (ht : Tree k l) {z : Nat} :
    ∀ {j i : Nat}, Below z j i → ∀ dz fuel ns, Below 0 dz z → dz + j ≤ k → j < fuel →
      ns * 2 ^ j < 4294967296 → val l z = 0 →
      (∀ j2 x, j2 < j → Below x j2 i → val l x ≠ 0) →
      size_climb l fuel i ns = some (ns * 2 ^ j) := by
  intro j i hb
  induction hb with
  | self =>
    intro dz fuel ns hz hd hf _ hv _
    obtain ⟨f, rfl⟩ : ∃ f, fuel = f + 1 := ⟨fuel - 1, by omega⟩
    unfold size_climb
    rw [rd_of_lt (tree_lt ht (by omega) hz), hv]
    simp
  | @left j p hp ih =>
    intro dz fuel ns hz hd hf hns hv hpath
    obtain ⟨f, rfl⟩ : ∃ f, fuel = f + 1 := ⟨fuel - 1, by omega⟩
    have hpd : Below 0 (dz + j) p := below_root_trans hz hp
    have hps := index_small hk (show dz + j ≤ k by omega) hpd
    have hilt : 2 * p + 1 < l.length :=
      tree_lt ht (show dz + j + 1 ≤ k by omega) (Below.left hpd)
    have hnz : val l (2 * p + 1) ≠ 0 := hpath 0 _ (by omega) Below.self
    have h2 := pow2_pos j
    rw [pow_succ] at hns
    have hns2 : ns * 2 < 4294967296 := by
      have : ns * 2 * 1 ≤ ns * 2 * 2 ^ j := Nat.mul_le_mul_left _ h2
      have e : ns * (2 ^ j * 2) = ns * 2 * 2 ^ j := by ring
      omega
    unfold size_climb
    rw [rd_of_lt hilt]
    simp only []
    rw [if_pos hnz, PARENT_left (by omega), Nat.mod_eq_of_lt hns2]
    rw [ih dz f (ns * 2) hz (by omega) (by omega) (by
      have e : ns * (2 ^ j * 2) = ns * 2 * 2 ^ j := by ring
      omega) hv (fun j2 x hj2 hx => hpath (j2 + 1) x (by omega) (Below.left hx))]
    congr 1
    rw [pow_succ]; ring
  | @right j p hp ih =>
    intro dz fuel ns hz hd hf hns hv hpath
    obtain ⟨f, rfl⟩ : ∃ f, fuel = f + 1 := ⟨fuel - 1, by omega⟩
    have hpd : Below 0 (dz + j) p := below_root_trans hz hp
    have hps := index_small hk (show dz + j ≤ k by omega) hpd
    have hilt : 2 * p + 2 < l.length :=
      tree_lt ht (show dz + j + 1 ≤ k by omega) (Below.right hpd)
    have hnz : val l (2 * p + 2) ≠ 0 := hpath 0 _ (by omega) Below.self
    have h2 := pow2_pos j
    rw [pow_succ] at hns
    have hns2 : ns * 2 < 4294967296 := by
      have : ns * 2 * 1 ≤ ns * 2 * 2 ^ j := Nat.mul_le_mul_left _ h2
      have e : ns * (2 ^ j * 2) = ns * 2 * 2 ^ j := by ring
      omega
    unfold size_climb
    rw [rd_of_lt hilt]
    simp only []
    rw [if_pos hnz, PARENT_right (by omega), Nat.mod_eq_of_lt hns2]
    rw [ih dz f (ns * 2) hz (by omega) (by omega) (by
      have e : ns * (2 ^ j * 2) = ns * 2 * 2 ^ j := by ring
      omega) hv (fun j2 x hj2 hx => hpath (j2 + 1) x (by omega) (Below.right hx))]
    congr 1
    rw [pow_succ]; ring

theorem free_coalesce_spec {k : Nat} (hk : k ≤ 29) :
    ∀ d fuel l i h, l.length = 2 * 2 ^ k - 1 → d + h = k → Below 0 d i → d < fuel →
      (∀ x, val l x ≤ 2 ^ k) →
      ∃ l2, free_coalesce fuel l i (2 ^ h) = some l2 ∧ l2.length = l.length ∧
        (∀ x, val l2 x ≤ 2 ^ k) ∧
        (∀ x, (∀ j, ¬ Below x (j + 1) i) → val l2 x = val l x) ∧
        (∀ x j dx hx, Below x (j + 1) i → Below 0 dx x → dx + hx = k →
          val l2 x = coalesce hx (val l2 (2 * x + 1)) (val l2 (2 * x + 2))) := by
  intro d
  induction d with
  | zero =>
    intro fuel l i h hlen _ hi hf hbnd
    have := below_zero hi
    subst this
    obtain ⟨f, rfl⟩ : ∃ f, fuel = f + 1 := ⟨fuel - 1, by omega⟩
    refine ⟨l, by unfold free_coalesce; simp, rfl, hbnd, fun _ _ => rfl, ?_⟩
    intro x j dx hx hb
    have := below_lt hb
    omega
  | succ d ih =>
    intro fuel l i h hlen hdh hi hf hbnd
    obtain ⟨f, rfl⟩ : ∃ f, fuel = f + 1 := ⟨fuel - 1, by omega⟩
    obtain ⟨p, hp, hip⟩ := below_succ_inv hi
    have hps := index_small hk (show d ≤ k by omega) hp
    have hpar : PARENT i = p := by
      rcases hip with rfl | rfl
      · exact PARENT_left (by omega)
      · exact PARENT_right (by omega)
    have hi0 : i ≠ 0 := by omega
    have hLlt : 2 * p + 1 < l.length := by
      rw [hlen]; exact index_lt_of_below (show d + 1 ≤ k by omega) (Below.left hp)
    have hRlt : 2 * p + 2 < l.length := by
      rw [hlen]; exact index_lt_of_below (show d + 1 ≤ k by omega) (Below.right hp)
    have hkb := pow_k_le hk
    have hh1 : 2 ^ (h + 1) ≤ 2 ^ k := pow_le_pow2 (by omega)
    have hns : 2 ^ h * 2 % 4294967296 = 2 ^ (h + 1) := by
      rw [pow_succ]; rw [pow_succ] at hh1; omega
    have ha := hbnd (2 * p + 1)
    have hb := hbnd (2 * p + 2)
    have hv : (if (val l (2 * p + 1) + val l (2 * p + 2)) % 4294967296 = 2 ^ (h + 1)
          then 2 ^ (h + 1) else MAX (val l (2 * p + 1)) (val l (2 * p + 2))) =
        coalesce (h + 1) (val l (2 * p + 1)) (val l (2 * p + 2)) := by
      unfold coalesce
      rw [Nat.mod_eq_of_lt (by omega), MAX_eq_max]
    have hvb : coalesce (h + 1) (val l (2 * p + 1)) (val l (2 * p + 2)) ≤ 2 ^ k := by
      unfold coalesce
      split
      · exact hh1
      · exact max_le ha hb
    unfold free_coalesce
    rw [if_pos hi0]
    simp only [hpar, hns]
    rw [LEFT_LEAF_eq (by omega), RIGHT_LEAF_eq (by omega), rd_of_lt hLlt, rd_of_lt hRlt]
    simp only [hv]
    rw [wr_of_lt _ (by omega)]
    simp only []
    obtain ⟨l2, hrun, hlen2, hbnd2, hoff, hanc⟩ :=
      ih f (l.set p (coalesce (h + 1) (val l (2 * p + 1)) (val l (2 * p + 2)))) p (h + 1)
        (by rw [List.length_set]; exact hlen) (by omega) hp (by omega)
        (by
          intro x
          by_cases hx : x = p
          · subst hx; rw [val_set_eq _ (by omega)]; exact hvb
          · rw [val_set_ne _ hx]; exact hbnd x)
    have hpi : Below p 1 i := by
      rcases hip with rfl | rfl
      · exact Below.left Below.self
      · exact Below.right Below.self
    have notanc_p : ∀ j, ¬ Below p (j + 1) p := fun j hc => by
      have := below_lt hc; omega
    have notanc_c : ∀ c, p < c → ∀ j, ¬ Below c (j + 1) p := fun c hc j hb => by
      have := below_lt hb; omega
    refine ⟨l2, hrun, by rw [hlen2, List.length_set], hbnd2, ?_, ?_⟩
    · intro x hx
      have hxp : x ≠ p := fun e => hx 0 (e ▸ hpi)
      have hx2 : ∀ j, ¬ Below x (j + 1) p := fun j hc => hx (j + 1) (below_trans hc hpi)
      rw [hoff x hx2, val_set_ne _ hxp]
    · intro x j dx hx hbx hdx hdxh
      obtain ⟨q, hq, hiq⟩ := below_succ_inv hbx
      have : q = p := by omega
      subst this
      cases j with
      | zero =>
        have := below_zero hq
        subst this
        have := below_depth_unique hdx hp
        subst this
        have : hx = h + 1 := by omega
        subst this
        rw [hoff q notanc_p, hoff _ (notanc_c (2 * q + 1) (by omega)),
          hoff _ (notanc_c (2 * q + 2) (by omega)), val_set_eq _ (by omega),
          val_set_ne _ (by omega), val_set_ne _ (by omega)]
      | succ j => exact hanc x j dx hx hq hdx hdxh

/-! ## Effect of an allocation on the invariant -/

theorem below_depth {x j i d : Nat} (h1 : Below x j i) (h2 : Below 0 d i) :
    j ≤ d ∧ Below 0 (d - j) x := by
  have r1 := below_range h1
  have r2 := below_root_range h2
  have hj : j ≤ d := by
    by_contra hc
    have : 2 ^ (d + 1) ≤ 2 ^ j := pow_le_pow2 (by omega)
    have : 1 * 2 ^ j ≤ (x + 1) * 2 ^ j := Nat.mul_le_mul_right _ (by omega)
    omega
  exact ⟨hj, below_common h1 h2 hj⟩

theorem maxRule_bound (h a b : Nat) (ha : a ≤ 2 ^ h) (hb : b ≤ 2 ^ h) :
    maxRule (h + 1) a b ≤ 2 ^ (h + 1) := by
  unfold maxRule
  have : 2 ^ h ≤ 2 ^ (h + 1) := pow_le_pow2 (by omega)
  exact le_trans (max_le ha hb) this

theorem coalesce_bound (h a b : Nat) (ha : a ≤ 2 ^ h) (hb : b ≤ 2 ^ h) :
    coalesce (h + 1) a b ≤ 2 ^ (h + 1) := by
  unfold coalesce
  have : 2 ^ h ≤ 2 ^ (h + 1) := pow_le_pow2 (by omega)
  split
  · exact le_refl _
  · exact le_trans (max_le ha hb) this

theorem coalesce_rule (h a b : Nat) (ha : a ≤ 2 ^ h) (hb : b ≤ 2 ^ h) :
    Rule h (coalesce (h + 1) a b) a b := by
  unfold coalesce Rule
  by_cases hs : a + b = 2 ^ (h + 1)
  · rw [if_pos hs]
    rw [pow_succ] at hs
    left
    exact ⟨by omega, by omega, Or.inl rfl⟩
  · rw [if_neg hs]
    right
    refine ⟨?_, rfl⟩
    rintro ⟨h1, h2⟩
    apply hs
    rw [h1, h2, pow_succ]; omega

/-- After the marking of `buddy2_alloc`, `index` and each of its ancestors hold less
than their span. -/
theorem alloc_path_lt {k index di hi : Nat} {l l2 : List Nat} (ht : Tree k l)
    (hidx : Below 0 di index) (hdi : di + hi = k)
    (pe : PathEdit maxRule k index 0 l l2) {x j d h : Nat}
    (hx : Below x j index) (hd : Below 0 d x) (hdh : d + h = k) : val l2 x < 2 ^ h := by
  cases j with
  | zero =>
    have := below_zero hx
    subst this
    rw [pe.mark]; exact pow2_pos h
  | succ j =>
    have hh := pathEdit_height hidx (by omega) hx hd hdh
    obtain ⟨h2, rfl⟩ : ∃ h2, h = h2 + 1 := ⟨h - 1, by omega⟩
    have b := pathEdit_bound maxRule_bound ht hidx hdi (Nat.zero_le _) pe
    rw [pe.anc x j d (h2 + 1) hx hd hdh]
    unfold maxRule
    have b1 := b h2 (d + 1) _ (by omega) (Below.left hd)
    have b2 := b h2 (d + 1) _ (by omega) (Below.right hd)
    have : max (val l2 (2 * x + 1)) (val l2 (2 * x + 2)) ≤ 2 ^ h2 := max_le b1 b2
    rw [pow_succ]
    have := pow2_pos h2
    omega

theorem alloc_tree {k index di hi : Nat} {l l2 : List Nat} (ht : Tree k l)
    (hidx : Below 0 di index) (hdi : di + hi = k) (hfull : val l index = 2 ^ hi)
    (pe : PathEdit maxRule k index 0 l l2) : Tree k l2 := by
  have b := pathEdit_bound maxRule_bound ht hidx hdi (Nat.zero_le _) pe
  refine ⟨by rw [pe.len, ht.len], fun d h x hdh hx => b h d x hdh hx, ?_⟩
  intro d h x hdh hx
  by_cases hon : ∃ j, Below x j index
  · obtain ⟨j, hj⟩ := hon
    cases j with
    | zero =>
      have := below_zero hj
      subst this
      have := below_depth_unique hidx hx
      subst this
      have : hi = h + 1 := by omega
      subst this
      obtain ⟨c1, c2⟩ := tree_full_children ht hdh hx hfull
      rw [pe.mark, pe.off _ (off_below (Below.left Below.self)),
        pe.off _ (off_below (Below.right Below.self))]
      exact Or.inl ⟨c1, c2, Or.inr rfl⟩
    | succ j =>
      right
      refine ⟨?_, pe.anc x j d (h + 1) hj hx hdh⟩
      rintro ⟨e1, e2⟩
      rcases below_top hj with hc | hc
      · have := alloc_path_lt ht hidx hdi pe hc (Below.left hx) (show d + 1 + h = k by omega)
        omega
      · have := alloc_path_lt ht hidx hdi pe hc (Below.right hx) (show d + 1 + h = k by omega)
        omega
  · exact pathEdit_rule_off ht pe hdh hx (fun j hj => hon ⟨j, hj⟩)

theorem alloc_live {k index di hi : Nat} {l l2 : List Nat} (ht : Tree k l)
    (hidx : Below 0 di index) (hdi : di + hi = k) (hfull : val l index = 2 ^ hi)
    (hpath : ∀ j x, Below x j index → val l x ≠ 0)
    (pe : PathEdit maxRule k index 0 l l2) (x : Nat) :
    IsLive k l2 x ↔ IsLive k l x ∨ x = index := by
  constructor
  · rintro ⟨d, h, hdh, hx, hv, hl⟩
    by_cases hon : ∃ j, Below x j index
    · obtain ⟨j, hj⟩ := hon
      cases j with
      | zero => exact Or.inr (below_zero hj).symm
      | succ j =>
        exfalso
        have hh := pathEdit_height hidx (by omega) hj hx hdh
        have hne : val l2 (2 * x + 1) ≠ 0 := by
          rcases hl with h0 | h0
          · omega
          · exact h0
        rw [pe.anc x j d h hj hx hdh] at hv
        unfold maxRule at hv
        have : val l2 (2 * x + 1) ≤ 0 := by rw [← hv]; exact le_max_left _ _
        omega
    · left
      have hoff : ∀ j, ¬ Below x j index := fun j hj => hon ⟨j, hj⟩
      refine ⟨d, h, hdh, hx, by rw [← pe.off x hoff]; exact hv, ?_⟩
      rw [← pe.off _ (off_child_left hoff)]
      exact hl
  · rintro (⟨d, h, hdh, hx, hv, hl⟩ | rfl)
    · have hoff : ∀ j, ¬ Below x j index := fun j hj => hpath j x hj hv
      refine ⟨d, h, hdh, hx, by rw [pe.off x hoff]; exact hv, ?_⟩
      rw [pe.off _ (off_child_left hoff)]
      exact hl
    · refine ⟨di, hi, hdi, hidx, pe.mark, ?_⟩
      cases hi with
      | zero => exact Or.inl rfl
      | succ hi =>
        right
        rw [pe.off _ (off_below (Below.left Below.self)),
          (tree_full_children ht hdi hidx hfull).1]
        exact (pow2_pos hi).ne'

/-! ## Effect of a release on the invariant -/

theorem free_tree {k z dz hz : Nat} {l l2 : List Nat} (ht : Tree k l)
    (hzb : Below 0 dz z) (hdz : dz + hz = k) (hv : val l z = 0)
    (hl : hz = 0 ∨ val l (2 * z + 1) ≠ 0)
    (pe : PathEdit coalesce k z (2 ^ hz) l l2) : Tree k l2 := by
  have b := pathEdit_bound coalesce_bound ht hzb hdz (le_refl _) pe
  refine ⟨by rw [pe.len, ht.len], fun d h x hdh hx => b h d x hdh hx, ?_⟩
  intro d h x hdh hx
  by_cases hon : ∃ j, Below x j z
  · obtain ⟨j, hj⟩ := hon
    cases j with
    | zero =>
      have := below_zero hj
      subst this
      have := below_depth_unique hzb hx
      subst this
      have : hz = h + 1 := by omega
      subst this
      have hne : val l (2 * z + 1) ≠ 0 := by
        rcases hl with h0 | h0
        · omega
        · exact h0
      obtain ⟨c1, c2⟩ := tree_zero_children ht hdh hx hv (Or.inl hne)
      rw [pe.mark, pe.off _ (off_below (Below.left Below.self)),
        pe.off _ (off_below (Below.right Below.self))]
      exact Or.inl ⟨c1, c2, Or.inl rfl⟩
    | succ j =>
      rw [pe.anc x j d (h + 1) hj hx hdh]
      exact coalesce_rule h _ _ (b h (d + 1) _ (by omega) (Below.left hx))
        (b h (d + 1) _ (by omega) (Below.right hx))
  · exact pathEdit_rule_off ht pe hdh hx (fun j hj => hon ⟨j, hj⟩)

theorem free_live {k z dz hz : Nat} {l l2 : List Nat} (ht : Tree k l)
    (hzb : Below 0 dz z) (hdz : dz + hz = k) (hv : val l z = 0)
    (pe : PathEdit coalesce k z (2 ^ hz) l l2) (x : Nat) :
    IsLive k l2 x ↔ IsLive k l x ∧ x ≠ z := by
  constructor
  · rintro ⟨d, h, hdh, hx, hv2, hl2⟩
    by_cases hon : ∃ j, Below x j z
    · exfalso
      obtain ⟨j, hj⟩ := hon
      cases j with
      | zero =>
        have := below_zero hj
        subst this
        rw [pe.mark] at hv2
        exact (pow2_pos hz).ne' hv2
      | succ j =>
        have hh := pathEdit_height hzb (by omega) hj hx hdh
        have hne : val l2 (2 * x + 1) ≠ 0 := by
          rcases hl2 with h0 | h0
          · omega
          · exact h0
        rw [pe.anc x j d h hj hx hdh] at hv2
        unfold coalesce at hv2
        split at hv2
        · exact (pow2_pos h).ne' hv2
        · have : val l2 (2 * x + 1) ≤ 0 := by rw [← hv2]; exact le_max_left _ _
          omega
    · have hoff : ∀ j, ¬ Below x j z := fun j hj => hon ⟨j, hj⟩
      refine ⟨⟨d, h, hdh, hx, by rw [← pe.off x hoff]; exact hv2, ?_⟩,
        fun e => hoff 0 (e ▸ Below.self)⟩
      rw [← pe.off _ (off_child_left hoff)]
      exact hl2
  · rintro ⟨⟨d, h, hdh, hx, hvx, hlx⟩, hne⟩
    have hoff : ∀ j, ¬ Below x j z := by
      intro j hj
      cases j with
      | zero => exact hne (below_zero hj).symm
      | succ j =>
        have hd := below_depth_unique hzb (below_root_trans hx hj)
        have := live_below ht hdh hx hvx hlx hj (by omega)
        rw [hv] at this
        exact (pow2_pos _).ne this
    refine ⟨d, h, hdh, hx, by rw [pe.off x hoff]; exact hvx, ?_⟩
    rw [pe.off _ (off_child_left hoff)]
    exact hlx

theorem free_path_nonzero {k z dz hz : Nat} {l l2 : List Nat}
    (hzb : Below 0 dz z) (hdz : dz + hz = k)
    (pe : PathEdit coalesce k z (2 ^ hz) l l2) :
    ∀ j x, Below x j z → val l2 x ≠ 0 := by
  intro j
  induction j with
  | zero =>
    intro x hx
    have := below_zero hx
    subst this
    rw [pe.mark]; exact (pow2_pos hz).ne'
  | succ j ih =>
    intro x hx
    obtain ⟨hjd, hxd⟩ := below_depth hx hzb
    rw [pe.anc x j (dz - (j + 1)) (hz + (j + 1)) hx hxd (by omega)]
    unfold coalesce
    split
    · exact (pow2_pos _).ne'
    · rcases below_top hx with hc | hc
      · have := ih _ hc
        have : val l2 (2 * x + 1) ≤ max (val l2 (2 * x + 1)) (val l2 (2 * x + 2)) :=
          le_max_left _ _
        omega
      · have := ih _ hc
        have : val l2 (2 * x + 2) ≤ max (val l2 (2 * x + 1)) (val l2 (2 * x + 2)) :=
          le_max_right _ _
        omega

/-! ## `buddy2_alloc` on a state that satisfies the invariant -/

theorem val_of_ge {l : List Nat} {i : Nat} (h : l.length ≤ i) : val l i = 0 := by
  unfold val
  rw [List.getD_eq_getElem?_getD, List.getElem?_eq_none h]
  rfl

theorem exists_depth (x : Nat) : ∃ d, Below 0 d x :=
  ⟨Nat.log 2 (x + 1), below_root_of_range (Nat.pow_log_le_self 2 (by omega))
    (Nat.lt_pow_succ_log_self (by decide) _)⟩

theorem tree_val_le {k : Nat} {l : List Nat} (ht : Tree k l) (x : Nat) : val l x ≤ 2 ^ k := by
  by_cases hx : x < l.length
  · obtain ⟨d, hd⟩ := exists_depth x
    have r := below_root_range hd
    have hdk : d ≤ k := by
      by_contra hc
      have : 2 ^ (k + 1) ≤ 2 ^ d := pow_le_pow2 (by omega)
      rw [ht.len, pow_succ] at *
      omega
    have := ht.bound d (k - d) x (by omega) hd
    exact le_trans this (pow_le_pow2 (by omega))
  · rw [val_of_ge (by omega)]; exact Nat.zero_le _

theorem tree_len_pos {k : Nat} {l : List Nat} (ht : Tree k l) : 0 < l.length := by
  rw [ht.len]
  have := pow2_pos k
  omega

theorem toInt_of_lt {u : Nat} (h : u < 2147483648) : toInt u = (u : Int) := by
  unfold toInt
  rw [if_pos h]

theorem alloc_nonpos (b : buddy2) {size : Int} (h : size ≤ 0) :
    buddy2_alloc b size = some (b, -1) := by
  unfold buddy2_alloc
  rw [if_pos h]

theorem alloc_too_big {k : Nat} {b : buddy2} (hinv : Inv k b) {size : Int} {n : Nat}
    (h0 : 0 < size) (hnorm : normalize size = some n) (hbig : val b.longest 0 < n) :
    buddy2_alloc b size = some (b, -1) := by
  unfold buddy2_alloc
  rw [if_neg (by omega)]
  simp only [hnorm]
  rw [rd_of_lt (tree_len_pos hinv.tree)]
  simp only []
  rw [if_pos hbig]

/-- The successful branch of `buddy2_alloc`, with the node that the descent reaches. -/
theorem alloc_ok {k : Nat} {b : buddy2} (hinv : Inv k b) {size : Int} {n hn : Nat}
    (h0 : 0 < size) (hnorm : normalize size = some n) (hpow : n = 2 ^ hn)
    (hfit : n ≤ val b.longest 0) :
    ∃ index l2, hn ≤ k ∧ Below 0 (k - hn) index ∧ val b.longest index = n ∧
      (∀ j x, Below x j index → n ≤ val b.longest x) ∧
      alloc_descend b.longest n (b.longest.length + 1) b.size 0 = some (index, n) ∧
      PathEdit maxRule k index 0 b.longest l2 ∧
      2 ^ k ≤ (index + 1) * n ∧ (index + 1) * n < 2 * 2 ^ k ∧
      buddy2_alloc b size =
        some ({ b with longest := l2 }, (((index + 1) * n - 2 ^ k : Nat) : Int)) := by
  subst hpow
  have ht := hinv.tree
  have hk := hinv.k_le
  have hroot : val b.longest 0 ≤ 2 ^ k := ht.bound 0 k 0 (by omega) Below.self
  have hnk : hn ≤ k := pow2_le_iff.mp (le_trans hfit hroot)
  have hlen := ht.len
  have hkp := pow_k_le hk
  obtain ⟨index, hdesc, hidx, hval, hpath⟩ :=
    alloc_descend_spec hk ht (b.longest.length + 1) 0 k 0 (by omega) hnk Below.self
      (by
        have := @Nat.lt_two_pow k
        rw [hlen]; omega)
      (by
        intro j x hx
        have := below_le hx
        have : x = 0 := by omega
        subst this; exact hfit)
  obtain ⟨l2, hupd, pe⟩ := alloc_mark_spec hk ht (show k - hn ≤ k by omega) hidx
  have hlt := tree_lt ht (show k - hn ≤ k by omega) hidx
  have r := below_root_range hidx
  have hmul : 2 ^ (k - hn) * 2 ^ hn = 2 ^ k := by
    rw [← pow_add]; congr 1; omega
  have hlo : 2 ^ k ≤ (index + 1) * 2 ^ hn := by
    rw [← hmul]; exact Nat.mul_le_mul_right _ r.1
  have hhi : (index + 1) * 2 ^ hn < 2 * 2 ^ k := by
    have : (index + 1) * 2 ^ hn < 2 ^ (k - hn + 1) * 2 ^ hn :=
      Nat.mul_lt_mul_of_pos_right r.2 (pow2_pos hn)
    rw [pow_succ, Nat.mul_right_comm, hmul] at this
    omega
  refine ⟨index, l2, hnk, hidx, hval, hpath, ?_, pe, hlo, hhi, ?_⟩
  · rw [hinv.size_eq]; exact hdesc
  · unfold buddy2_alloc
    rw [if_neg (by omega)]
    simp only [hnorm]
    rw [rd_of_lt (tree_len_pos ht)]
    simp only []
    rw [if_neg (by omega), hinv.size_eq, hdesc]
    simp only []
    rw [wr_of_lt _ hlt]
    simp only [hupd]
    congr 2
    rw [toInt_of_lt (by omega)]
    congr 1
    omega

theorem alloc_cases {k : Nat} {b : buddy2} (hinv : Inv k b) {size : Int}
    (hsize : size ≤ 2147483647) :
    buddy2_alloc b size = some (b, -1) ∧
        (size ≤ 0 ∨ ∃ n, normalize size = some n ∧ val b.longest 0 < n) ∨
      ∃ n hn index l2, 0 < size ∧ normalize size = some n ∧ n = 2 ^ hn ∧ hn ≤ k ∧
        n ≤ val b.longest 0 ∧ Below 0 (k - hn) index ∧ val b.longest index = n ∧
        (∀ j x, Below x j index → n ≤ val b.longest x) ∧
        alloc_descend b.longest n (b.longest.length + 1) b.size 0 = some (index, n) ∧
        PathEdit maxRule k index 0 b.longest l2 ∧
        2 ^ k ≤ (index + 1) * n ∧ (index + 1) * n < 2 * 2 ^ k ∧
        buddy2_alloc b size =
          some ({ b with longest := l2 }, (((index + 1) * n - 2 ^ k : Nat) : Int)) := by
  by_cases h0 : size ≤ 0
  · exact Or.inl ⟨alloc_nonpos b h0, Or.inl h0⟩
  · obtain ⟨hn, n, hnorm, hpow, _, _, _⟩ := normalize_spec size (by omega) hsize
    by_cases hbig : val b.longest 0 < n
    · exact Or.inl ⟨alloc_too_big hinv (by omega) hnorm hbig, Or.inr ⟨n, hnorm, hbig⟩⟩
    · right
      obtain ⟨index, l2, a1, a2, a3, a4, a5, a6, a7, a8, a9⟩ :=
        alloc_ok hinv (by omega) hnorm hpow (by omega)
      exact ⟨n, hn, index, l2, by omega, hnorm, hpow, a1, by omega, a2, a3, a4, a5, a6, a7,
        a8, a9⟩

theorem alloc_inv {k : Nat} {b b2 : buddy2} (hinv : Inv k b) {size r : Int}
    (hsize : size ≤ 2147483647) (h : buddy2_alloc b size = some (b2, r)) : Inv k b2 := by
  rcases alloc_cases hinv hsize with ⟨hf, _⟩ |
    ⟨n, hn, index, l2, _, _, hpow, hnk, _, hidx, hval, _, _, pe, _, _, hok⟩
  · rw [hf] at h
    have := (Prod.mk.inj (Option.some.inj h)).1
    subst this; exact hinv
  · rw [hok] at h
    have := (Prod.mk.inj (Option.some.inj h)).1
    subst this
    exact ⟨hinv.k_le, hinv.size_eq,
      alloc_tree hinv.tree hidx (show k - hn + hn = k by omega) (hpow ▸ hval) pe⟩

/-! ## `buddy2_free` and `buddy2_size` on a state that satisfies the invariant -/

theorem leaf_index {k p : Nat} (hk : k ≤ 29) (hp : p < 2 ^ k) :
    (p + 2 ^ k + 4294967295) % 4294967296 = leafOf k p ∧ Below 0 k (leafOf k p) := by
  have := pow_k_le hk
  unfold leafOf
  refine ⟨by omega, below_root_of_range (by omega) (by rw [pow_succ]; omega)⟩

theorem path_cases (l : List Nat) (i : Nat) :
    (∀ j x, Below x j i → val l x ≠ 0) ∨
      ∃ j z, Below z j i ∧ val l z = 0 ∧ ∀ j2 x, j2 < j → Below x j2 i → val l x ≠ 0 := by
  classical
  by_cases h : ∃ j, ∃ x, Below x j i ∧ val l x = 0
  · right
    obtain ⟨z, hz, hv⟩ := Nat.find_spec h
    refine ⟨Nat.find h, z, hz, hv, ?_⟩
    intro j2 x hj2 hx hvx
    exact Nat.find_min h hj2 ⟨x, hx, hvx⟩
  · left
    intro j x hx hv
    exact h ⟨j, x, hx, hv⟩

/-- The lowest node with value `0` on the way from a leaf to the root is the top of a
block that is handed out. -/
theorem lowest_zero_live {k : Nat} {l : List Nat} (ht : Tree k l) {i j z : Nat}
    (hi : Below 0 k i) (hz : Below z j i) (hv : val l z = 0)
    (hlow : ∀ j2 x, j2 < j → Below x j2 i → val l x ≠ 0) :
    j ≤ k ∧ Below 0 (k - j) z ∧ (j = 0 ∨ val l (2 * z + 1) ≠ 0) := by
  obtain ⟨hjk, hzd⟩ := below_depth hz hi
  refine ⟨hjk, hzd, ?_⟩
  cases j with
  | zero => exact Or.inl rfl
  | succ j =>
    right
    have hc : val l (2 * z + 1) ≠ 0 ∨ val l (2 * z + 2) ≠ 0 := by
      rcases below_top hz with hc | hc
      · exact Or.inl (hlow j _ (by omega) hc)
      · exact Or.inr (hlow j _ (by omega) hc)
    rw [(tree_zero_children ht (show k - (j + 1) + (j + 1) = k by omega) hzd hv hc).1]
    exact (pow2_pos j).ne'

/-- Conversely, below the top of a block that is handed out nothing is `0`. -/
theorem live_is_lowest {k : Nat} {l : List Nat} (ht : Tree k l) {i j z d : Nat}
    (hzd : Below 0 d z) (hdj : d + j = k) (hz : Below z j i) (hv : val l z = 0)
    (hl : j = 0 ∨ val l (2 * z + 1) ≠ 0) :
    ∀ j2 x, j2 < j → Below x j2 i → val l x ≠ 0 := by
  intro j2 x hj2 hx
  have hb := below_common hx hz (le_of_lt hj2)
  obtain ⟨m, hm⟩ : ∃ m, j - j2 = m + 1 := ⟨j - j2 - 1, by omega⟩
  rw [hm] at hb
  rw [live_below ht hdj hzd hv hl hb (by omega)]
  exact (pow2_pos _).ne'

theorem free_noop {k : Nat} {b : buddy2} (hinv : Inv k b) {offset : Int}
    (h0 : 0 ≤ offset) (h1 : offset.toNat < b.size)
    (hpath : ∀ j x, Below x j (leafOf k offset.toNat) → val b.longest x ≠ 0) :
    buddy2_free b offset = some b := by
  have hk := hinv.k_le
  have hsz := hinv.size_eq
  obtain ⟨hidx, hleaf⟩ := leaf_index hk (hsz ▸ h1)
  unfold buddy2_free
  rw [if_pos ⟨h0, h1⟩]
  simp only [hsz, hidx]
  rw [free_climb_none hk hinv.tree hleaf (le_refl _) _ 1 (by
    rw [hinv.tree.len]
    have := @Nat.lt_two_pow k
    omega) hpath]

theorem free_found {k : Nat} {b : buddy2} (hinv : Inv k b) {offset : Int}
    (h0 : 0 ≤ offset) (h1 : offset.toNat < b.size) {j z : Nat}
    (hz : Below z j (leafOf k offset.toNat)) (hv : val b.longest z = 0)
    (hlow : ∀ j2 x, j2 < j → Below x j2 (leafOf k offset.toNat) → val b.longest x ≠ 0) :
    ∃ l2, buddy2_free b offset = some { b with longest := l2 } ∧
      PathEdit coalesce k z (2 ^ j) b.longest l2 := by
  have hk := hinv.k_le
  have hsz := hinv.size_eq
  have ht := hinv.tree
  have hkp := pow_k_le hk
  obtain ⟨hidx, hleaf⟩ := leaf_index hk (hsz ▸ h1)
  obtain ⟨hjk, hzd, _⟩ := lowest_zero_live ht hleaf hz hv hlow
  have hjp : 2 ^ j ≤ 2 ^ k := pow_le_pow2 hjk
  have hfuel : k < b.longest.length + 1 := by
    rw [ht.len]
    have := @Nat.lt_two_pow k
    omega
  have hclimb := free_climb_found hk ht hz (k - j) (b.longest.length + 1) 1 hzd (by omega)
    (by omega) (by omega) hv hlow
  rw [Nat.one_mul] at hclimb
  have hzlt := tree_lt ht (show k - j ≤ k by omega) hzd
  obtain ⟨l2, hrun, hlen2, _, hoff, hanc⟩ :=
    free_coalesce_spec hk (k - j) ((b.longest.set z (2 ^ j)).length + 1)
      (b.longest.set z (2 ^ j)) z j (by rw [List.length_set]; exact ht.len) (by omega) hzd
      (by rw [List.length_set]; omega)
      (by
        intro x
        by_cases hx : x = z
        · subst hx; rw [val_set_eq _ hzlt]; exact hjp
        · rw [val_set_ne _ hx]; exact tree_val_le ht x)
  refine ⟨l2, ?_, ⟨by rw [hlen2, List.length_set], ?_, ?_, ?_⟩⟩
  · unfold buddy2_free
    rw [if_pos ⟨h0, h1⟩]
    simp only [hsz, hidx, hclimb]
    rw [wr_of_lt _ hzlt]
    simp only [hrun]
  · intro x hx
    have hxz : x ≠ z := fun e => hx 0 (e ▸ Below.self)
    rw [hoff x (fun j => hx (j + 1)), val_set_ne _ hxz]
  · rw [hoff z (fun j hc => by have := below_lt hc; omega), val_set_eq _ hzlt]
  · intro x j2 dx hx hb hdx hdxh
    exact hanc x j2 dx hx hb hdx hdxh

/-- What `buddy2_free` does on a state that satisfies the invariant: nothing when no
node above the leaf holds `0`, and otherwise it releases the lowest such node `z`. -/
theorem free_cases {k : Nat} {b : buddy2} (hinv : Inv k b) {offset : Int}
    (h0 : 0 ≤ offset) (h1 : offset.toNat < b.size) :
    (buddy2_free b offset = some b ∧
        ∀ j x, Below x j (leafOf k offset.toNat) → val b.longest x ≠ 0) ∨
      ∃ j z l2, Below z j (leafOf k offset.toNat) ∧ j ≤ k ∧ Below 0 (k - j) z ∧
        val b.longest z = 0 ∧ (j = 0 ∨ val b.longest (2 * z + 1) ≠ 0) ∧
        buddy2_free b offset = some { b with longest := l2 } ∧
        PathEdit coalesce k z (2 ^ j) b.longest l2 := by
  rcases path_cases b.longest (leafOf k offset.toNat) with hp | ⟨j, z, hz, hv, hlow⟩
  · exact Or.inl ⟨free_noop hinv h0 h1 hp, hp⟩
  · right
    obtain ⟨hidx, hleaf⟩ := leaf_index hinv.k_le (hinv.size_eq ▸ h1)
    obtain ⟨hjk, hzd, hl⟩ := lowest_zero_live hinv.tree hleaf hz hv hlow
    obtain ⟨l2, hrun, pe⟩ := free_found hinv h0 h1 hz hv hlow
    exact ⟨j, z, l2, hz, hjk, hzd, hv, hl, hrun, pe⟩

theorem free_range {b b2 : buddy2} {offset : Int} (h : buddy2_free b offset = some b2) :
    0 ≤ offset ∧ offset.toNat < b.size := by
  unfold buddy2_free at h
  by_contra hc
  rw [if_neg hc] at h
  cases h

theorem free_inv {k : Nat} {b b2 : buddy2} (hinv : Inv k b) {offset : Int}
    (h : buddy2_free b offset = some b2) : Inv k b2 := by
  obtain ⟨h0, h1⟩ := free_range h
  rcases free_cases hinv h0 h1 with ⟨hf, _⟩ | ⟨j, z, l2, _, hjk, hzd, hv, hl, hrun, pe⟩
  · rw [hf] at h
    have := Option.some.inj h
    subst this; exact hinv
  · rw [hrun] at h
    have := Option.some.inj h
    subst this
    exact ⟨hinv.k_le, hinv.size_eq,
      free_tree hinv.tree hzd (show k - j + j = k by omega) hv hl pe⟩

/-- After `buddy2_free` no node above the leaf of the released unit holds `0`. -/
theorem free_clears_path {k : Nat} {b b2 : buddy2} (hinv : Inv k b) {offset : Int}
    (h : buddy2_free b offset = some b2) :
    ∀ j x, Below x j (leafOf k offset.toNat) → val b2.longest x ≠ 0 := by
  obtain ⟨h0, h1⟩ := free_range h
  rcases free_cases hinv h0 h1 with ⟨hf, hp⟩ | ⟨j, z, l2, hz, hjk, hzd, hv, hl, hrun, pe⟩
  · rw [hf] at h
    have := Option.some.inj h
    subst this; exact hp
  · rw [hrun] at h
    have := Option.some.inj h
    subst this
    intro j2 x hx
    show val l2 x ≠ 0
    rcases Nat.lt_or_ge j2 j with hlt | hge
    · have hb := below_common hx hz (le_of_lt hlt)
      obtain ⟨m, hm⟩ : ∃ m, j - j2 = m + 1 := ⟨j - j2 - 1, by omega⟩
      rw [hm] at hb
      rw [pe.off x (off_below hb),
        live_below hinv.tree (show k - j + j = k by omega) hzd hv hl hb (by omega)]
      exact (pow2_pos _).ne'
    · exact free_path_nonzero hzd (show k - j + j = k by omega) pe _ x
        (below_common hz hx hge)

theorem size_found {k : Nat} {b : buddy2} (hinv : Inv k b) {offset : Int}
    (h0 : 0 ≤ offset) (h1 : offset.toNat < b.size) {j z : Nat}
    (hz : Below z j (leafOf k offset.toNat)) (hv : val b.longest z = 0)
    (hlow : ∀ j2 x, j2 < j → Below x j2 (leafOf k offset.toNat) → val b.longest x ≠ 0) :
    buddy2_size b offset = some ((2 ^ j : Nat) : Int) := by
  have hk := hinv.k_le
  have hsz := hinv.size_eq
  have ht := hinv.tree
  have hkp := pow_k_le hk
  obtain ⟨hidx, hleaf⟩ := leaf_index hk (hsz ▸ h1)
  obtain ⟨hjk, hzd, _⟩ := lowest_zero_live ht hleaf hz hv hlow
  have hjp : 2 ^ j ≤ 2 ^ k := pow_le_pow2 hjk
  have hfuel : k < b.longest.length + 2 := by
    rw [ht.len]
    have := @Nat.lt_two_pow k
    omega
  have hclimb := size_climb_found hk ht hz (k - j) (b.longest.length + 2) 1 hzd (by omega)
    (by omega) (by omega) hv hlow
  rw [Nat.one_mul] at hclimb
  unfold buddy2_size
  rw [if_pos ⟨h0, h1⟩]
  simp only [hsz, hidx, hclimb]
  rw [toInt_of_lt (by omega)]

/-! ## Allocation followed by release -/

theorem coalesce_restore {k : Nat} {l : List Nat} (ht : Tree k l) {d h x : Nat}
    (hdh : d + h = k) (hx : Below 0 d x) (hh : 1 ≤ h) (hne : val l x ≠ 0) :
    coalesce h (val l (2 * x + 1)) (val l (2 * x + 2)) = val l x := by
  obtain ⟨h2, rfl⟩ : ∃ h2, h = h2 + 1 := ⟨h - 1, by omega⟩
  have b1 := ht.bound (d + 1) h2 _ (by omega) (Below.left hx)
  have b2 := ht.bound (d + 1) h2 _ (by omega) (Below.right hx)
  unfold coalesce
  rcases ht.rule d h2 x hdh hx with ⟨ha, hb, hv | hv⟩ | ⟨hnot, hmax⟩
  · rw [if_pos (by rw [ha, hb, pow_succ]; omega), hv]
  · exact absurd hv hne
  · rw [if_neg (by
      intro hs
      rw [pow_succ] at hs
      exact hnot ⟨by omega, by omega⟩), hmax]

theorem alloc_free_restore {k index di hi : Nat} {l l2 l4 : List Nat} (ht : Tree k l)
    (hidx : Below 0 di index) (hdi : di + hi = k) (hfull : val l index = 2 ^ hi)
    (hpath : ∀ j x, Below x j index → val l x ≠ 0)
    (pe1 : PathEdit maxRule k index 0 l l2)
    (pe2 : PathEdit coalesce k index (2 ^ hi) l2 l4) : l4 = l := by
  have key : ∀ j x, Below x j index → val l4 x = val l x := by
    intro j
    induction j with
    | zero =>
      intro x hx
      have := below_zero hx
      subst this
      rw [pe2.mark, hfull]
    | succ j ih =>
      intro x hx
      obtain ⟨hjd, hxd⟩ := below_depth hx hidx
      have child : ∀ c, Below 0 (di - (j + 1) + 1) c → val l4 c = val l c := by
        intro c hc
        by_cases hon : ∃ j2, Below c j2 index
        · obtain ⟨j2, hj2⟩ := hon
          have := below_depth_unique hidx (below_root_trans hc hj2)
          have : j2 = j := by omega
          subst this
          exact ih c hj2
        · have hoff : ∀ j2, ¬ Below c j2 index := fun j2 hj2 => hon ⟨j2, hj2⟩
          rw [pe2.off c hoff, pe1.off c hoff]
      rw [pe2.anc x j (di - (j + 1)) (hi + (j + 1)) hx hxd (by omega),
        child _ (Below.left hxd), child _ (Below.right hxd)]
      exact coalesce_restore ht (by omega) hxd (by omega) (hpath _ x hx)
  apply list_ext_val (by rw [pe2.len, pe1.len])
  intro x _
  by_cases hon : ∃ j, Below x j index
  · obtain ⟨j, hj⟩ := hon
    exact key j x hj
  · have hoff : ∀ j, ¬ Below x j index := fun j hj => hon ⟨j, hj⟩
    rw [pe2.off x hoff, pe1.off x hoff]

/-- Data of a successful `buddy2_alloc`, as needed to run `buddy2_free` or
`buddy2_size` on the offset it returned. -/
theorem alloc_then_climb {k : Nat} {b : buddy2} (hinv : Inv k b) {n hn index : Nat}
    {l2 : List Nat} (hpow : n = 2 ^ hn) (hnk : hn ≤ k) (hidx : Below 0 (k - hn) index)
    (hval : val b.longest index = n) (pe : PathEdit maxRule k index 0 b.longest l2)
    (hlo : 2 ^ k ≤ (index + 1) * n) (hhi : (index + 1) * n < 2 * 2 ^ k) :
    let o : Int := (((index + 1) * n - 2 ^ k : Nat) : Int)
    0 ≤ o ∧ o.toNat < b.size ∧ Below index hn (leafOf k o.toNat) ∧ val l2 index = 0 ∧
      ∀ j2 x, j2 < hn → Below x j2 (leafOf k o.toNat) → val l2 x ≠ 0 := by
  intro o
  subst hpow
  have ho : o.toNat = (index + 1) * 2 ^ hn - 2 ^ k := Int.toNat_ofNat _
  have hleaf : Below index hn (leafOf k o.toNat) := by
    rw [ho]
    unfold leafOf
    have e : (index + 2) * 2 ^ hn = (index + 1) * 2 ^ hn + 2 ^ hn := by ring
    have := pow2_pos hn
    apply below_of_range
    · omega
    · rw [e]; omega
  refine ⟨Int.ofNat_nonneg _, by rw [ho, hinv.size_eq]; omega, hleaf, pe.mark, ?_⟩
  intro j2 x hj2 hx
  have hb := below_common hx hleaf (le_of_lt hj2)
  obtain ⟨m, hm⟩ : ∃ m, hn - j2 = m + 1 := ⟨hn - j2 - 1, by omega⟩
  rw [hm] at hb
  rw [pe.off x (off_below hb),
    tree_full_below hinv.tree (show k - hn + hn = k by omega) hidx hval hb (by omega)]
  exact (pow2_pos _).ne'

theorem path_nonzero_of_ge {l : List Nat} {index hn : Nat}
    (hpath : ∀ j x, Below x j index → 2 ^ hn ≤ val l x) :
    ∀ j x, Below x j index → val l x ≠ 0 := by
  intro j x hx
  have := hpath j x hx
  have := pow2_pos hn
  omega

/-! ## Reachable states -/

theorem reachable_inv {b : buddy2} (h : Reachable b) : ∃ k, Inv k b := by
  induction h with
  | create hnew =>
    obtain ⟨k, hinv, _⟩ := inv_of_new hnew
    exact ⟨k, hinv⟩
  | alloc _ hsize hrun ih =>
    obtain ⟨k, hinv⟩ := ih
    exact ⟨k, alloc_inv hinv hsize.2 hrun⟩
  | free _ hrun ih =>
    obtain ⟨k, hinv⟩ := ih
    exact ⟨k, free_inv hinv hrun⟩

/-! ## Histories: states together with the blocks that are handed out -/

theorem node_span_range {k d h i : Nat} (hdh : d + h = k) (hi : Below 0 d i) :
    2 ^ k ≤ (i + 1) * 2 ^ h ∧ (i + 1) * 2 ^ h + 2 ^ h ≤ 2 * 2 ^ k := by
  have r := below_root_range hi
  have hmul : 2 ^ d * 2 ^ h = 2 ^ k := by rw [← pow_add, hdh]
  constructor
  · rw [← hmul]; exact Nat.mul_le_mul_right _ r.1
  · have : (i + 2) * 2 ^ h ≤ 2 ^ (d + 1) * 2 ^ h := Nat.mul_le_mul_right _ (by omega)
    rw [pow_succ, Nat.mul_right_comm, hmul] at this
    have e : (i + 2) * 2 ^ h = (i + 1) * 2 ^ h + 2 ^ h := by ring
    omega

theorem node_of_span {h i i2 : Nat} (he : (i + 1) * 2 ^ h = (i2 + 1) * 2 ^ h) : i = i2 := by
  have := Nat.eq_of_mul_eq_mul_right (pow2_pos h) he
  omega

/-- A unit lies in the span of a node exactly when its leaf lies below the node. -/
theorem covers_iff_below {k d h i : Nat} {o p : Int} (hdh : d + h = k) (hi : Below 0 d i)
    (ho : o + ((2 ^ k : Nat) : Int) = (((i + 1) * 2 ^ h : Nat) : Int))
    (h0 : 0 ≤ p) :
    covers (o, 2 ^ h) p ↔ Below i h (leafOf k p.toNat) := by
  have hr := node_span_range hdh hi
  have e : (i + 2) * 2 ^ h = (i + 1) * 2 ^ h + 2 ^ h := by ring
  have hp := pow2_pos k
  unfold covers leafOf
  constructor
  · rintro ⟨c1, c2⟩
    simp only [Nat.cast_pow, Nat.cast_ofNat] at c2
    have c2 : p < o + ((2 ^ h : Nat) : Int) := by push_cast; exact c2
    apply below_of_range
    · omega
    · rw [e]; omega
  · intro hb
    have r := below_range hb
    rw [e] at r
    refine ⟨by omega, ?_⟩
    have : p < o + ((2 ^ h : Nat) : Int) := by omega
    simpa using this

theorem live_unique {k : Nat} {l : List Nat} (ht : Tree k l) {leaf i1 h1 i2 d2 h2 : Nat}
    (v1 : val l i1 = 0)
    (e2 : d2 + h2 = k) (b2 : Below 0 d2 i2) (v2 : val l i2 = 0)
    (l2 : h2 = 0 ∨ val l (2 * i2 + 1) ≠ 0)
    (c1 : Below i1 h1 leaf) (c2 : Below i2 h2 leaf) (hle : h1 ≤ h2) : h1 = h2 ∧ i1 = i2 := by
  have hb := below_common c1 c2 hle
  rcases Nat.eq_or_lt_of_le hle with heq | hlt
  · subst heq
    rw [Nat.sub_self] at hb
    exact ⟨rfl, below_zero hb⟩
  · exfalso
    obtain ⟨m, hm⟩ : ∃ m, h2 - h1 = m + 1 := ⟨h2 - h1 - 1, by omega⟩
    rw [hm] at hb
    have := live_below ht e2 b2 v2 l2 hb (by omega)
    rw [v1] at this
    exact (pow2_pos _).ne this

theorem liveBlock_fresh {k : Nat} {l : List Nat}
    (hfull : ∀ d h i, d + h = k → Below 0 d i → val l i = 2 ^ h) (o : Int) (n : Nat) :
    ¬ LiveBlock k l o n := by
  rintro ⟨i, d, h, hdh, hi, hv, _⟩
  rw [hfull d h i hdh hi] at hv
  exact (pow2_pos h).ne' hv

theorem liveBlock_alloc {k index hn : Nat} {l l2 : List Nat} (ht : Tree k l) (hnk : hn ≤ k)
    (hidx : Below 0 (k - hn) index) (hfull : val l index = 2 ^ hn)
    (hpath : ∀ j x, Below x j index → val l x ≠ 0)
    (pe : PathEdit maxRule k index 0 l l2) {o : Int}
    (ho : o + ((2 ^ k : Nat) : Int) = (((index + 1) * 2 ^ hn : Nat) : Int))
    (o2 : Int) (n2 : Nat) :
    LiveBlock k l2 o2 n2 ↔ LiveBlock k l o2 n2 ∨ (o2 = o ∧ n2 = 2 ^ hn) := by
  have hdi : k - hn + hn = k := by omega
  constructor
  · rintro ⟨i, d, h, hdh, hi, hv, hl, hn2, ho2⟩
    rcases (alloc_live ht hidx hdi hfull hpath pe i).mp ⟨d, h, hdh, hi, hv, hl⟩ with
      ⟨d', h', hdh', hi', hv', hl'⟩ | rfl
    · have := below_depth_unique hi hi'
      subst this
      have : h' = h := by omega
      subst this
      exact Or.inl ⟨i, d, h', hdh, hi, hv', hl', hn2, ho2⟩
    · have := below_depth_unique hi hidx
      have : h = hn := by omega
      subst this
      exact Or.inr ⟨by omega, hn2⟩
  · rintro (⟨i, d, h, hdh, hi, hv, hl, hn2, ho2⟩ | ⟨rfl, rfl⟩)
    · obtain ⟨d', h', hdh', hi', hv', hl'⟩ :=
        (alloc_live ht hidx hdi hfull hpath pe i).mpr (Or.inl ⟨d, h, hdh, hi, hv, hl⟩)
      have := below_depth_unique hi hi'
      subst this
      have : h' = h := by omega
      subst this
      exact ⟨i, d, h', hdh, hi, hv', hl', hn2, ho2⟩
    · obtain ⟨d', h', hdh', hi', hv', hl'⟩ :=
        (alloc_live ht hidx hdi hfull hpath pe index).mpr (Or.inr rfl)
      have := below_depth_unique hidx hi'
      have : h' = hn := by omega
      subst this
      exact ⟨index, d', h', hdh', hi', hv', hl', rfl, ho⟩

theorem liveBlock_free {k z j : Nat} {l l2 : List Nat} (ht : Tree k l) (hjk : j ≤ k)
    (hzb : Below 0 (k - j) z) (hv : val l z = 0)
    (pe : PathEdit coalesce k z (2 ^ j) l l2) {o : Int}
    (ho : o + ((2 ^ k : Nat) : Int) = (((z + 1) * 2 ^ j : Nat) : Int))
    (o2 : Int) (n2 : Nat) :
    LiveBlock k l2 o2 n2 ↔ LiveBlock k l o2 n2 ∧ ¬ (o2 = o ∧ n2 = 2 ^ j) := by
  have hdz : k - j + j = k := by omega
  constructor
  · rintro ⟨i, d, h, hdh, hi, hv2, hl2, hn2, ho2⟩
    obtain ⟨⟨d', h', hdh', hi', hv', hl'⟩, hne⟩ :=
      (free_live ht hzb hdz hv pe i).mp ⟨d, h, hdh, hi, hv2, hl2⟩
    have := below_depth_unique hi hi'
    subst this
    have : h' = h := by omega
    subst this
    refine ⟨⟨i, d, h', hdh, hi, hv', hl', hn2, ho2⟩, ?_⟩
    rintro ⟨rfl, hn3⟩
    apply hne
    have : h' = j := pow2_inj (hn2.symm.trans hn3)
    subst this
    have he : (i + 1) * 2 ^ h' = (z + 1) * 2 ^ h' := by
      have := ho2.symm.trans ho
      exact_mod_cast this
    exact node_of_span he
  · rintro ⟨⟨i, d, h, hdh, hi, hvi, hli, hn2, ho2⟩, hne⟩
    have hiz : i ≠ z := by
      rintro rfl
      have := below_depth_unique hi hzb
      have : h = j := by omega
      subst this
      exact hne ⟨by omega, hn2⟩
    obtain ⟨d', h', hdh', hi', hv', hl'⟩ :=
      (free_live ht hzb hdz hv pe i).mpr ⟨⟨d, h, hdh, hi, hvi, hli⟩, hiz⟩
    have := below_depth_unique hi hi'
    subst this
    have : h' = h := by omega
    subst this
    exact ⟨i, d, h', hdh, hi, hv', hl', hn2, ho2⟩

theorem alloc_ok_data {k : Nat} {b b2 : buddy2} (hinv : Inv k b) {size o : Int} {n : Nat}
    (hsize : InIntRange size) (hrun : buddy2_alloc b size = some (b2, o)) (hneg : o ≠ -1)
    (hnorm : normalize size = some n) :
    ∃ hn index, 0 < size ∧ n = 2 ^ hn ∧ hn ≤ k ∧ n ≤ val b.longest 0 ∧
      Below 0 (k - hn) index ∧ val b.longest index = n ∧
      (∀ j x, Below x j index → n ≤ val b.longest x) ∧
      alloc_descend b.longest n (b.longest.length + 1) b.size 0 = some (index, n) ∧
      PathEdit maxRule k index 0 b.longest b2.longest ∧ b2.size = b.size ∧
      2 ^ k ≤ (index + 1) * n ∧ (index + 1) * n < 2 * 2 ^ k ∧
      o = (((index + 1) * n - 2 ^ k : Nat) : Int) := by
  rcases alloc_cases hinv hsize.2 with ⟨hf, _⟩ |
    ⟨n2, hn, index, l2, h0, hnorm2, hpow, hnk, hfit, hidx, hval, hpath, hdesc, pe, hlo, hhi,
      hok⟩
  · rw [hf] at hrun
    exact absurd (Prod.mk.inj (Option.some.inj hrun)).2.symm hneg
  · rw [hnorm] at hnorm2
    have := Option.some.inj hnorm2
    subst this
    rw [hok] at hrun
    obtain ⟨e1, e2⟩ := Prod.mk.inj (Option.some.inj hrun)
    subst e1
    exact ⟨hn, index, h0, hpow, hnk, hfit, hidx, hval, hpath, hdesc, pe, rfl, hlo, hhi,
      e2.symm⟩

theorem alloc_fail_data {k : Nat} {b b2 : buddy2} (hinv : Inv k b) {size : Int}
    (hsize : size ≤ 2147483647) (hrun : buddy2_alloc b size = some (b2, -1)) :
    b2 = b ∧ (size ≤ 0 ∨ ∃ n, normalize size = some n ∧ val b.longest 0 < n) := by
  rcases alloc_cases hinv hsize with ⟨hf, hc⟩ |
    ⟨n2, hn, index, l2, h0, hnorm2, hpow, hnk, hfit, hidx, hval, hpath, hdesc, pe, hlo, hhi,
      hok⟩
  · rw [hf] at hrun
    exact ⟨((Prod.mk.inj (Option.some.inj hrun)).1).symm, hc⟩
  · rw [hok] at hrun
    have := (Prod.mk.inj (Option.some.inj hrun)).2
    omega

theorem history_inv {b : buddy2} {L : List (Int × Nat)} (h : History b L) : HistInv b L := by
  induction h with
  | create hnew =>
    obtain ⟨k, hinv, _, hfull⟩ := inv_of_new hnew
    refine ⟨k, hinv, List.nodup_nil, ?_⟩
    intro o n
    constructor
    · intro hm; cases hm
    · intro hl; exact absurd hl (liveBlock_fresh hfull o n)
  | @alloc_ok b b2 L size o n _ hsize hrun hneg hnorm ih =>
    obtain ⟨k, hinv, hnd, hmem⟩ := ih
    obtain ⟨hn, index, h0, hpow, hnk, hfit, hidx, hval, hpath, _, pe, hsz, hlo, hhi, ho⟩ :=
      alloc_ok_data hinv hsize hrun hneg hnorm
    subst hpow
    have ho2 : o + ((2 ^ k : Nat) : Int) = (((index + 1) * 2 ^ hn : Nat) : Int) := by omega
    have hlb := liveBlock_alloc hinv.tree hnk hidx hval (path_nonzero_of_ge hpath) pe ho2
    refine ⟨k, alloc_inv hinv hsize.2 hrun, ?_, ?_⟩
    · refine List.nodup_cons.mpr ⟨?_, hnd⟩
      intro hin
      obtain ⟨i, d, h, hdh, hi, hv, _, hn2, ho3⟩ := (hmem o (2 ^ hn)).mp hin
      have : hn = h := pow2_inj hn2
      subst this
      have he : (i + 1) * 2 ^ hn = (index + 1) * 2 ^ hn := by
        have := ho3.symm.trans ho2
        exact_mod_cast this
      have := node_of_span he
      subst this
      rw [hv] at hval
      exact (pow2_pos hn).ne hval
    · intro o3 n3
      rw [hlb o3 n3, List.mem_cons, ← hmem o3 n3]
      constructor
      · rintro (he | hm)
        · exact Or.inr ⟨(Prod.mk.inj he).1, (Prod.mk.inj he).2⟩
        · exact Or.inl hm
      · rintro (hm | ⟨e1, e2⟩)
        · exact Or.inr hm
        · exact Or.inl (by rw [e1, e2])
  | @alloc_fail b b2 L size _ hsize hrun ih =>
    obtain ⟨k, hinv, hnd, hmem⟩ := ih
    obtain ⟨he, _⟩ := alloc_fail_data hinv hsize.2 hrun
    subst he
    exact ⟨k, hinv, hnd, hmem⟩
  | @free_live b b2 L o n _ hin hrun ih =>
    obtain ⟨k, hinv, hnd, hmem⟩ := ih
    obtain ⟨i, d, h, hdh, hi, hv, hl, hn2, ho⟩ := (hmem o n).mp hin
    subst hn2
    obtain ⟨h0, h1⟩ := free_range hrun
    have hcov : covers (o, 2 ^ h) o := by
      unfold covers
      have := pow2_pos h
      refine ⟨le_refl _, ?_⟩
      show o < o + ((2 ^ h : Nat) : Int)
      omega
    have hleaf := (covers_iff_below hdh hi ho h0).mp hcov
    have hlow := live_is_lowest hinv.tree hi hdh hleaf hv hl
    obtain ⟨l2, hrun2, pe⟩ := free_found hinv h0 h1 hleaf hv hlow
    rw [hrun2] at hrun
    have := Option.some.inj hrun
    subst this
    have hd : d = k - h := by omega
    subst hd
    have hlb := liveBlock_free hinv.tree (show h ≤ k by omega) hi hv pe ho
    refine ⟨k, free_inv hinv hrun2, hnd.erase _, ?_⟩
    intro o3 n3
    show (o3, n3) ∈ L.erase (o, 2 ^ h) ↔ LiveBlock k l2 o3 n3
    rw [hlb o3 n3, hnd.mem_erase_iff, ← hmem o3 n3]
    constructor
    · rintro ⟨hne, hm⟩
      exact ⟨hm, fun ⟨e1, e2⟩ => hne (by rw [e1, e2])⟩
    · rintro ⟨hm, hne⟩
      exact ⟨fun he => hne ⟨(Prod.mk.inj he).1, (Prod.mk.inj he).2⟩, hm⟩
  | @free_any b b2 L p _ hrun ih =>
    obtain ⟨k, hinv, hnd, hmem⟩ := ih
    obtain ⟨h0, h1⟩ := free_range hrun
    rcases free_cases hinv h0 h1 with ⟨hf, hp⟩ | ⟨j, z, l2, hz, hjk, hzd, hv, hl, hrun2, pe⟩
    · rw [hf] at hrun
      have := Option.some.inj hrun
      subst this
      refine ⟨k, hinv, hnd.filter _, ?_⟩
      intro o3 n3
      rw [List.mem_filter, ← hmem o3 n3]
      constructor
      · exact fun hm => hm.1
      · intro hm
        refine ⟨hm, ?_⟩
        rw [decide_eq_true_eq]
        intro hc
        obtain ⟨i, d, h, hdh, hi, hvi, _, hn2, ho⟩ := (hmem o3 n3).mp hm
        subst hn2
        exact hp h i ((covers_iff_below hdh hi ho h0).mp hc) hvi
    · rw [hrun2] at hrun
      have := Option.some.inj hrun
      subst this
      have hr := node_span_range (show k - j + j = k by omega) hzd
      have ho : ((((z + 1) * 2 ^ j - 2 ^ k : Nat) : Int)) + ((2 ^ k : Nat) : Int) =
          (((z + 1) * 2 ^ j : Nat) : Int) := by omega
      have hlb := liveBlock_free hinv.tree hjk hzd hv pe ho
      refine ⟨k, free_inv hinv hrun2, hnd.filter _, ?_⟩
      intro o3 n3
      show _ ↔ LiveBlock k l2 o3 n3
      rw [hlb o3 n3, List.mem_filter, ← hmem o3 n3, decide_eq_true_eq]
      constructor
      · rintro ⟨hm, hnc⟩
        refine ⟨hm, ?_⟩
        rintro ⟨e1, e2⟩
        apply hnc
        rw [e1, e2]
        exact (covers_iff_below (show k - j + j = k by omega) hzd ho h0).mpr hz
      · rintro ⟨hm, hne⟩
        refine ⟨hm, ?_⟩
        intro hc
        obtain ⟨i, d, h, hdh, hi, hvi, hli, hn2, ho3⟩ := (hmem o3 n3).mp hm
        subst hn2
        have hbi := (covers_iff_below hdh hi ho3 h0).mp hc
        have huniq : h = j ∧ i = z := by
          rcases Nat.le_total h j with hle | hle
          · exact live_unique hinv.tree hvi (show k - j + j = k by omega) hzd hv hl hbi hz hle
          · obtain ⟨e1, e2⟩ := live_unique hinv.tree hv hdh hi hvi hli hz hbi hle
            exact ⟨e1.symm, e2.symm⟩
        obtain ⟨e1, e2⟩ := huniq
        subst e1 e2
        exact hne ⟨by omega, rfl⟩

theorem history_reachable {b : buddy2} {L : List (Int × Nat)} (h : History b L) :
    Reachable b := by
  induction h with
  | create hnew => exact Reachable.create hnew
  | alloc_ok _ hsize hrun _ _ ih => exact Reachable.alloc ih hsize hrun
  | alloc_fail _ hsize hrun ih => exact Reachable.alloc ih hsize hrun
  | free_live _ _ hrun ih => exact Reachable.free ih hrun
  | free_any _ hrun ih => exact Reachable.free ih hrun

/-- Every reachable state is the state of some history. -/
theorem reachable_history {b : buddy2} (h : Reachable b) : ∃ L, History b L := by
  induction h with
  | create hnew => exact ⟨[], History.create hnew⟩
  | @alloc b b2 size r _ hsize hrun ih =>
    obtain ⟨L, hist⟩ := ih
    by_cases hr : r = -1
    · subst hr
      exact ⟨L, History.alloc_fail hist hsize hrun⟩
    · have h0 : 0 < size := by
        by_contra hneg
        rw [alloc_nonpos b (by omega)] at hrun
        exact hr (Prod.mk.inj (Option.some.inj hrun)).2.symm
      obtain ⟨_, n, hnorm, _⟩ := normalize_spec size h0 hsize.2
      exact ⟨_, History.alloc_ok hist hsize hrun hr hnorm⟩
  | free _ hrun ih =>
    obtain ⟨L, hist⟩ := ih
    exact ⟨_, History.free_any hist hrun⟩

/-- A block returned by a successful `buddy2_alloc` shares no unit with a block that
is handed out at that moment. -/
theorem new_block_apart {k : Nat} {b : buddy2} (hinv : Inv k b) {L : List (Int × Nat)}
    (hmem : ∀ o n, (o, n) ∈ L ↔ LiveBlock k b.longest o n) {hn index : Nat} {o : Int}
    (hnk : hn ≤ k) (hidx : Below 0 (k - hn) index) (hval : val b.longest index = 2 ^ hn)
    (hpath : ∀ j x, Below x j index → 2 ^ hn ≤ val b.longest x)
    (ho : o + ((2 ^ k : Nat) : Int) = (((index + 1) * 2 ^ hn : Nat) : Int)) :
    ∀ blk ∈ L, apart (o, 2 ^ hn) blk := by
  rintro ⟨o2, n2⟩ hin
  obtain ⟨i, d, h, hdh, hi, hv, hl, hn2, ho2⟩ := (hmem o2 n2).mp hin
  subst hn2
  have hdi : k - hn + hn = k := by omega
  have r1 := node_span_range hdi hidx
  have r2 := node_span_range hdh hi
  by_contra hna
  unfold apart at hna
  simp only [not_or, not_le] at hna
  obtain ⟨a1, a2⟩ := hna
  have a1 : o2 < o + ((2 ^ hn : Nat) : Int) := a1
  have a2 : o < o2 + ((2 ^ h : Nat) : Int) := a2
  have hp0 : 0 ≤ max o o2 := le_trans (by omega) (le_max_left o o2)
  have c1 : covers (o, 2 ^ hn) (max o o2) := by
    refine ⟨le_max_left _ _, ?_⟩
    show max o o2 < o + ((2 ^ hn : Nat) : Int)
    have := pow2_pos hn
    exact max_lt (by omega) a1
  have c2 : covers (o2, 2 ^ h) (max o o2) := by
    refine ⟨le_max_right _ _, ?_⟩
    show max o o2 < o2 + ((2 ^ h : Nat) : Int)
    have := pow2_pos h
    exact max_lt a2 (by omega)
  have b1 := (covers_iff_below hdi hidx ho hp0).mp c1
  have b2 := (covers_iff_below hdh hi ho2 hp0).mp c2
  rcases Nat.le_total hn h with hle | hle
  · have := hpath _ i (below_common b1 b2 hle)
    rw [hv] at this
    have := pow2_pos hn
    omega
  · rcases Nat.eq_or_lt_of_le hle with heq | hlt
    · subst heq
      have := hpath _ i (below_common b1 b2 (le_refl _))
      rw [hv] at this
      have := pow2_pos h
      omega
    · have hb := below_common b2 b1 hle
      have := tree_full_below hinv.tree hdi hidx hval hb (by omega)
      rw [hv] at this
      exact (pow2_pos _).ne this

theorem history_pairwise {b : buddy2} {L : List (Int × Nat)} (h : History b L) :
    L.Pairwise apart := by
  induction h with
  | create _ => exact List.Pairwise.nil
  | @alloc_ok b b2 L size o n hist hsize hrun hneg hnorm ih =>
    obtain ⟨k, hinv, _, hmem⟩ := history_inv hist
    obtain ⟨hn, index, _, hpow, hnk, _, hidx, hval, hpath, _, _, _, hlo, _, ho⟩ :=
      alloc_ok_data hinv hsize hrun hneg hnorm
    subst hpow
    have ho2 : o + ((2 ^ k : Nat) : Int) = (((index + 1) * 2 ^ hn : Nat) : Int) := by omega
    exact List.pairwise_cons.mpr
      ⟨new_block_apart hinv hmem hnk hidx hval hpath ho2, ih⟩
  | alloc_fail _ _ _ ih => exact ih
  | free_live _ _ _ ih => exact ih.sublist (List.erase_sublist _ _)
  | free_any _ _ ih => exact ih.sublist (List.filter_sublist _)

/-- Without a live node every node holds its whole span. -/
theorem all_free_of_no_live {k : Nat} {l : List Nat} (ht : Tree k l)
    (hno : ∀ o n, ¬ LiveBlock k l o n) :
    ∀ h d i, d + h = k → Below 0 d i → val l i = 2 ^ h := by
  have nolive : ∀ d h i, d + h = k → Below 0 d i → val l i = 0 →
      (h = 0 ∨ val l (2 * i + 1) ≠ 0) → False := by
    intro d h i hdh hi hv hl
    have r := node_span_range hdh hi
    exact hno ((((i + 1) * 2 ^ h - 2 ^ k : Nat) : Int)) (2 ^ h)
      ⟨i, d, h, hdh, hi, hv, hl, rfl, by omega⟩
  intro h
  induction h with
  | zero =>
    intro d i hdh hi
    have := ht.bound d 0 i hdh hi
    rw [pow_zero] at this ⊢
    by_contra hne
    exact nolive d 0 i hdh hi (by omega) (Or.inl rfl)
  | succ h ih =>
    intro d i hdh hi
    have c1 := ih (d + 1) _ (by omega) (Below.left hi)
    have c2 := ih (d + 1) _ (by omega) (Below.right hi)
    rcases ht.rule d h i hdh hi with ⟨_, _, hv | hv⟩ | ⟨hnot, _⟩
    · exact hv
    · exfalso
      exact nolive d (h + 1) i hdh hi hv (Or.inr (by rw [c1]; exact (pow2_pos h).ne'))
    · exact absurd ⟨c1, c2⟩ hnot

/-! ## Concrete states used to instantiate the theorems -/

theorem int_range_1 : InIntRange 1 := ⟨by decide, by decide⟩

theorem int_range_5 : InIntRange 5 := ⟨by decide, by decide⟩

theorem new_2 : buddy2_new 2 = some (some st2_fresh) := by decide

theorem new_16 : buddy2_new 16 = some (some st16_fresh) := by decide

theorem alloc_2_first : buddy2_alloc st2_fresh 1 = some (st2_one, 0) := by decide

theorem alloc_2_second : buddy2_alloc st2_one 1 = some (st2_both, 1) := by decide

theorem alloc_16_five : buddy2_alloc st16_fresh 5 = some (st16_five, 0) := by decide

theorem normalize_1 : normalize 1 = some 1 := by decide

theorem normalize_5 : normalize 5 = some 8 := by decide

theorem history_2_one : History st2_one [(0, 1)] :=
  History.alloc_ok (History.create new_2) int_range_1 alloc_2_first (by decide) normalize_1

theorem reachable_2_fresh : Reachable st2_fresh := Reachable.create new_2

theorem reachable_16_fresh : Reachable st16_fresh := Reachable.create new_16

/-! ## The claims -/

/-- C1: along every history from a fresh allocator, the block `[o, o + n)` returned by
a successful `buddy2_alloc` (`n` the normalised size) shares no unit with any block
that is handed out at that moment, and the blocks handed out afterwards are pairwise
without a common unit. -/
theorem C1_alloc_disjoint_from_live (b : buddy2) (L : List (Int × Nat)) (hist : History b L)
    (size o : Int) (n : Nat) (b2 : buddy2) (hsize : InIntRange size)
    (hrun : buddy2_alloc b size = some (b2, o)) (hok : o ≠ -1)
    (hnorm : normalize size = some n) :
    (∀ blk ∈ L, apart (o, n) blk) ∧ ((o, n) :: L).Pairwise apart := by
  have hp := history_pairwise (History.alloc_ok hist hsize hrun hok hnorm)
  exact ⟨(List.pairwise_cons.mp hp).1, hp⟩

/-- Instance of C1: with unit `0` handed out from a capacity-2 allocator, a further
`buddy2_alloc(1)` returns offset `1`. -/
theorem C1_witness :
    History st2_one [(0, 1)] ∧ buddy2_alloc st2_one 1 = some (st2_both, 1) ∧
      (∀ blk ∈ [((0 : Int), 1)], apart ((1 : Int), 1) blk) ∧
      List.Pairwise apart [((1 : Int), 1), ((0 : Int), 1)] :=
  ⟨history_2_one, alloc_2_second,
    C1_alloc_disjoint_from_live st2_one [(0, 1)] history_2_one 1 1 1 st2_both int_range_1
      alloc_2_second (by decide) normalize_1⟩

/-- C2: in a reachable state `buddy2_alloc` returns `-1` exactly when `size <= 0` or
`longest[0] < n` for the normalised size `n`; it does so in particular when `n` exceeds
the capacity; in every other case it returns a non-negative offset. -/
theorem C2_alloc_fails_iff (b : buddy2) (hr : Reachable b) (size : Int)
    (hsize : InIntRange size) :
    ((∃ b2, buddy2_alloc b size = some (b2, -1)) ↔
        (size ≤ 0 ∨ ∃ n v, normalize size = some n ∧ rd b.longest 0 = some v ∧ v < n)) ∧
      (∀ n, 0 < size → normalize size = some n → b.size < n →
        buddy2_alloc b size = some (b, -1)) ∧
      (¬ (size ≤ 0 ∨ ∃ n v, normalize size = some n ∧ rd b.longest 0 = some v ∧ v < n) →
        ∃ b2 o, buddy2_alloc b size = some (b2, o) ∧ 0 ≤ o) := by
  obtain ⟨k, hinv⟩ := reachable_inv hr
  have hrd : rd b.longest 0 = some (val b.longest 0) := rd_of_lt (tree_len_pos hinv.tree)
  have hroot : val b.longest 0 ≤ b.size := by
    rw [hinv.size_eq]; exact hinv.tree.bound 0 k 0 (by omega) Below.self
  have conv : (size ≤ 0 ∨ ∃ n, normalize size = some n ∧ val b.longest 0 < n) ↔
      (size ≤ 0 ∨ ∃ n v, normalize size = some n ∧ rd b.longest 0 = some v ∧ v < n) := by
    constructor
    · rintro (h | ⟨n, h1, h2⟩)
      · exact Or.inl h
      · exact Or.inr ⟨n, _, h1, hrd, h2⟩
    · rintro (h | ⟨n, v, h1, h2, h3⟩)
      · exact Or.inl h
      · rw [hrd] at h2
        have := Option.some.inj h2
        subst this
        exact Or.inr ⟨n, h1, h3⟩
  refine ⟨⟨?_, ?_⟩, ?_, ?_⟩
  · rintro ⟨b2, hb2⟩
    exact conv.mp (alloc_fail_data hinv hsize.2 hb2).2
  · intro hc
    rcases conv.mpr hc with h | ⟨n, h1, h2⟩
    · exact ⟨b, alloc_nonpos b h⟩
    · have h0 : 0 < size := by
        by_contra hneg
        have : size.toNat = 0 := by omega
        unfold normalize at h1
        rw [this] at h1
        have hh : n = 0 := by
          have : some 0 = some n := h1
          exact (Option.some.inj this).symm
        omega
      exact ⟨b, alloc_too_big hinv h0 h1 h2⟩
  · intro n h0 h1 h2
    exact alloc_too_big hinv h0 h1 (by omega)
  · intro hc
    rcases alloc_cases hinv hsize.2 with ⟨_, hf⟩ |
      ⟨n, hn, index, l2, _, _, _, _, _, _, _, _, _, _, _, _, hok⟩
    · exact absurd (conv.mp hf) hc
    · exact ⟨_, _, hok, Int.ofNat_nonneg _⟩

/-- Instance of C2: a request of 5 units on a fresh capacity-2 allocator. -/
theorem C2_witness :
    Reachable st2_fresh ∧ InIntRange 5 ∧
      ((∃ b2, buddy2_alloc st2_fresh 5 = some (b2, -1)) ↔
        ((5 : Int) ≤ 0 ∨
          ∃ n v, normalize 5 = some n ∧ rd st2_fresh.longest 0 = some v ∧ v < n)) ∧
      (∀ n, (0 : Int) < 5 → normalize 5 = some n → st2_fresh.size < n →
        buddy2_alloc st2_fresh 5 = some (st2_fresh, -1)) ∧
      (¬ ((5 : Int) ≤ 0 ∨
          ∃ n v, normalize 5 = some n ∧ rd st2_fresh.longest 0 = some v ∧ v < n) →
        ∃ b2 o, buddy2_alloc st2_fresh 5 = some (b2, o) ∧ 0 ≤ o) :=
  ⟨reachable_2_fresh, int_range_5,
    C2_alloc_fails_iff st2_fresh reachable_2_fresh 5 int_range_5⟩

/-- C3: in a reachable state, when `buddy2_alloc` fails (non-positive size, size
greater than the capacity, or `longest[0]` smaller than the normalised size) it returns
`-1` and leaves `size` and every cell of `longest` as they were. -/
theorem C3_failed_alloc_changes_nothing (b : buddy2) (hr : Reachable b) (size : Int)
    (hsize : InIntRange size) :
    ((size ≤ 0 ∨ (b.size : Int) < size ∨
          ∃ n v, normalize size = some n ∧ rd b.longest 0 = some v ∧ v < n) →
        buddy2_alloc b size = some (b, -1)) ∧
      (∀ b2, buddy2_alloc b size = some (b2, -1) →
        b2.size = b.size ∧ b2.longest = b.longest) := by
  obtain ⟨k, hinv⟩ := reachable_inv hr
  have hrd : rd b.longest 0 = some (val b.longest 0) := rd_of_lt (tree_len_pos hinv.tree)
  have hroot : val b.longest 0 ≤ b.size := by
    rw [hinv.size_eq]; exact hinv.tree.bound 0 k 0 (by omega) Below.self
  constructor
  · rintro (h | h | ⟨n, v, h1, h2, h3⟩)
    · exact alloc_nonpos b h
    · by_cases h0 : size ≤ 0
      · exact alloc_nonpos b h0
      · obtain ⟨j, n, hnorm, _, _, hle, _⟩ := normalize_spec size (by omega) hsize.2
        exact alloc_too_big hinv (by omega) hnorm (by omega)
    · by_cases h0 : size ≤ 0
      · exact alloc_nonpos b h0
      · rw [hrd] at h2
        have := Option.some.inj h2
        subst this
        exact alloc_too_big hinv (by omega) h1 h3
  · intro b2 hb2
    have := (alloc_fail_data hinv hsize.2 hb2).1
    subst this
    exact ⟨rfl, rfl⟩

/-- Instance of C3: a request of 5 units on a capacity-2 allocator. -/
theorem C3_witness :
    Reachable st2_fresh ∧ InIntRange 5 ∧
      ((((5 : Int) ≤ 0 ∨ (st2_fresh.size : Int) < 5 ∨
          ∃ n v, normalize 5 = some n ∧ rd st2_fresh.longest 0 = some v ∧ v < n) →
        buddy2_alloc st2_fresh 5 = some (st2_fresh, -1)) ∧
      (∀ b2, buddy2_alloc st2_fresh 5 = some (b2, -1) →
        b2.size = st2_fresh.size ∧ b2.longest = st2_fresh.longest)) :=
  ⟨reachable_2_fresh, int_range_5,
    C3_failed_alloc_changes_nothing st2_fresh reachable_2_fresh 5 int_range_5⟩

theorem offset_arith (M N C : Nat) (hN : 0 < N) (h1 : C ≤ M) (h2 : M + N ≤ 2 * C) :
    ((M - C : Nat) : Int) = (M : Int) - (C : Int) ∧ M - C + N ≤ C ∧
      ∀ x, (M ≤ x + 1 ∧ x + 1 < M + N) ↔ (M - C + C - 1 ≤ x ∧ x ≤ M - C + N + C - 2) := by
  refine ⟨by omega, by omega, fun x => by omega⟩

/-- C4: in a reachable state, a `buddy2_alloc` whose normalised size `n` fits
(`n <= longest[0]`) runs without leaving the array: the descent ends at a node `index`
with `node_size = n`, the span of that node is `n`, its cell is `0` afterwards, and the
returned offset `o = (index + 1) * n - size` satisfies `0 <= o`, `o + n <= size`,
`n` divides `o`, and the leaves below `index` are exactly the indices
`o + size - 1 .. o + n + size - 2`. -/
theorem C4_alloc_success (b : buddy2) (hr : Reachable b) (size : Int) (n : Nat)
    (hsize : InIntRange size) (h0 : 0 < size) (hnorm : normalize size = some n)
    (hfit : n ≤ val b.longest 0) :
    ∃ (index : Nat) (b2 : buddy2) (o : Nat),
      alloc_descend b.longest n (b.longest.length + 1) b.size 0 = some (index, n) ∧
      b.longest.length = 2 * b.size - 1 ∧ index < 2 * b.size - 1 ∧
      b.size / 2 ^ Nat.log 2 (index + 1) = n ∧
      buddy2_alloc b size = some (b2, (o : Int)) ∧
      b2.size = b.size ∧ b2.longest[index]? = some 0 ∧
      (o : Int) = (((index + 1) * n : Nat) : Int) - (b.size : Int) ∧
      o + n ≤ b.size ∧ n ∣ o ∧
      ∀ x, b.size - 1 ≤ x → x < 2 * b.size - 1 →
        ((∃ j, Below index j x) ↔ (o + b.size - 1 ≤ x ∧ x ≤ o + n + b.size - 2)) := by
  obtain ⟨k, hinv⟩ := reachable_inv hr
  obtain ⟨hn, n2, hnorm2, hpow, _, _, _⟩ := normalize_spec size h0 hsize.2
  rw [hnorm] at hnorm2
  have := Option.some.inj hnorm2
  subst this
  obtain ⟨index, l2, hnk, hidx, hval, hpath, hdesc, pe, hlo, hhi, hok⟩ :=
    alloc_ok hinv h0 hnorm hpow hfit
  subst hpow
  have hsz := hinv.size_eq
  have hlen := hinv.tree.len
  have hdi : k - hn + hn = k := by omega
  have hilt := index_lt_of_below (show k - hn ≤ k by omega) hidx
  have r := below_root_range hidx
  have hr := node_span_range hdi hidx
  have hnp := pow2_pos hn
  have e2 : (index + 2) * 2 ^ hn = (index + 1) * 2 ^ hn + 2 ^ hn := by ring
  have d1 : 2 ^ hn ∣ (index + 1) * 2 ^ hn := Dvd.intro_left _ rfl
  have d2 : 2 ^ hn ∣ 2 ^ k := ⟨2 ^ (k - hn), by rw [← pow_add]; congr 1; omega⟩
  have hspan : b.size / 2 ^ Nat.log 2 (index + 1) = 2 ^ hn := by
    have hlog : Nat.log 2 (index + 1) = k - hn :=
      (Nat.log_eq_iff (Or.inr ⟨by decide, by omega⟩)).mpr r
    rw [hlog, hsz, Nat.pow_div (by omega) (by decide)]
    congr 1; omega
  have hleaves : ∀ x, 2 ^ k - 1 ≤ x → x < 2 * 2 ^ k - 1 →
      ((∃ j, Below index j x) ↔
        ((index + 1) * 2 ^ hn ≤ x + 1 ∧ x + 1 < (index + 1) * 2 ^ hn + 2 ^ hn)) := by
    intro x hx1 hx2
    have hxleaf : Below 0 k x :=
      below_root_of_range (by omega) (by rw [pow_succ]; omega)
    constructor
    · rintro ⟨j, hj⟩
      have := below_depth_unique hxleaf (below_root_trans hidx hj)
      have : j = hn := by omega
      subst this
      have rr := below_range hj
      rw [e2] at rr
      exact rr
    · rintro ⟨c1, c2⟩
      exact ⟨hn, below_of_range _ _ _ c1 (by rw [e2]; exact c2)⟩
  have hcell : l2[index]? = some 0 := by
    rw [getElem?_eq_val (by rw [pe.len, hlen]; exact hilt), pe.mark]
  obtain ⟨a1, a2, a3⟩ := offset_arith ((index + 1) * 2 ^ hn) (2 ^ hn) (2 ^ k) hnp hr.1 hr.2
  refine ⟨index, { b with longest := l2 }, (index + 1) * 2 ^ hn - 2 ^ k, hdesc,
    by rw [hlen, hsz], by rw [hsz]; exact hilt, hspan, hok, rfl, hcell, ?_, ?_, ?_, ?_⟩
  · rw [hsz]; exact a1
  · rw [hsz]; exact a2
  · exact Nat.dvd_sub' d1 d2
  · intro x hx1 hx2
    rw [hsz] at hx1 hx2 ⊢
    rw [hleaves x hx1 hx2]
    exact a3 x

/-- Instance of C4: `buddy2_alloc(5)` on a fresh capacity-16 allocator. -/
theorem C4_witness :
    Reachable st16_fresh ∧ InIntRange 5 ∧ normalize 5 = some 8 ∧
      ∃ (index : Nat) (b2 : buddy2) (o : Nat),
        alloc_descend st16_fresh.longest 8 (st16_fresh.longest.length + 1) st16_fresh.size 0 =
          some (index, 8) ∧
        st16_fresh.longest.length = 2 * st16_fresh.size - 1 ∧
        index < 2 * st16_fresh.size - 1 ∧
        st16_fresh.size / 2 ^ Nat.log 2 (index + 1) = 8 ∧
        buddy2_alloc st16_fresh 5 = some (b2, (o : Int)) ∧
        b2.size = st16_fresh.size ∧ b2.longest[index]? = some 0 ∧
        (o : Int) = (((index + 1) * 8 : Nat) : Int) - (st16_fresh.size : Int) ∧
        o + 8 ≤ st16_fresh.size ∧ 8 ∣ o ∧
        ∀ x, st16_fresh.size - 1 ≤ x → x < 2 * st16_fresh.size - 1 →
          ((∃ j, Below index j x) ↔
            (o + st16_fresh.size - 1 ≤ x ∧ x ≤ o + 8 + st16_fresh.size - 2)) :=
  ⟨reachable_16_fresh, int_range_5, normalize_5,
    C4_alloc_success st16_fresh reachable_16_fresh 5 8 int_range_5 (by decide) normalize_5
      (by decide)⟩

/-- C5: in a reachable state, after a successful `buddy2_alloc(size)` that returned
`o`, `buddy2_size(o)` returns the normalised size `n`, the power of two with
`size <= n < 2 * size`, not the requested value. -/
theorem C5_size_after_alloc (b : buddy2) (hr : Reachable b) (size o : Int) (n : Nat)
    (b2 : buddy2) (hsize : InIntRange size) (hrun : buddy2_alloc b size = some (b2, o))
    (hok : o ≠ -1) (hnorm : normalize size = some n) :
    buddy2_size b2 o = some (n : Int) ∧ (∃ j, n = 2 ^ j) ∧ size ≤ (n : Int) ∧
      (n : Int) < 2 * size := by
  obtain ⟨k, hinv⟩ := reachable_inv hr
  obtain ⟨hn, index, h0, hpow, hnk, _, hidx, hval, _, _, pe, hsz2, hlo, hhi, ho⟩ :=
    alloc_ok_data hinv hsize hrun hok hnorm
  have hinv2 := alloc_inv hinv hsize.2 hrun
  obtain ⟨c0, c1, c2, c3, c4⟩ := alloc_then_climb hinv hpow hnk hidx hval pe hlo hhi
  rw [← ho] at c0 c1 c2 c4
  obtain ⟨_, n2, hnorm2, _, _, hle, hlt⟩ := normalize_spec size h0 hsize.2
  rw [hnorm] at hnorm2
  have := Option.some.inj hnorm2
  subst this
  refine ⟨?_, ⟨hn, hpow⟩, hle, hlt⟩
  rw [size_found hinv2 c0 (by rw [hsz2]; exact c1) c2 c3 c4, hpow]

/-- Instance of C5: on a fresh capacity-16 allocator `buddy2_alloc(5)` returns offset
`0`, and `buddy2_size(0)` then yields `8`. -/
theorem C5_witness :
    Reachable st16_fresh ∧ buddy2_alloc st16_fresh 5 = some (st16_five, 0) ∧
      buddy2_size st16_five 0 = some (8 : Int) ∧ (∃ j, 8 = 2 ^ j) ∧ (5 : Int) ≤ (8 : Nat) ∧
      ((8 : Nat) : Int) < 2 * 5 :=
  ⟨reachable_16_fresh, alloc_16_five,
    C5_size_after_alloc st16_fresh reachable_16_fresh 5 0 8 st16_five int_range_5
      alloc_16_five (by decide) normalize_5⟩

/-- C6: in a reachable state, a successful `buddy2_alloc` followed at once by
`buddy2_free` of the returned offset restores `longest[0]`; the whole state is the one
before the allocation. -/
theorem C6_alloc_free_roundtrip (b : buddy2) (hr : Reachable b) (size o : Int)
    (b2 : buddy2) (hsize : InIntRange size) (hrun : buddy2_alloc b size = some (b2, o))
    (hok : o ≠ -1) :
    ∃ b3, buddy2_free b2 o = some b3 ∧ b3.longest[0]? = b.longest[0]? ∧ b3 = b := by
  obtain ⟨k, hinv⟩ := reachable_inv hr
  have h0 : 0 < size := by
    by_contra hneg
    rw [alloc_nonpos b (by omega)] at hrun
    exact hok (Prod.mk.inj (Option.some.inj hrun)).2.symm
  obtain ⟨_, n, hnorm, _⟩ := normalize_spec size h0 hsize.2
  obtain ⟨hn, index, _, hpow, hnk, _, hidx, hval, hpath, _, pe, hsz2, hlo, hhi, ho⟩ :=
    alloc_ok_data hinv hsize hrun hok hnorm
  have hinv2 := alloc_inv hinv hsize.2 hrun
  obtain ⟨c0, c1, c2, c3, c4⟩ := alloc_then_climb hinv hpow hnk hidx hval pe hlo hhi
  rw [← ho] at c0 c1 c2 c4
  obtain ⟨l4, hfree, pe2⟩ := free_found hinv2 c0 (by rw [hsz2]; exact c1) c2 c3 c4
  subst hpow
  have hres : l4 = b.longest :=
    alloc_free_restore hinv.tree hidx (show k - hn + hn = k by omega) hval
      (path_nonzero_of_ge hpath) pe pe2
  have hb3 : ({ b2 with longest := l4 } : buddy2) = b := by
    cases b
    cases b2
    simp only at hsz2 hres
    subst hsz2 hres
    rfl
  exact ⟨_, hfree, by rw [hb3], hb3⟩

/-- Instance of C6: `buddy2_alloc(5)` then `buddy2_free(0)` on a fresh capacity-16
allocator. -/
theorem C6_witness :
    Reachable st16_fresh ∧ buddy2_alloc st16_fresh 5 = some (st16_five, 0) ∧
      ∃ b3, buddy2_free st16_five 0 = some b3 ∧
        b3.longest[0]? = st16_fresh.longest[0]? ∧ b3 = st16_fresh :=
  ⟨reachable_16_fresh, alloc_16_five,
    C6_alloc_free_roundtrip st16_fresh reachable_16_fresh 5 0 st16_five int_range_5
      alloc_16_five (by decide)⟩

theorem history_2_both : History st2_both [(1, 1), (0, 1)] :=
  History.alloc_ok history_2_one int_range_1 alloc_2_second (by decide) normalize_1

theorem free_2_first : buddy2_free st2_both 0 = some { size := 2, longest := [1, 1, 0] } := by
  decide

theorem free_2_second :
    buddy2_free { size := 2, longest := [1, 1, 0] } 1 = some st2_fresh := by
  decide

theorem history_2_released : History st2_fresh [] :=
  History.free_live
    (History.free_live history_2_both (List.mem_cons_of_mem _ (List.mem_singleton.mpr rfl))
      free_2_first)
    (List.mem_singleton.mpr rfl) free_2_second

/-- A history in which no block is handed out ends in a state whose root holds the
whole capacity. -/
theorem history_empty_full {b : buddy2} (hist : History b []) :
    b.longest[0]? = some b.size := by
  obtain ⟨k, hinv, _, hmem⟩ := history_inv hist
  have hno : ∀ o n, ¬ LiveBlock k b.longest o n := by
    intro o n hl
    have := (hmem o n).mpr hl
    cases this
  rw [getElem?_eq_val (tree_len_pos hinv.tree),
    all_free_of_no_live hinv.tree hno k 0 0 (by omega) Below.self, hinv.size_eq]

/-- C8: along every history, `buddy2_free(offset)` with `0 <= offset < size` whose unit
lies in no block that is handed out leaves the state unchanged; and after any
`buddy2_free(offset)` a second `buddy2_free(offset)` changes nothing. -/
theorem C8_free_unallocated_noop (b : buddy2) (L : List (Int × Nat)) (hist : History b L)
    (offset : Int) (h0 : 0 ≤ offset) (h1 : offset < (b.size : Int)) :
    ((∀ blk ∈ L, ¬ covers blk offset) → buddy2_free b offset = some b) ∧
      (∃ b1, buddy2_free b offset = some b1 ∧ buddy2_free b1 offset = some b1) := by
  obtain ⟨k, hinv, _, hmem⟩ := history_inv hist
  have h1n : offset.toNat < b.size := by omega
  constructor
  · intro hfree
    rcases free_cases hinv h0 h1n with ⟨hf, _⟩ | ⟨j, z, l2, hz, hjk, hzd, hv, hl, _, _⟩
    · exact hf
    · exfalso
      have hdz : k - j + j = k := by omega
      have hr := node_span_range hdz hzd
      have ho : ((((z + 1) * 2 ^ j - 2 ^ k : Nat) : Int)) + ((2 ^ k : Nat) : Int) =
          (((z + 1) * 2 ^ j : Nat) : Int) := by omega
      have hin := (hmem _ (2 ^ j)).mpr ⟨z, k - j, j, hdz, hzd, hv, hl, rfl, ho⟩
      exact hfree _ hin ((covers_iff_below hdz hzd ho h0).mpr hz)
  · have htotal : ∃ b1, buddy2_free b offset = some b1 := by
      rcases free_cases hinv h0 h1n with ⟨hf, _⟩ | ⟨j, z, l2, _, _, _, _, _, hrun, _⟩
      · exact ⟨_, hf⟩
      · exact ⟨_, hrun⟩
    obtain ⟨b1, hb1⟩ := htotal
    have hinv1 := free_inv hinv hb1
    have hsz : b1.size = b.size := by rw [hinv1.size_eq, hinv.size_eq]
    exact ⟨b1, hb1, free_noop hinv1 h0 (by rw [hsz]; exact h1n) (free_clears_path hinv hb1)⟩

/-- Instance of C8: capacity 2 with unit `0` handed out; unit `1` is free. -/
theorem C8_witness :
    History st2_one [(0, 1)] ∧ (0 : Int) ≤ 1 ∧ (1 : Int) < (st2_one.size : Int) ∧
      ((∀ blk ∈ [((0 : Int), 1)], ¬ covers blk 1) → buddy2_free st2_one 1 = some st2_one) ∧
      (∃ b1, buddy2_free st2_one 1 = some b1 ∧ buddy2_free b1 1 = some b1) :=
  ⟨history_2_one, by decide, by decide,
    C8_free_unallocated_noop st2_one [(0, 1)] history_2_one 1 (by decide) (by decide)⟩

/-- C9: `buddy2_new(capacity)` returns an allocator exactly when `capacity` is a
positive power of two and `2 * capacity` fits in `int`; for `capacity < 1` and for a
capacity that is not a power of two it returns `NULL`. -/
theorem C9_new_iff_power_of_two (capacity : Int) :
    ((∃ b, buddy2_new capacity = some (some b)) ↔
        ∃ k : Nat, capacity = 2 ^ k ∧ 2 * capacity ≤ 2147483647) ∧
      ((capacity < 1 ∨ ¬ ∃ k : Nat, capacity = 2 ^ k) → buddy2_new capacity = some none) := by
  have hcast : ∀ k : Nat, ((2 : Int) ^ k) = ((2 ^ k : Nat) : Int) := by
    intro k; push_cast; rfl
  refine ⟨⟨?_, ?_⟩, ?_⟩
  · rintro ⟨b, hb⟩
    obtain ⟨k, hk, he⟩ := buddy2_new_some hb
    have := pow_k_le hk
    exact ⟨k, by rw [hcast]; exact he, by omega⟩
  · rintro ⟨k, he, hle⟩
    rw [hcast] at he
    have hk : k ≤ 29 := by
      by_contra hc
      have : 2 ^ 30 ≤ 2 ^ k := pow_le_pow2 (by omega)
      norm_num at this
      omega
    obtain ⟨l, hnew, _⟩ := buddy2_new_pow k hk
    rw [hcast, ← he] at hnew
    exact ⟨_, hnew⟩
  · intro hc
    unfold buddy2_new
    rw [if_pos]
    by_cases h1 : capacity < 1
    · exact Or.inl h1
    · right
      cases hp : IS_POWER_OF_2 capacity.toNat
      · rfl
      · exfalso
        obtain ⟨k, hk⟩ := (isPow2_iff _ (by omega)).mp hp
        rcases hc with hc | hc
        · exact h1 hc
        · exact hc ⟨k, by rw [hcast]; omega⟩

theorem pow2_least {n j m i s : Nat} (hn : n = 2 ^ j) (hlt : n < 2 * s) (hm : m = 2 ^ i)
    (hs : s ≤ m) : n ≤ m := by
  subst hn hm
  by_contra hc
  have hij : i < j := pow2_lt_iff.mp (by omega)
  obtain ⟨j2, rfl⟩ : ∃ j2, j = j2 + 1 := ⟨j - 1, by omega⟩
  have : 2 ^ i ≤ 2 ^ j2 := pow_le_pow2 (by omega)
  rw [pow_succ] at hlt
  omega

/-- C11: for a requested size `0 < size <= 2 ^ 30`: when `size` is not a power of two,
`fixsize` returns the smallest power of two greater than `size`; when it is a power of
two, `buddy2_alloc` uses it unchanged; in both cases the normalised size is the least
power of two that is at least `size`. -/
theorem C11_normalization (size : Int) (h0 : 0 < size) (h1 : size ≤ 1073741824) :
    ((¬ ∃ j : Nat, size.toNat = 2 ^ j) →
        ∃ n j, fixsize size.toNat = some n ∧ n = 2 ^ j ∧ size < (n : Int) ∧
          ∀ m i : Nat, m = 2 ^ i → size < (m : Int) → n ≤ m) ∧
      ((∃ j : Nat, size.toNat = 2 ^ j) → normalize size = some size.toNat) ∧
      (∃ n j, normalize size = some n ∧ n = 2 ^ j ∧ size ≤ (n : Int) ∧
        ∀ m i : Nat, m = 2 ^ i → size ≤ (m : Int) → n ≤ m) := by
  obtain ⟨j, n, hnorm, hpow, _, hle, hlt⟩ := normalize_spec size h0 (by omega)
  have hpos : 0 < size.toNat := by omega
  refine ⟨?_, ?_, ?_⟩
  · intro hnp
    have hp : ¬ IS_POWER_OF_2 size.toNat = true := fun h => hnp ((isPow2_iff _ hpos).mp h)
    have hfix : fixsize size.toNat = some n := by
      unfold normalize at hnorm
      rw [if_neg hp] at hnorm
      exact hnorm
    refine ⟨n, j, hfix, hpow, ?_, ?_⟩
    · have hne : size.toNat ≠ n := fun e => hnp ⟨j, e.trans hpow⟩
      omega
    · intro m i hm hs
      exact pow2_least (s := size.toNat) hpow (by omega) hm (by omega)
  · intro hp
    unfold normalize
    rw [if_pos ((isPow2_iff _ hpos).mpr hp)]
  · refine ⟨n, j, hnorm, hpow, hle, ?_⟩
    intro m i hm hs
    exact pow2_least (s := size.toNat) hpow (by omega) hm (by omega)

/-- Instance of C11: the requested size 5 is normalised to 8. -/
theorem C11_witness :
    ((¬ ∃ j : Nat, (5 : Int).toNat = 2 ^ j) →
        ∃ n j, fixsize (5 : Int).toNat = some n ∧ n = 2 ^ j ∧ (5 : Int) < (n : Int) ∧
          ∀ m i : Nat, m = 2 ^ i → (5 : Int) < (m : Int) → n ≤ m) ∧
      ((∃ j : Nat, (5 : Int).toNat = 2 ^ j) → normalize 5 = some (5 : Int).toNat) ∧
      (∃ n j, normalize 5 = some n ∧ n = 2 ^ j ∧ (5 : Int) ≤ (n : Int) ∧
        ∀ m i : Nat, m = 2 ^ i → (5 : Int) ≤ (m : Int) → n ≤ m) :=
  C11_normalization 5 (by decide) (by decide)

/-- C13: on `buddy2_new(8)`: `buddy2_alloc(3)` returns 0 and leaves `longest[0] == 4`;
`buddy2_alloc(4)` returns 4 and leaves `longest[0] == 0`; `buddy2_free(0)` leaves
`longest[0] == 4`; `buddy2_free(4)` leaves `longest[0] == 8`. -/
theorem C13_scenario_capacity_8 :
    buddy2_new 8 = some (some st8_fresh) ∧
      buddy2_alloc st8_fresh 3 = some (st8_a, 0) ∧ st8_a.longest[0]? = some 4 ∧
      buddy2_alloc st8_a 4 = some (st8_ab, 4) ∧ st8_ab.longest[0]? = some 0 ∧
      buddy2_free st8_ab 0 = some st8_b ∧ st8_b.longest[0]? = some 4 ∧
      buddy2_free st8_b 4 = some st8_fresh ∧ st8_fresh.longest[0]? = some 8 := by
  refine ⟨by decide, by decide, by decide, by decide, by decide, by decide, by decide,
    by decide, by decide⟩


/-! ## Levels, spans and blocks of nodes -/

theorem depth_of_below {d i : Nat} (h : Below 0 d i) : depth i = d := by
  unfold depth
  exact (Nat.log_eq_iff (Or.inr ⟨by decide, by omega⟩)).mpr (below_root_range h)

theorem span_of_below {k : Nat} {b : buddy2} (hinv : Inv k b) {d h i : Nat}
    (hdh : d + h = k) (hb : Below 0 d i) : span b i = 2 ^ h := by
  unfold span
  rw [depth_of_below hb, hinv.size_eq, Nat.pow_div (by omega) (by decide)]
  congr 1; omega

theorem node_levels {k : Nat} {b : buddy2} (hinv : Inv k b) {i : Nat}
    (hi : i < 2 * b.size - 1) : ∃ d h, d + h = k ∧ Below 0 d i := by
  obtain ⟨d, hd⟩ := exists_depth i
  have r := below_root_range hd
  have hdk : d ≤ k := by
    by_contra hc
    have : 2 ^ (k + 1) ≤ 2 ^ d := pow_le_pow2 (by omega)
    rw [hinv.size_eq, pow_succ] at *
    omega
  exact ⟨d, k - d, by omega, hd⟩

theorem internal_height {k : Nat} {b : buddy2} (hinv : Inv k b) {d h i : Nat}
    (hdh : d + h = k) (hb : Below 0 d i) (hi : i + 1 < b.size) : 1 ≤ h := by
  have r := below_root_range hb
  rw [hinv.size_eq] at hi
  have : d < k := pow2_lt_iff.mp (by omega)
  omega

theorem leaf_height {k : Nat} {b : buddy2} (hinv : Inv k b) {d h i : Nat}
    (hdh : d + h = k) (hb : Below 0 d i) (hi : b.size - 1 ≤ i) : h = 0 := by
  have r := below_root_range hb
  rw [hinv.size_eq] at hi
  have : k < d + 1 := pow2_lt_iff.mp (by omega)
  omega

theorem blockOf_eq {k : Nat} {b : buddy2} (hinv : Inv k b) {d h i : Nat}
    (hdh : d + h = k) (hb : Below 0 d i) :
    blockOf b i = ((((i + 1) * 2 ^ h : Nat) : Int) - ((2 ^ k : Nat) : Int), 2 ^ h) := by
  unfold blockOf
  rw [span_of_below hinv hdh hb, hinv.size_eq]

/-! ## The values of the cells in reachable states -/

theorem tree_val_pow2 {k : Nat} {l : List Nat} (ht : Tree k l) :
    ∀ h d i, d + h = k → Below 0 d i → val l i = 0 ∨ ∃ j, j ≤ h ∧ val l i = 2 ^ j := by
  intro h
  induction h with
  | zero =>
    intro d i hdh hb
    have := ht.bound d 0 i hdh hb
    rw [pow_zero] at this
    rcases Nat.eq_zero_or_pos (val l i) with h0 | h0
    · exact Or.inl h0
    · exact Or.inr ⟨0, le_refl _, by rw [pow_zero]; omega⟩
  | succ h ih =>
    intro d i hdh hb
    rcases ht.rule d h i hdh hb with ⟨_, _, hv | hv⟩ | ⟨_, hmax⟩
    · exact Or.inr ⟨h + 1, le_refl _, hv⟩
    · exact Or.inl hv
    · rw [hmax]
      rcases max_choice (val l (2 * i + 1)) (val l (2 * i + 2)) with e | e
      · rw [e]
        rcases ih (d + 1) _ (by omega) (Below.left hb) with h0 | ⟨j, hj, hv⟩
        · exact Or.inl h0
        · exact Or.inr ⟨j, by omega, hv⟩
      · rw [e]
        rcases ih (d + 1) _ (by omega) (Below.right hb) with h0 | ⟨j, hj, hv⟩
        · exact Or.inl h0
        · exact Or.inr ⟨j, by omega, hv⟩

/-- The fresh capacity-2 allocator contradicts C14 as stated: its root holds 2 while
the larger of its children is 1. -/
theorem C14_counterexample :
    Reachable st2_fresh ∧ 0 + 1 < st2_fresh.size ∧
      val st2_fresh.longest 0 ≠
        max (val st2_fresh.longest (2 * 0 + 1)) (val st2_fresh.longest (2 * 0 + 2)) :=
  ⟨reachable_2_fresh, by decide, by decide⟩

/-- C14 (amended): in every reachable state and for every internal node `i` with span
`s`: when not both children hold their whole span `s / 2`, `longest[i]` is the larger
of `longest[2i+1]` and `longest[2i+2]`; when both do, `longest[i]` is `s` (the node is
one free block) or `0` (the node is handed out as one block). -/
theorem C14_internal_node_rule (b : buddy2) (hr : Reachable b) (i : Nat)
    (hi : i + 1 < b.size) :
    (val b.longest (2 * i + 1) = span b i / 2 ∧ val b.longest (2 * i + 2) = span b i / 2 ∧
        (val b.longest i = span b i ∨ val b.longest i = 0)) ∨
      (¬ (val b.longest (2 * i + 1) = span b i / 2 ∧
            val b.longest (2 * i + 2) = span b i / 2) ∧
        val b.longest i = max (val b.longest (2 * i + 1)) (val b.longest (2 * i + 2))) := by
  obtain ⟨k, hinv⟩ := reachable_inv hr
  obtain ⟨d, h, hdh, hb⟩ := node_levels hinv (show i < 2 * b.size - 1 by omega)
  have hh := internal_height hinv hdh hb hi
  obtain ⟨h2, rfl⟩ : ∃ h2, h = h2 + 1 := ⟨h - 1, by omega⟩
  have hhalf : 2 ^ (h2 + 1) / 2 = 2 ^ h2 := by rw [pow_succ]; omega
  rw [span_of_below hinv hdh hb, hhalf]
  exact hinv.tree.rule d h2 i hdh hb

/-- Instance of C14 (amended) at the root of the fresh capacity-2 allocator. -/
theorem C14_witness :
    Reachable st2_fresh ∧ 0 + 1 < st2_fresh.size ∧
      ((val st2_fresh.longest (2 * 0 + 1) = span st2_fresh 0 / 2 ∧
          val st2_fresh.longest (2 * 0 + 2) = span st2_fresh 0 / 2 ∧
          (val st2_fresh.longest 0 = span st2_fresh 0 ∨ val st2_fresh.longest 0 = 0)) ∨
        (¬ (val st2_fresh.longest (2 * 0 + 1) = span st2_fresh 0 / 2 ∧
              val st2_fresh.longest (2 * 0 + 2) = span st2_fresh 0 / 2) ∧
          val st2_fresh.longest 0 =
            max (val st2_fresh.longest (2 * 0 + 1)) (val st2_fresh.longest (2 * 0 + 2)))) :=
  ⟨reachable_2_fresh, by decide, C14_internal_node_rule st2_fresh reachable_2_fresh 0 (by decide)⟩

/-- C15: in every reachable state every cell of `longest` holds `0` or a power of two
that does not exceed the span of its node; every leaf holds `0` or `1`. -/
theorem C15_values_are_powers_of_two (b : buddy2) (hr : Reachable b) (i : Nat)
    (hi : i < 2 * b.size - 1) :
    (∃ v, b.longest[i]? = some v ∧ (v = 0 ∨ ∃ j : Nat, v = 2 ^ j ∧ v ≤ span b i)) ∧
      (b.size - 1 ≤ i → b.longest[i]? = some 0 ∨ b.longest[i]? = some 1) := by
  obtain ⟨k, hinv⟩ := reachable_inv hr
  obtain ⟨d, h, hdh, hb⟩ := node_levels hinv hi
  have hcell : b.longest[i]? = some (val b.longest i) :=
    getElem?_eq_val (tree_lt hinv.tree (by omega) hb)
  have hbound := hinv.tree.bound d h i hdh hb
  constructor
  · refine ⟨_, hcell, ?_⟩
    rcases tree_val_pow2 hinv.tree h d i hdh hb with h0 | ⟨j, _, hv⟩
    · exact Or.inl h0
    · exact Or.inr ⟨j, hv, by rw [span_of_below hinv hdh hb]; exact hbound⟩
  · intro hleaf
    have := leaf_height hinv hdh hb hleaf
    subst this
    rw [pow_zero] at hbound
    rw [hcell]
    rcases Nat.eq_zero_or_pos (val b.longest i) with h0 | h0
    · exact Or.inl (by rw [h0])
    · exact Or.inr (by rw [show val b.longest i = 1 by omega])

/-- Instance of C15: the leaf of unit 0 after it was handed out from a capacity-2
allocator. -/
theorem C15_witness :
    Reachable st2_one ∧ 1 < 2 * st2_one.size - 1 ∧
      (∃ v, st2_one.longest[1]? = some v ∧
        (v = 0 ∨ ∃ j : Nat, v = 2 ^ j ∧ v ≤ span st2_one 1)) ∧
      (st2_one.size - 1 ≤ 1 → st2_one.longest[1]? = some 0 ∨ st2_one.longest[1]? = some 1) :=
  ⟨history_reachable history_2_one, by decide,
    C15_values_are_powers_of_two st2_one (history_reachable history_2_one) 1 (by decide)⟩


/-! ## Free blocks and the values on the way to the root -/

theorem not_apart_of_common {a c : Int × Nat} {p : Int} (h1 : covers a p) (h2 : covers c p) :
    ¬ apart a c := by
  unfold covers at h1 h2
  unfold apart
  omega

theorem common_of_not_apart {a c : Int × Nat} (ha : 0 < a.2) (hc : 0 < c.2)
    (h : ¬ apart a c) : ∃ p, covers a p ∧ covers c p := by
  unfold apart at h
  unfold covers
  rcases le_total a.1 c.1 with hle | hle
  · exact ⟨c.1, ⟨hle, by omega⟩, ⟨le_refl _, by omega⟩⟩
  · exact ⟨a.1, ⟨le_refl _, by omega⟩, ⟨hle, by omega⟩⟩

/-- The first unit of the span of a node. -/
theorem first_unit {k d h x : Nat} (hdh : d + h = k) (hb : Below 0 d x) :
    0 ≤ (((x + 1) * 2 ^ h : Nat) : Int) - ((2 ^ k : Nat) : Int) ∧
      covers ((((x + 1) * 2 ^ h : Nat) : Int) - ((2 ^ k : Nat) : Int), 2 ^ h)
        ((((x + 1) * 2 ^ h : Nat) : Int) - ((2 ^ k : Nat) : Int)) ∧
      Below x h
        (leafOf k ((((x + 1) * 2 ^ h : Nat) : Int) - ((2 ^ k : Nat) : Int)).toNat) := by
  have r := node_span_range hdh hb
  have hp := pow2_pos h
  have h0 : 0 ≤ (((x + 1) * 2 ^ h : Nat) : Int) - ((2 ^ k : Nat) : Int) := by omega
  have hc : covers ((((x + 1) * 2 ^ h : Nat) : Int) - ((2 ^ k : Nat) : Int), 2 ^ h)
      ((((x + 1) * 2 ^ h : Nat) : Int) - ((2 ^ k : Nat) : Int)) := by
    refine ⟨le_refl _, ?_⟩
    show _ < _ + ((2 ^ h : Nat) : Int)
    omega
  exact ⟨h0, hc, (covers_iff_below hdh hb (by omega) h0).mp hc⟩

/-- The span of a node covers the first unit of every node below it. -/
theorem covers_first_unit_below {k d h x j y hy : Nat} (hdh : d + h = k) (hb : Below 0 d x)
    (hxy : Below x j y) (hjh : j + hy = h) :
    covers ((((x + 1) * 2 ^ h : Nat) : Int) - ((2 ^ k : Nat) : Int), 2 ^ h)
      ((((y + 1) * 2 ^ hy : Nat) : Int) - ((2 ^ k : Nat) : Int)) := by
  have hyb : Below 0 (d + j) y := below_root_trans hb hxy
  obtain ⟨h0, _, hleaf⟩ := first_unit (show d + j + hy = k by omega) hyb
  have := below_trans hxy hleaf
  rw [hjh] at this
  exact (covers_iff_below hdh hb (by omega) h0).mpr this

theorem live_mem {k : Nat} {l : List Nat} {L : List (Int × Nat)}
    (hmem : ∀ o n, (o, n) ∈ L ↔ LiveBlock k l o n) {d h y : Nat} (hdh : d + h = k)
    (hb : Below 0 d y) (hv : val l y = 0) (hl : h = 0 ∨ val l (2 * y + 1) ≠ 0) :
    ((((y + 1) * 2 ^ h : Nat) : Int) - ((2 ^ k : Nat) : Int), 2 ^ h) ∈ L :=
  (hmem _ _).mpr ⟨y, d, h, hdh, hb, hv, hl, rfl, by omega⟩

/-- A subtree without a live node is entirely free. -/
theorem subtree_full {k : Nat} {l : List Nat} (ht : Tree k l) :
    ∀ h d x, d + h = k → Below 0 d x → (∀ j y, Below x j y → ¬ IsLive k l y) →
      val l x = 2 ^ h := by
  intro h
  induction h with
  | zero =>
    intro d x hdh hb hno
    have := ht.bound d 0 x hdh hb
    rw [pow_zero] at this ⊢
    by_contra hne
    exact hno 0 x Below.self ⟨d, 0, hdh, hb, by omega, Or.inl rfl⟩
  | succ h ih =>
    intro d x hdh hb hno
    have c1 := ih (d + 1) _ (by omega) (Below.left hb)
      (fun j y hy => hno (j + 1) y (below_child_left hy))
    have c2 := ih (d + 1) _ (by omega) (Below.right hb)
      (fun j y hy => hno (j + 1) y (below_child_right hy))
    rcases ht.rule d h x hdh hb with ⟨_, _, hv | hv⟩ | ⟨hnot, _⟩
    · exact hv
    · exfalso
      exact hno 0 x Below.self
        ⟨d, h + 1, hdh, hb, hv, Or.inr (by rw [c1]; exact (pow2_pos h).ne')⟩
    · exact absurd ⟨c1, c2⟩ hnot

/-- Above an entirely free node that lies in no live block, every node holds at least
the span of that node. -/
theorem anc_ge_of_full {k : Nat} {l : List Nat} (ht : Tree k l) {d h x : Nat}
    (hdh : d + h = k) (hb : Below 0 d x) (hv : val l x = 2 ^ h)
    (hno : ∀ j y, Below y (j + 1) x → ¬ IsLive k l y) :
    ∀ j y, Below y j x → 2 ^ h ≤ val l y := by
  intro j
  induction j with
  | zero =>
    intro y hy
    rw [below_zero hy] at hv
    exact le_of_eq hv.symm
  | succ j ih =>
    intro y hy
    obtain ⟨hjd, hyd⟩ := below_depth hy hb
    have hrule := ht.rule (d - (j + 1)) (h + j) y (by omega) hyd
    have hchild : 2 ^ h ≤ val l (2 * y + 1) ∨ 2 ^ h ≤ val l (2 * y + 2) := by
      rcases below_top hy with hc | hc
      · exact Or.inl (ih _ hc)
      · exact Or.inr (ih _ hc)
    rcases hrule with ⟨ha, _, hvy | hvy⟩ | ⟨_, hmax⟩
    · rw [hvy]; exact pow_le_pow2 (by omega)
    · exfalso
      exact hno j y hy ⟨d - (j + 1), h + j + 1, by omega, hyd, hvy,
        Or.inr (by rw [ha]; exact (pow2_pos _).ne')⟩
    · rw [hmax]
      rcases hchild with hc | hc
      · exact le_trans hc (le_max_left _ _)
      · exact le_trans hc (le_max_right _ _)

/-- The block of a node shares no unit with a live block exactly when the node and
all its ancestors hold at least the span of the node. -/
theorem free_iff_avail {k : Nat} {b : buddy2} {L : List (Int × Nat)} (hinv : Inv k b)
    (hmem : ∀ o n, (o, n) ∈ L ↔ LiveBlock k b.longest o n) {d h x : Nat}
    (hdh : d + h = k) (hb : Below 0 d x) :
    freeIn L (blockOf b x) ↔ ∀ j y, Below y j x → 2 ^ h ≤ val b.longest y := by
  rw [blockOf_eq hinv hdh hb]
  have hd : d = k - h := by omega
  constructor
  · intro hfree
    have hno_below : ∀ j y, Below x j y → ¬ IsLive k b.longest y := by
      rintro j y hxy ⟨dy, hy, hdy, hyb, hvy, hly⟩
      have := below_depth_unique hyb (below_root_trans hb hxy)
      have hmemy := live_mem hmem hdy hyb hvy hly
      have hap := hfree _ hmemy
      have c1 := covers_first_unit_below hdh hb hxy (show j + hy = h by omega)
      obtain ⟨_, c2, _⟩ := first_unit hdy hyb
      exact not_apart_of_common c1 c2 hap
    have hno_above : ∀ j y, Below y (j + 1) x → ¬ IsLive k b.longest y := by
      rintro j y hyx ⟨dy, hy, hdy, hyb, hvy, hly⟩
      have := below_depth_unique hb (below_root_trans hyb hyx)
      have hmemy := live_mem hmem hdy hyb hvy hly
      have hap := hfree _ hmemy
      have c1 := covers_first_unit_below hdy hyb hyx (show j + 1 + h = hy by omega)
      obtain ⟨_, c2, _⟩ := first_unit hdh hb
      exact not_apart_of_common c2 c1 hap
    exact anc_ge_of_full hinv.tree hdh hb (subtree_full hinv.tree h d x hdh hb hno_below)
      hno_above
  · intro hpath
    subst hd
    have hval : val b.longest x = 2 ^ h :=
      le_antisymm (hinv.tree.bound _ h x hdh hb) (hpath 0 x Below.self)
    exact new_block_apart hinv hmem (show h ≤ k by omega) hb hval hpath (by omega)


/-! ## Live blocks and the nodes above their leaves -/

/-- The node of a block that is handed out, seen from any unit of the block. -/
theorem live_block_data {b : buddy2} {L : List (Int × Nat)} (hist : History b L) {o : Int}
    {n : Nat} (hin : (o, n) ∈ L) {p : Int} (hp : covers (o, n) p) :
    ∃ k z d h, Inv k b ∧ d + h = k ∧ Below 0 d z ∧ val b.longest z = 0 ∧
      (h = 0 ∨ val b.longest (2 * z + 1) ≠ 0) ∧ n = 2 ^ h ∧ blockOf b z = (o, n) ∧
      0 ≤ p ∧ p.toNat < b.size ∧ Below z h (leafOf k p.toNat) ∧
      (∀ j2 x, j2 < h → Below x j2 (leafOf k p.toNat) → val b.longest x ≠ 0) := by
  obtain ⟨k, hinv, _, hmem⟩ := history_inv hist
  obtain ⟨z, d, h, hdh, hz, hv, hl, hn, ho⟩ := (hmem o n).mp hin
  subst hn
  have r := node_span_range hdh hz
  have hp0 : 0 ≤ p := by
    have := hp.1
    have : o ≤ p := this
    omega
  have hp1 : p.toNat < b.size := by
    have : p < o + ((2 ^ h : Nat) : Int) := hp.2
    rw [hinv.size_eq]
    omega
  have hleaf := (covers_iff_below hdh hz ho hp0).mp hp
  refine ⟨k, z, d, h, hinv, hdh, hz, hv, hl, rfl, ?_, hp0, hp1, hleaf,
    live_is_lowest hinv.tree hz hdh hleaf hv hl⟩
  rw [blockOf_eq hinv hdh hz]
  exact Prod.ext (by show _ - _ = o; omega) rfl

/-- C17: in every reachable state, for an internal node `i` that is not the node of a
block that is handed out: `longest[i]` equals the span of `i` exactly when both children
hold half that span; otherwise it is the larger of the children; and when it equals the
span, every node below `i` holds its own span (the subtree is entirely free). -/
theorem C17_coalescing_rule (b : buddy2) (L : List (Int × Nat)) (hist : History b L)
    (i : Nat) (hi : i + 1 < b.size) (hnl : blockOf b i ∉ L) :
    (val b.longest i = span b i ↔
        (val b.longest (2 * i + 1) = span b i / 2 ∧
          val b.longest (2 * i + 2) = span b i / 2)) ∧
      (¬ (val b.longest (2 * i + 1) = span b i / 2 ∧
            val b.longest (2 * i + 2) = span b i / 2) →
        val b.longest i = max (val b.longest (2 * i + 1)) (val b.longest (2 * i + 2))) ∧
      (val b.longest i = span b i →
        ∀ j x, Below i j x → x < 2 * b.size - 1 → val b.longest x = span b x) := by
  obtain ⟨k, hinv, _, hmem⟩ := history_inv hist
  obtain ⟨d, h, hdh, hb⟩ := node_levels hinv (show i < 2 * b.size - 1 by omega)
  have hh := internal_height hinv hdh hb hi
  obtain ⟨h2, rfl⟩ : ∃ h2, h = h2 + 1 := ⟨h - 1, by omega⟩
  have hhalf : 2 ^ (h2 + 1) / 2 = 2 ^ h2 := by rw [pow_succ]; omega
  have hp := pow2_pos h2
  have b1 := hinv.tree.bound (d + 1) h2 _ (by omega) (Below.left hb)
  have b2 := hinv.tree.bound (d + 1) h2 _ (by omega) (Below.right hb)
  have hnotlive : ¬ (val b.longest i = 0 ∧ val b.longest (2 * i + 1) ≠ 0) := by
    rintro ⟨hv, hl⟩
    apply hnl
    rw [blockOf_eq hinv hdh hb]
    exact live_mem hmem hdh hb hv (Or.inr hl)
  rw [span_of_below hinv hdh hb, hhalf]
  refine ⟨?_, ?_, ?_⟩
  · rcases hinv.tree.rule d h2 i hdh hb with ⟨ha, hc, hv | hv⟩ | ⟨hnot, hmax⟩
    · exact ⟨fun _ => ⟨ha, hc⟩, fun _ => hv⟩
    · exact absurd ⟨hv, by rw [ha]; omega⟩ hnotlive
    · constructor
      · intro hv
        exfalso
        have : max (val b.longest (2 * i + 1)) (val b.longest (2 * i + 2)) ≤ 2 ^ h2 :=
          max_le b1 b2
        rw [hv, pow_succ] at hmax
        omega
      · intro hc; exact absurd hc hnot
  · intro hnot
    rcases hinv.tree.rule d h2 i hdh hb with ⟨ha, hc, _⟩ | ⟨_, hmax⟩
    · exact absurd ⟨ha, hc⟩ hnot
    · exact hmax
  · intro hv j x hx hxlt
    obtain ⟨dx, hhx, hdx, hxb⟩ := node_levels hinv hxlt
    have := below_depth_unique hxb (below_root_trans hb hx)
    rw [span_of_below hinv hdx hxb,
      tree_full_below hinv.tree hdh hb hv hx (by omega)]
    congr 1; omega

theorem blockOf_st2_one_root : blockOf st2_one 0 ∉ [((0 : Int), 1)] := by
  have h : blockOf st2_one 0 = (0, 2) := by
    simp [blockOf, span, depth, st2_one]
  rw [h]
  decide

/-- Instance of C17: the root of a capacity-2 allocator with unit `0` handed out. -/
theorem C17_witness :
    History st2_one [(0, 1)] ∧ 0 + 1 < st2_one.size ∧ blockOf st2_one 0 ∉ [((0 : Int), 1)] ∧
      (val st2_one.longest 0 = span st2_one 0 ↔
        (val st2_one.longest (2 * 0 + 1) = span st2_one 0 / 2 ∧
          val st2_one.longest (2 * 0 + 2) = span st2_one 0 / 2)) ∧
      (¬ (val st2_one.longest (2 * 0 + 1) = span st2_one 0 / 2 ∧
            val st2_one.longest (2 * 0 + 2) = span st2_one 0 / 2) →
        val st2_one.longest 0 =
          max (val st2_one.longest (2 * 0 + 1)) (val st2_one.longest (2 * 0 + 2))) ∧
      (val st2_one.longest 0 = span st2_one 0 →
        ∀ j x, Below 0 j x → x < 2 * st2_one.size - 1 →
          val st2_one.longest x = span st2_one x) :=
  ⟨history_2_one, by decide, blockOf_st2_one_root,
    C17_coalescing_rule st2_one [(0, 1)] history_2_one 0 (by decide) blockOf_st2_one_root⟩

/-- With both units of a capacity-2 allocator handed out, the leaf of the block at
offset 0 (index 1) and the root (index 0) both hold `0`: two nodes on one root-ward
path, against C18 as stated. -/
theorem C18_counterexample :
    History st2_both [(1, 1), (0, 1)] ∧ ((0 : Int), 1) ∈ [((1 : Int), 1), ((0 : Int), 1)] ∧
      Below 1 0 (0 + st2_both.size - 1) ∧ Below 0 1 (0 + st2_both.size - 1) ∧
      val st2_both.longest 1 = 0 ∧ val st2_both.longest 0 = 0 ∧ (1 : Nat) ≠ 0 :=
  ⟨history_2_both, by decide, Below.self, Below.left Below.self, by decide, by decide,
    by decide⟩

/-- C18 (amended): in every reachable state, for every block `(o, n)` that is handed
out and every unit `p` of it, the node `top` that `buddy2_alloc` marked for the block
lies on the root-ward path from the leaf of `p`, holds `0`, every node of the path
below it holds a non-zero value, and every node of the path that holds `0` is `top` or
an ancestor of `top`. -/
theorem C18_lowest_zero_is_top (b : buddy2) (L : List (Int × Nat)) (hist : History b L)
    (o : Int) (n : Nat) (hin : (o, n) ∈ L) (p : Int) (hp : covers (o, n) p) :
    ∃ top j, n = 2 ^ j ∧ blockOf b top = (o, n) ∧ Below top j (p.toNat + b.size - 1) ∧
      val b.longest top = 0 ∧
      (∀ j2 x, j2 < j → Below x j2 (p.toNat + b.size - 1) → val b.longest x ≠ 0) ∧
      (∀ j2 x, Below x j2 (p.toNat + b.size - 1) → val b.longest x = 0 →
        ∃ m, Below x m top) := by
  obtain ⟨k, z, d, h, hinv, hdh, hz, hv, hl, hn, hblk, hp0, hp1, hleaf, hlow⟩ :=
    live_block_data hist hin hp
  have hle : leafOf k p.toNat = p.toNat + b.size - 1 := by
    unfold leafOf; rw [hinv.size_eq]
  rw [hle] at hleaf hlow
  refine ⟨z, h, hn, hblk, hleaf, hv, hlow, ?_⟩
  intro j2 x hx hvx
  have hge : h ≤ j2 := by
    by_contra hc
    exact hlow j2 x (by omega) hx hvx
  exact ⟨j2 - h, below_common hleaf hx hge⟩

/-- Instance of C18 (amended): the block at offset 0 of a capacity-2 allocator whose
two units are handed out. -/
theorem C18_witness :
    History st2_both [(1, 1), (0, 1)] ∧ ((0 : Int), 1) ∈ [((1 : Int), 1), ((0 : Int), 1)] ∧
      covers ((0 : Int), 1) 0 ∧
      ∃ top j, 1 = 2 ^ j ∧ blockOf st2_both top = ((0 : Int), 1) ∧
        Below top j ((0 : Int).toNat + st2_both.size - 1) ∧
        val st2_both.longest top = 0 ∧
        (∀ j2 x, j2 < j → Below x j2 ((0 : Int).toNat + st2_both.size - 1) →
          val st2_both.longest x ≠ 0) ∧
        (∀ j2 x, Below x j2 ((0 : Int).toNat + st2_both.size - 1) →
          val st2_both.longest x = 0 → ∃ m, Below x m top) :=
  ⟨history_2_both, by decide, by decide,
    C18_lowest_zero_is_top st2_both [(1, 1), (0, 1)] history_2_both 0 1 (by decide) 0
      (by decide)⟩


/-! ## Release and size query through any unit of a block -/

/-- `buddy2_free` expressed through the node at which its first loop stops. -/
theorem free_at_node {k : Nat} {b : buddy2} (hinv : Inv k b) {offset : Int}
    (h0 : 0 ≤ offset) (h1 : offset.toNat < b.size) {j z : Nat}
    (hz : Below z j (leafOf k offset.toNat)) (hv : val b.longest z = 0)
    (hlow : ∀ j2 x, j2 < j → Below x j2 (leafOf k offset.toNat) → val b.longest x ≠ 0) :
    buddy2_free b offset =
      match free_coalesce ((b.longest.set z (2 ^ j)).length + 1) (b.longest.set z (2 ^ j))
          z (2 ^ j) with
      | none => none
      | some longest => some { b with longest := longest } := by
  have hk := hinv.k_le
  have hsz := hinv.size_eq
  have ht := hinv.tree
  have hkp := pow_k_le hk
  obtain ⟨hidx, hleaf⟩ := leaf_index hk (hsz ▸ h1)
  obtain ⟨hjk, hzd, _⟩ := lowest_zero_live ht hleaf hz hv hlow
  have hjp : 2 ^ j ≤ 2 ^ k := pow_le_pow2 hjk
  have hfuel : k < b.longest.length + 1 := by
    rw [ht.len]
    have := @Nat.lt_two_pow k
    omega
  have hclimb := free_climb_found hk ht hz (k - j) (b.longest.length + 1) 1 hzd (by omega)
    (by omega) (by omega) hv hlow
  rw [Nat.one_mul] at hclimb
  have hzlt := tree_lt ht (show k - j ≤ k by omega) hzd
  unfold buddy2_free
  rw [if_pos ⟨h0, h1⟩]
  simp only [hsz, hidx, hclimb]
  rw [wr_of_lt _ hzlt]

/-- C20: in every reachable state, for a block `(o, n)` that is handed out and every
offset `p` with `o <= p < o + n`: `buddy2_size(p)` returns `n`, and `buddy2_free(p)`
returns normally with exactly the state of `buddy2_free(o)`, in which the block
`(o, n)` is released. -/
theorem C20_interior_offsets (b : buddy2) (L : List (Int × Nat)) (hist : History b L)
    (o : Int) (n : Nat) (hin : (o, n) ∈ L) (p : Int) (hp : covers (o, n) p) :
    buddy2_size b p = some (n : Int) ∧
      ∃ b2, buddy2_free b o = some b2 ∧ buddy2_free b p = some b2 ∧
        History b2 (L.erase (o, n)) := by
  obtain ⟨k, z, d, h, hinv, hdh, hz, hv, hl, hn, hblk, hp0, hp1, hleaf, hlow⟩ :=
    live_block_data hist hin hp
  have hn0 : 0 < n := by rw [hn]; exact pow2_pos h
  have hpo : covers (o, n) o := ⟨le_refl _, by show o < o + (n : Int); omega⟩
  obtain ⟨k2, z2, d2, h2, hinv2, hdh2, hz2, hv2, hl2, hn2, hblk2, ho0, ho1, hleaf2, hlow2⟩ :=
    live_block_data hist hin hpo
  have hk : k2 = k := pow2_inj (hinv2.size_eq.symm.trans hinv.size_eq)
  subst hk
  have hh : h2 = h := pow2_inj (hn2.symm.trans hn)
  subst hh
  have hzz : z2 = z := by
    have e := hblk2.trans hblk.symm
    rw [blockOf_eq hinv hdh2 hz2, blockOf_eq hinv hdh hz] at e
    have e1 := (Prod.mk.inj e).1
    have : (z2 + 1) * 2 ^ h2 = (z + 1) * 2 ^ h2 := by
      have : (((z2 + 1) * 2 ^ h2 : Nat) : Int) = (((z + 1) * 2 ^ h2 : Nat) : Int) := by omega
      exact_mod_cast this
    exact node_of_span this
  subst hzz
  obtain ⟨l2, hfree, _⟩ := free_found hinv ho0 ho1 hleaf2 hv hlow2
  refine ⟨?_, _, hfree, ?_, History.free_live hist hin hfree⟩
  · rw [size_found hinv hp0 hp1 hleaf hv hlow, hn]
  · rw [free_at_node hinv hp0 hp1 hleaf hv hlow, ← free_at_node hinv ho0 ho1 hleaf2 hv hlow2]
    exact hfree

/-- The state after `buddy2_free(0)` on `st16_five` is the fresh capacity-16
allocator; the same holds for `buddy2_free(5)`, an offset inside the block. -/
theorem free_16_inside : buddy2_free st16_five 5 = some st16_fresh := by decide

theorem history_16_five : History st16_five [(0, 8)] :=
  History.alloc_ok (History.create new_16) int_range_5 alloc_16_five (by decide) normalize_5

/-- Instance of C20: the block `(0, 8)` of a capacity-16 allocator and its unit 5. -/
theorem C20_witness :
    History st16_five [(0, 8)] ∧ covers ((0 : Int), 8) 5 ∧
      buddy2_free st16_five 5 = some st16_fresh ∧
      buddy2_size st16_five 5 = some ((8 : Nat) : Int) ∧
      ∃ b2, buddy2_free st16_five 0 = some b2 ∧ buddy2_free st16_five 5 = some b2 ∧
        History b2 ([((0 : Int), 8)].erase (0, 8)) :=
  ⟨history_16_five, by decide, free_16_inside,
    C20_interior_offsets st16_five [(0, 8)] history_16_five 0 8
      (List.mem_singleton.mpr rfl) 5 (by decide)⟩


/-! ## The descent of `buddy2_alloc` reaches the lowest free block -/

theorem left_lt_right {i j x y : Nat} (hx : Below (2 * i + 1) j x)
    (hy : Below (2 * i + 2) j y) : x < y := by
  have r1 := below_range hx
  have r2 := below_range hy
  have e : (2 * i + 1 + 2) * 2 ^ j = (2 * i + 2 + 1) * 2 ^ j := by ring
  omega

theorem alloc_descend_least {k : Nat} {l : List Nat} (hk : k ≤ 29) (ht : Tree k l)
    {hn : Nat} :
    ∀ fuel d h i index ns, d + h = k → hn ≤ h → Below 0 d i →
      alloc_descend l (2 ^ hn) fuel (2 ^ h) i = some (index, ns) →
      Below i (h - hn) index ∧
        ∀ x, Below i (h - hn) x → (∀ j y, Below y j x → 2 ^ hn ≤ val l y) → index ≤ x := by
  intro fuel
  induction fuel with
  | zero =>
    intro d h i index ns _ _ _ hrun
    unfold alloc_descend at hrun
    cases hrun
  | succ fuel ih =>
    intro d h i index ns hdh hle hi hrun
    unfold alloc_descend at hrun
    by_cases hne : 2 ^ h ≠ 2 ^ hn
    · rw [if_pos hne] at hrun
      have hlt : hn < h := by
        rcases Nat.lt_or_ge hn h with h1 | h1
        · exact h1
        · exfalso; apply hne; congr 1; omega
      obtain ⟨h2, rfl⟩ : ∃ h2, h = h2 + 1 := ⟨h - 1, by omega⟩
      have hsmall := index_small hk (by omega) hi
      have hL : Below 0 (d + 1) (2 * i + 1) := Below.left hi
      have hR : Below 0 (d + 1) (2 * i + 2) := Below.right hi
      have hhalf : 2 ^ (h2 + 1) / 2 = 2 ^ h2 := by rw [pow_succ]; omega
      have hdist : h2 + 1 - hn = (h2 - hn) + 1 := by omega
      rw [LEFT_LEAF_eq (by omega), RIGHT_LEAF_eq (by omega),
        rd_of_lt (tree_lt ht (by omega) hL)] at hrun
      simp only [hhalf] at hrun
      rw [hdist]
      by_cases hv : val l (2 * i + 1) ≥ 2 ^ hn
      · rw [if_pos hv] at hrun
        obtain ⟨hb, hleast⟩ := ih (d + 1) h2 (2 * i + 1) index ns (by omega) (by omega) hL hrun
        refine ⟨below_child_left hb, ?_⟩
        intro x hx hav
        rcases below_top hx with hc | hc
        · exact hleast x hc hav
        · exact le_of_lt (left_lt_right hb hc)
      · rw [if_neg hv] at hrun
        obtain ⟨hb, hleast⟩ := ih (d + 1) h2 (2 * i + 2) index ns (by omega) (by omega) hR hrun
        refine ⟨below_child_right hb, ?_⟩
        intro x hx hav
        rcases below_top hx with hc | hc
        · exact absurd (hav _ _ hc) hv
        · exact hleast x hc hav
    · rw [if_neg hne] at hrun
      have heq : h = hn := pow2_inj (not_not.mp hne)
      subst heq
      have hidx : i = index := (Prod.mk.inj (Option.some.inj hrun)).1
      subst hidx
      rw [Nat.sub_self]
      refine ⟨Below.self, ?_⟩
      intro x hx _
      rw [below_zero hx]

/-- The node of an aligned block. -/
theorem node_of_offset {k hn O : Nat} (hnk : hn ≤ k) (hdvd : 2 ^ hn ∣ O)
    (hle : O + 2 ^ hn ≤ 2 ^ k) :
    ∃ x, Below 0 (k - hn) x ∧ (x + 1) * 2 ^ hn = O + 2 ^ k := by
  obtain ⟨T, rfl⟩ := hdvd
  have hmul : 2 ^ (k - hn) * 2 ^ hn = 2 ^ k := by rw [← pow_add]; congr 1; omega
  have hp := pow2_pos (k - hn)
  have hT : T + 1 ≤ 2 ^ (k - hn) := by
    have : (T + 1) * 2 ^ hn ≤ 2 ^ (k - hn) * 2 ^ hn := by
      rw [hmul]
      have e : (T + 1) * 2 ^ hn = 2 ^ hn * T + 2 ^ hn := by ring
      omega
    exact Nat.le_of_mul_le_mul_right this (pow2_pos hn)
  refine ⟨T + 2 ^ (k - hn) - 1, below_root_of_range (by omega) (by rw [pow_succ]; omega), ?_⟩
  have e1 : T + 2 ^ (k - hn) - 1 + 1 = T + 2 ^ (k - hn) := by omega
  rw [e1, Nat.add_mul, hmul]
  ring

/-- A free aligned block of the normalised size makes the root hold at least that
size. -/
theorem avail_of_free_offset {k : Nat} {b : buddy2} {L : List (Int × Nat)} (hinv : Inv k b)
    (hmem : ∀ o n, (o, n) ∈ L ↔ LiveBlock k b.longest o n) {hn O : Nat} (hnk : hn ≤ k)
    (hdvd : 2 ^ hn ∣ O) (hle : O + 2 ^ hn ≤ 2 ^ k) (hfree : freeIn L ((O : Int), 2 ^ hn)) :
    ∃ x, Below 0 (k - hn) x ∧ (x + 1) * 2 ^ hn = O + 2 ^ k ∧
      ∀ j y, Below y j x → 2 ^ hn ≤ val b.longest y := by
  obtain ⟨x, hx, hxo⟩ := node_of_offset hnk hdvd hle
  refine ⟨x, hx, hxo, ?_⟩
  have hdh : k - hn + hn = k := by omega
  apply (free_iff_avail hinv hmem hdh hx).mp
  rw [blockOf_eq hinv hdh hx, hxo]
  have e : (((O + 2 ^ k : Nat) : Int)) - ((2 ^ k : Nat) : Int) = (O : Int) := by omega
  rw [e]
  exact hfree

/-- `buddy2_alloc` succeeds when an aligned free block of the normalised size exists,
and returns the lowest such block. -/
theorem alloc_free_min {b : buddy2} {L : List (Int × Nat)} (hist : History b L) {s : Int}
    {n O : Nat} (hs : InIntRange s) (hs0 : 0 < s) (hnorm : normalize s = some n)
    (hdvd : n ∣ O) (hle : O + n ≤ b.size) (hfree : freeIn L ((O : Int), n))
    (hmin : ∀ O2 : Nat, n ∣ O2 → O2 + n ≤ b.size → freeIn L ((O2 : Int), n) → O ≤ O2) :
    ∃ b2 index, buddy2_alloc b s = some (b2, (O : Int)) ∧ b2.size = b.size ∧
      alloc_descend b.longest n (b.longest.length + 1) b.size 0 = some (index, n) ∧
      (index + 1) * n = O + b.size ∧ History b2 (((O : Int), n) :: L) := by
  obtain ⟨k, hinv, _, hmem⟩ := history_inv hist
  obtain ⟨hn, n2, hnorm2, hpow, _, _, _⟩ := normalize_spec s hs0 hs.2
  rw [hnorm] at hnorm2
  have := Option.some.inj hnorm2
  subst this
  subst hpow
  have hsz := hinv.size_eq
  rw [hsz] at hle
  have hnk : hn ≤ k := by
    have : 2 ^ hn ≤ 2 ^ k := by omega
    exact pow2_le_iff.mp this
  obtain ⟨x, hx, hxo, hav⟩ := avail_of_free_offset hinv hmem hnk hdvd hle hfree
  have hroot : 2 ^ hn ≤ val b.longest 0 := by
    have hb0 : ∃ j, Below 0 j x := ⟨_, hx⟩
    obtain ⟨j, hj⟩ := hb0
    exact hav j 0 hj
  obtain ⟨index, l2, _, hidx, hval, hpath, hdesc, pe, hlo, hhi, hok⟩ :=
    alloc_ok hinv hs0 hnorm rfl hroot
  have hdh : k - hn + hn = k := by omega
  have hr := node_span_range hdh hidx
  -- the returned block is aligned and free
  have hne : ((((index + 1) * 2 ^ hn - 2 ^ k : Nat) : Int)) ≠ -1 := by omega
  have ho2 : ((((index + 1) * 2 ^ hn - 2 ^ k : Nat) : Int)) + ((2 ^ k : Nat) : Int) =
      (((index + 1) * 2 ^ hn : Nat) : Int) := by omega
  have hfree2 : freeIn L ((((index + 1) * 2 ^ hn - 2 ^ k : Nat) : Int), 2 ^ hn) :=
    new_block_apart hinv hmem hnk hidx hval hpath ho2
  have hdvd2 : 2 ^ hn ∣ (index + 1) * 2 ^ hn - 2 ^ k :=
    Nat.dvd_sub' (Dvd.intro_left _ rfl) ⟨2 ^ (k - hn), by rw [← pow_add]; congr 1; omega⟩
  have hge : O ≤ (index + 1) * 2 ^ hn - 2 ^ k :=
    hmin _ hdvd2 (by rw [hsz]; omega) hfree2
  -- and it is the lowest one
  have hrun2 := hdesc
  rw [hsz] at hrun2
  obtain ⟨_, hleast⟩ := alloc_descend_least hinv.k_le hinv.tree (b.longest.length + 1) 0 k 0
    index (2 ^ hn) (by omega) hnk Below.self hrun2
  have hix : index ≤ x := hleast x hx hav
  have hmono : (index + 1) * 2 ^ hn ≤ (x + 1) * 2 ^ hn :=
    Nat.mul_le_mul_right _ (by omega)
  have heq : (index + 1) * 2 ^ hn - 2 ^ k = O := by omega
  rw [heq] at hok
  exact ⟨_, index, hok, rfl, hdesc, by rw [hsz]; omega,
    History.alloc_ok hist hs hok (by omega) hnorm⟩

theorem size_of_live {b : buddy2} {L : List (Int × Nat)} (hist : History b L) {o : Int}
    {n : Nat} (hin : (o, n) ∈ L) {p : Int} (hp : covers (o, n) p) :
    buddy2_size b p = some (n : Int) := by
  obtain ⟨k, z, d, h, hinv, hdh, hz, hv, hl, hn, hblk, hp0, hp1, hleaf, hlow⟩ :=
    live_block_data hist hin hp
  rw [size_found hinv hp0 hp1 hleaf hv hlow, hn]

theorem free_of_live {b : buddy2} {L : List (Int × Nat)} (hist : History b L) {o : Int}
    {n : Nat} (hin : (o, n) ∈ L) :
    ∃ b2, buddy2_free b o = some b2 ∧ History b2 (L.erase (o, n)) := by
  obtain ⟨k, hinv, _, hmem⟩ := history_inv hist
  obtain ⟨z, d, h, hdh, hz, hv, hl, hn, ho⟩ := (hmem o n).mp hin
  have hn0 : 0 < n := by rw [hn]; exact pow2_pos h
  have hpo : covers (o, n) o := ⟨le_refl _, by show o < o + (n : Int); omega⟩
  obtain ⟨k2, z2, d2, h2, hinv2, _, _, hv2, _, _, _, ho0, ho1, hleaf2, hlow2⟩ :=
    live_block_data hist hin hpo
  obtain ⟨l2, hfree, _⟩ := free_found hinv2 ho0 ho1 hleaf2 hv2 hlow2
  exact ⟨_, hfree, History.free_live hist hin hfree⟩


/-! ## Releasing every block that is handed out -/

/-- The release of a block that is handed out returns, keeps the capacity, and continues
the history with that block removed. -/
theorem free_of_live_size {b : buddy2} {L : List (Int × Nat)} (hist : History b L) {o : Int}
    {n : Nat} (hin : (o, n) ∈ L) :
    ∃ b2, buddy2_free b o = some b2 ∧ b2.size = b.size ∧ History b2 (L.erase (o, n)) := by
  obtain ⟨k, hinv, _, hmem⟩ := history_inv hist
  have hpo : covers (o, n) o := by
    obtain ⟨z, d, h, hdh, hz, hv, hl, hn, ho⟩ := (hmem o n).mp hin
    have hn0 : 0 < n := by rw [hn]; exact pow2_pos h
    exact ⟨le_refl _, by show o < o + (n : Int); omega⟩
  obtain ⟨k2, z2, d2, h2, hinv2, _, _, hv2, _, _, _, ho0, ho1, hleaf2, hlow2⟩ :=
    live_block_data hist hin hpo
  obtain ⟨l2, hfree, _⟩ := free_found hinv2 ho0 ho1 hleaf2 hv2 hlow2
  exact ⟨_, hfree, rfl, History.free_live hist hin hfree⟩

/-- A list is a rearrangement of any of its blocks followed by the list without it. -/
theorem perm_cons_erase_block {a : Int × Nat} :
    ∀ {l : List (Int × Nat)}, a ∈ l → l.Perm (a :: l.erase a)
  | [], h => by cases h
  | x :: xs, h => by
    by_cases hx : x = a
    · subst hx
      rw [List.erase_cons_head]
    · have hin : a ∈ xs := by
        rcases List.mem_cons.mp h with h | h
        · exact absurd h.symm hx
        · exact h
      have hne : ¬ (x == a) = true := by
        intro hc
        exact hx (eq_of_beq hc)
      rw [List.erase_cons_tail hne]
      exact ((perm_cons_erase_block hin).cons x).trans (List.Perm.swap a x _)

/-- Releasing the blocks that are handed out, in any order, returns at every call and
ends in a state of the same capacity whose root holds the whole capacity. -/
theorem free_each_live (order : List (Int × Nat)) :
    ∀ (b : buddy2) (L : List (Int × Nat)), History b L → order.Perm L →
      ∃ b2, free_each b (order.map Prod.fst) = some b2 ∧ History b2 [] ∧
        b2.size = b.size ∧ b2.longest[0]? = some b.size := by
  induction order with
  | nil =>
    intro b L hist hperm
    have hL : L = [] := List.Perm.eq_nil hperm.symm
    subst hL
    exact ⟨b, rfl, hist, rfl, history_empty_full hist⟩
  | cons blk rest ih =>
    intro b L hist hperm
    obtain ⟨o, n⟩ := blk
    have hin : (o, n) ∈ L := hperm.subset (List.mem_cons_self _ _)
    obtain ⟨b1, hfree, hsz, hist1⟩ := free_of_live_size hist hin
    have hrest : rest.Perm (L.erase (o, n)) :=
      List.Perm.cons_inv (hperm.trans (perm_cons_erase_block hin))
    obtain ⟨b2, hrun, hist2, hsz2, hroot⟩ := ih b1 (L.erase (o, n)) hist1 hrest
    refine ⟨b2, ?_, hist2, by rw [hsz2, hsz], by rw [hroot, hsz]⟩
    show (match buddy2_free b o with
      | none => none
      | some b2 => free_each b2 (rest.map Prod.fst)) = some b2
    rw [hfree]
    exact hrun

theorem free_each_2_both : free_each st2_both [0, 1] = some st2_fresh := by decide

/-- C7: along every history from a fresh allocator (successful allocations, releases of
blocks that are handed out, in any order), with `L` the blocks handed out at its end:
the release of any block of `L` returns and keeps the capacity; releasing all blocks of
`L`, in any order, returns at every call and ends in a state where no block is handed
out and `longest[0]` equals the capacity; and whenever no block is handed out,
`longest[0]` equals the capacity. -/
theorem C7_all_freed_restores_capacity (b : buddy2) (L : List (Int × Nat))
    (hist : History b L) :
    (∀ o n, (o, n) ∈ L →
        ∃ b2, buddy2_free b o = some b2 ∧ b2.size = b.size ∧ History b2 (L.erase (o, n))) ∧
      (∀ order : List (Int × Nat), order.Perm L →
        ∃ b2, free_each b (order.map Prod.fst) = some b2 ∧ History b2 [] ∧
          b2.size = b.size ∧ b2.longest[0]? = some b.size) ∧
      (L = [] → b.longest[0]? = some b.size) := by
  refine ⟨fun o n hin => free_of_live_size hist hin,
    fun order hperm => free_each_live order b L hist hperm, ?_⟩
  intro hL
  subst hL
  exact history_empty_full hist

/-- Instance of C7: capacity 2, two allocations of one unit (no release on the way),
then both blocks released in the order of allocation: `buddy2_free(0)` and
`buddy2_free(1)` return, and the fresh state with `longest[0] = 2` is back. -/
theorem C7_witness :
    History st2_both [(1, 1), (0, 1)] ∧
      buddy2_free st2_both 0 = some { size := 2, longest := [1, 1, 0] } ∧
      buddy2_free { size := 2, longest := [1, 1, 0] } 1 = some st2_fresh ∧
      free_each st2_both [0, 1] = some st2_fresh ∧
      st2_fresh.longest[0]? = some st2_both.size ∧
      ((∀ o n, (o, n) ∈ [((1 : Int), 1), ((0 : Int), 1)] →
          ∃ b2, buddy2_free st2_both o = some b2 ∧ b2.size = st2_both.size ∧
            History b2 ([((1 : Int), 1), ((0 : Int), 1)].erase (o, n))) ∧
        (∀ order : List (Int × Nat), order.Perm [((1 : Int), 1), ((0 : Int), 1)] →
          ∃ b2, free_each st2_both (order.map Prod.fst) = some b2 ∧ History b2 [] ∧
            b2.size = st2_both.size ∧ b2.longest[0]? = some st2_both.size) ∧
        ([((1 : Int), 1), ((0 : Int), 1)] = [] →
          st2_both.longest[0]? = some st2_both.size)) :=
  ⟨history_2_both, free_2_first, free_2_second, free_each_2_both, by decide,
    C7_all_freed_restores_capacity st2_both [(1, 1), (0, 1)] history_2_both⟩

/-! ## Lowest-address fit -/

theorem int_range_2 : InIntRange 2 := ⟨by decide, by decide⟩

theorem history_4_split : History st4_split [(2, 1)] :=
  History.free_live
    (History.alloc_ok
      (History.alloc_ok (History.create (by decide : buddy2_new 4 = some (some st4_fresh)))
        int_range_2 (by decide : buddy2_alloc st4_fresh 2 = some (st4_a, 0)) (by decide)
        (by decide : normalize 2 = some 2))
      int_range_1 (by decide : buddy2_alloc st4_a 1 = some (st4_ab, 2)) (by decide)
      normalize_1)
    (List.mem_cons_of_mem _ (List.mem_singleton.mpr rfl))
    (by decide : buddy2_free st4_ab 0 = some st4_split)

theorem alloc_4_split : buddy2_alloc st4_split 1 = some (st4_after, 0) := by decide

theorem free_in_4_split :
    freeIn [((2 : Int), 1)] ((3 : Int), 1) ∧ freeIn [((2 : Int), 1)] ((0 : Int), 2) := by
  constructor
  · intro blk hblk
    rw [List.mem_singleton] at hblk
    subst hblk
    exact Or.inr (by decide)
  · intro blk hblk
    rw [List.mem_singleton] at hblk
    subst hblk
    exact Or.inl (by decide)

/-- C19: along every history, a successful `buddy2_alloc` with normalised size `n`
stops at a node that holds `n`, and the offset `o` it returns is a multiple of `n`
whose block `[o, o + n)` shares no unit with a block that is handed out; no smaller
offset has these properties.  The last part is an instance in which the request is
served from a free block of size 2 at offset 0 although a free block of size 1 exists
at offset 3. -/
theorem C19_lowest_address_fit (b : buddy2) (L : List (Int × Nat)) (hist : History b L)
    (size o : Int) (n : Nat) (b2 : buddy2) (hsize : InIntRange size)
    (hrun : buddy2_alloc b size = some (b2, o)) (hok : o ≠ -1)
    (hnorm : normalize size = some n) :
    (∃ index, alloc_descend b.longest n (b.longest.length + 1) b.size 0 = some (index, n) ∧
        val b.longest index = n ∧ blockOf b index = (o, n)) ∧
      0 ≤ o ∧ (n : Int) ∣ o ∧ o + (n : Int) ≤ (b.size : Int) ∧ freeIn L (o, n) ∧
      (∀ O : Nat, n ∣ O → O + n ≤ b.size → freeIn L ((O : Int), n) → o ≤ (O : Int)) ∧
      (∃ (c : buddy2) (M : List (Int × Nat)) (c2 : buddy2),
        History c M ∧ buddy2_alloc c 1 = some (c2, 0) ∧
        freeIn M ((3 : Int), 1) ∧ val c.longest 6 = 1 ∧ ((2 : Int), 1) ∈ M ∧
        freeIn M ((0 : Int), 2) ∧ val c.longest 1 = 2 ∧ val c2.longest 1 = 1) := by
  obtain ⟨k, hinv, _, hmem⟩ := history_inv hist
  obtain ⟨hn, index, h0, hpow, hnk, hfit, hidx, hval, hpath, hdesc, pe, hsz2, hlo, hhi, ho⟩ :=
    alloc_ok_data hinv hsize hrun hok hnorm
  subst hpow
  have hsz := hinv.size_eq
  have hdh : k - hn + hn = k := by omega
  have hr := node_span_range hdh hidx
  have ho2 : o + ((2 ^ k : Nat) : Int) = (((index + 1) * 2 ^ hn : Nat) : Int) := by omega
  have hdvdN : 2 ^ hn ∣ (index + 1) * 2 ^ hn - 2 ^ k :=
    Nat.dvd_sub' (Dvd.intro_left _ rfl) ⟨2 ^ (k - hn), by rw [← pow_add]; congr 1; omega⟩
  refine ⟨⟨index, hdesc, hval, ?_⟩, by omega, ?_, by rw [hsz]; omega,
    new_block_apart hinv hmem hnk hidx hval hpath ho2, ?_,
    ⟨st4_split, [(2, 1)], st4_after, history_4_split, alloc_4_split, free_in_4_split.1,
      by decide, List.mem_singleton.mpr rfl, free_in_4_split.2, by decide, by decide⟩⟩
  · rw [blockOf_eq hinv hdh hidx]
    exact Prod.ext (by show _ - _ = o; omega) rfl
  · rw [ho]
    exact Int.natCast_dvd_natCast.mpr hdvdN
  · intro O hdvd hle hfree
    rw [hsz] at hle
    obtain ⟨x, hx, hxo, hav⟩ := avail_of_free_offset hinv hmem hnk hdvd hle hfree
    have hrun2 := hdesc
    rw [hsz] at hrun2
    obtain ⟨_, hleast⟩ := alloc_descend_least hinv.k_le hinv.tree (b.longest.length + 1) 0 k 0
      index (2 ^ hn) (by omega) hnk Below.self hrun2
    have hix : index ≤ x := hleast x hx hav
    have hmono : (index + 1) * 2 ^ hn ≤ (x + 1) * 2 ^ hn :=
      Nat.mul_le_mul_right _ (by omega)
    omega

/-- Instance of C19: `buddy2_alloc(1)` on a capacity-4 allocator in which only unit 2
is handed out returns offset 0. -/
theorem C19_witness :
    History st4_split [(2, 1)] ∧ buddy2_alloc st4_split 1 = some (st4_after, 0) ∧
      (∃ index,
        alloc_descend st4_split.longest 1 (st4_split.longest.length + 1) st4_split.size 0 =
          some (index, 1) ∧
        val st4_split.longest index = 1 ∧ blockOf st4_split index = ((0 : Int), 1)) ∧
      (0 : Int) ≤ 0 ∧ ((1 : Nat) : Int) ∣ (0 : Int) ∧
      (0 : Int) + ((1 : Nat) : Int) ≤ (st4_split.size : Int) ∧
      freeIn [((2 : Int), 1)] ((0 : Int), 1) ∧
      (∀ O : Nat, 1 ∣ O → O + 1 ≤ st4_split.size → freeIn [((2 : Int), 1)] ((O : Int), 1) →
        (0 : Int) ≤ (O : Int)) ∧
      (∃ (c : buddy2) (M : List (Int × Nat)) (c2 : buddy2),
        History c M ∧ buddy2_alloc c 1 = some (c2, 0) ∧
        freeIn M ((3 : Int), 1) ∧ val c.longest 6 = 1 ∧ ((2 : Int), 1) ∈ M ∧
        freeIn M ((0 : Int), 2) ∧ val c.longest 1 = 2 ∧ val c2.longest 1 = 1) :=
  ⟨history_4_split, alloc_4_split,
    C19_lowest_address_fit st4_split [(2, 1)] history_4_split 1 0 1 st4_after int_range_1
      alloc_4_split (by decide) normalize_1⟩


/-! ## Buddies on a fresh allocator -/

theorem freeIn_nil (a : Int × Nat) : freeIn [] a := by
  intro blk hblk
  cases hblk

theorem freeIn_single_right {n : Nat} {O : Nat} (h : n ≤ O) :
    freeIn [((0 : Int), n)] ((O : Int), n) := by
  intro blk hblk
  rw [List.mem_singleton] at hblk
  subst hblk
  exact Or.inr (by show (0 : Int) + (n : Int) ≤ (O : Int); omega)

theorem ge_of_freeIn_single {n O : Nat} (hn : 0 < n) (h : freeIn [((0 : Int), n)] ((O : Int), n)) :
    n ≤ O := by
  have := h (0, n) (List.mem_singleton.mpr rfl)
  unfold apart at this
  have h1 : ¬ ((O : Int) + (n : Int) ≤ 0) := by omega
  rcases this with hc | hc
  · exact absurd hc h1
  · have : (0 : Int) + (n : Int) ≤ (O : Int) := hc
    omega

theorem freeIn_single_left (n : Nat) : freeIn [((n : Int), n)] ((0 : Int), n) := by
  intro blk hblk
  rw [List.mem_singleton] at hblk
  subst hblk
  exact Or.inl (by show (0 : Int) + (n : Int) ≤ (n : Int); omega)

theorem erase_first_of_two {n : Nat} (hn : 0 < n) :
    [((n : Int), n), ((0 : Int), n)].erase ((0 : Int), n) = [((n : Int), n)] := by
  have hne : (((n : Int), n) == ((0 : Int), n)) = false := by
    rw [beq_eq_false_iff_ne]
    intro h
    have := (Prod.mk.inj h).1
    omega
  rw [List.erase_cons, hne]
  simp

theorem siblings_of_offsets {k hn i1 i2 : Nat} (hk : k ≤ 29) (hlt : hn < k)
    (h1 : (i1 + 1) * 2 ^ hn = 0 + 2 ^ k) (h2 : (i2 + 1) * 2 ^ hn = 2 ^ hn + 2 ^ k) :
    PARENT i1 = PARENT i2 ∧ i2 = i1 + 1 := by
  have hmul : 2 ^ (k - hn) * 2 ^ hn = 2 ^ k := by rw [← pow_add]; congr 1; omega
  have hp := pow2_pos hn
  have e1 : i1 + 1 = 2 ^ (k - hn) := by
    apply Nat.eq_of_mul_eq_mul_right hp
    rw [h1, hmul]; omega
  have e2 : i2 + 1 = 2 ^ (k - hn) + 1 := by
    apply Nat.eq_of_mul_eq_mul_right hp
    rw [h2, Nat.add_mul, hmul]; omega
  obtain ⟨m, hm⟩ : ∃ m, k - hn = m + 1 := ⟨k - hn - 1, by omega⟩
  rw [hm, pow_succ] at e1 e2
  have hsmall : 2 ^ m ≤ 536870912 := pow_k_le (by omega)
  have hmp := pow2_pos m
  have a1 : i1 = 2 * (2 ^ m - 1) + 1 := by omega
  have a2 : i2 = 2 * (2 ^ m - 1) + 2 := by omega
  refine ⟨?_, by omega⟩
  rw [a1, a2, PARENT_left (by omega), PARENT_right (by omega)]

/-- C12: on a fresh allocator whose capacity is at least twice the normalised size `n`
of `s`, two `buddy2_alloc(s)` in a row return the offsets `0` and `n`, the nodes they
stop at are the two children of one parent; after `buddy2_free(0)` a third
`buddy2_alloc(s)` returns `0` again, and the block at `n` is still handed out
(`buddy2_size(n)` is `n`, and the blocks handed out are `(0, n)` and `(n, n)`). -/
theorem C12_buddies_on_fresh (capacity : Int) (b0 : buddy2)
    (hnew : buddy2_new capacity = some (some b0)) (s : Int) (n : Nat) (hs : InIntRange s)
    (hs0 : 0 < s) (hnorm : normalize s = some n) (hcap : 2 * (n : Int) ≤ capacity) :
    ∃ b1 b2 b3 b4 i1 i2,
      buddy2_alloc b0 s = some (b1, 0) ∧ buddy2_alloc b1 s = some (b2, (n : Int)) ∧
      alloc_descend b0.longest n (b0.longest.length + 1) b0.size 0 = some (i1, n) ∧
      alloc_descend b1.longest n (b1.longest.length + 1) b1.size 0 = some (i2, n) ∧
      PARENT i1 = PARENT i2 ∧ i2 = i1 + 1 ∧
      buddy2_free b2 0 = some b3 ∧ buddy2_alloc b3 s = some (b4, 0) ∧
      buddy2_size b4 (n : Int) = some (n : Int) ∧
      History b4 [((0 : Int), n), ((n : Int), n)] := by
  obtain ⟨k, hinv0, hcapsz, _⟩ := inv_of_new hnew
  obtain ⟨hn, n2, hnorm2, hpow, _, _, _⟩ := normalize_spec s hs0 hs.2
  rw [hnorm] at hnorm2
  have := Option.some.inj hnorm2
  subst this
  have hn0 : 0 < n := by rw [hpow]; exact pow2_pos hn
  have hsz0 := hinv0.size_eq
  have h2n : 2 * n ≤ b0.size := by omega
  have hlt : hn < k := by
    have : 2 ^ (hn + 1) ≤ 2 ^ k := by rw [pow_succ, ← hpow, ← hsz0]; omega
    have := pow2_le_iff.mp this
    omega
  have hist0 : History b0 [] := History.create hnew
  -- first allocation: offset 0
  obtain ⟨b1, i1, hrun1, hsz1, hdesc1, hnode1, hist1⟩ :=
    alloc_free_min (O := 0) hist0 hs hs0 hnorm (Nat.dvd_zero n) (by omega) (freeIn_nil _)
      (fun O2 _ _ _ => Nat.zero_le O2)
  simp only [Nat.cast_zero] at hrun1 hist1
  -- second allocation: offset n
  obtain ⟨b2, i2, hrun2, hsz2, hdesc2, hnode2, hist2⟩ :=
    alloc_free_min (O := n) hist1 hs hs0 hnorm (dvd_refl n) (by rw [hsz1]; omega)
      (freeIn_single_right (le_refl n))
      (fun O2 _ _ hfree => ge_of_freeIn_single hn0 hfree)
  -- release of offset 0
  obtain ⟨b3, hfree3, hist3⟩ :=
    free_of_live hist2 (List.mem_cons_of_mem _ (List.mem_singleton.mpr rfl))
  rw [erase_first_of_two hn0] at hist3
  obtain ⟨k3, hinv3⟩ := reachable_inv (history_reachable hist3)
  obtain ⟨k2, hinv2⟩ := reachable_inv (history_reachable hist2)
  have hsz3 : b3.size = b0.size := by
    have := (free_inv hinv2 hfree3).size_eq
    rw [this, ← hinv2.size_eq, hsz2, hsz1]
  -- third allocation: offset 0 again
  obtain ⟨b4, i4, hrun4, hsz4, _, _, hist4⟩ :=
    alloc_free_min (O := 0) hist3 hs hs0 hnorm (Nat.dvd_zero n) (by rw [hsz3]; omega)
      (freeIn_single_left n) (fun O2 _ _ _ => Nat.zero_le O2)
  simp only [Nat.cast_zero] at hrun4 hist4
  have hsize4 : buddy2_size b4 (n : Int) = some (n : Int) :=
    size_of_live hist4 (List.mem_cons_of_mem _ (List.mem_singleton.mpr rfl))
      ⟨le_refl _, by show (n : Int) < (n : Int) + (n : Int); omega⟩
  have hsib := @siblings_of_offsets k hn i1 i2 hinv0.k_le hlt
    (by rw [← hpow, ← hsz0]; exact hnode1)
    (by rw [← hpow, ← hsz0, ← hsz1]; exact hnode2)
  exact ⟨b1, b2, b3, b4, i1, i2, hrun1, hrun2, hdesc1, hdesc2, hsib.1, hsib.2, hfree3,
    hrun4, hsize4, hist4⟩

/-- Instance of C12: capacity 16 and requests of 5 units (normalised to 8). -/
theorem C12_witness :
    buddy2_new 16 = some (some st16_fresh) ∧ InIntRange 5 ∧ normalize 5 = some 8 ∧
      ∃ b1 b2 b3 b4 i1 i2,
        buddy2_alloc st16_fresh 5 = some (b1, 0) ∧
        buddy2_alloc b1 5 = some (b2, ((8 : Nat) : Int)) ∧
        alloc_descend st16_fresh.longest 8 (st16_fresh.longest.length + 1) st16_fresh.size 0 =
          some (i1, 8) ∧
        alloc_descend b1.longest 8 (b1.longest.length + 1) b1.size 0 = some (i2, 8) ∧
        PARENT i1 = PARENT i2 ∧ i2 = i1 + 1 ∧
        buddy2_free b2 0 = some b3 ∧ buddy2_alloc b3 5 = some (b4, 0) ∧
        buddy2_size b4 ((8 : Nat) : Int) = some ((8 : Nat) : Int) ∧
        History b4 [((0 : Int), 8), (((8 : Nat) : Int), 8)] :=
  ⟨new_16, int_range_5, normalize_5,
    C12_buddies_on_fresh 16 st16_fresh new_16 5 8 int_range_5 (by decide) normalize_5
      (by decide)⟩


/-! ## The meaning of `longest` -/

theorem last_unit_covers (o : Int) (n : Nat) (hn : 0 < n) :
    covers (o, n) (o + (n : Int) - 1) := by
  unfold covers
  constructor
  · show o ≤ o + (n : Int) - 1
    omega
  · show o + (n : Int) - 1 < o + (n : Int)
    omega

theorem within_of_covers {a c : Int × Nat} (h1 : covers c a.1)
    (h2 : covers c (a.1 + (a.2 : Int) - 1)) : within a c := by
  unfold covers at h1 h2
  unfold within
  omega

/-- A node that lies in no larger live block has no live node above it. -/
theorem no_live_above_of_out {k : Nat} {b : buddy2} {L : List (Int × Nat)} (hinv : Inv k b)
    (hmem : ∀ o n, (o, n) ∈ L ↔ LiveBlock k b.longest o n) {d h i : Nat} (hdh : d + h = k)
    (hb : Below 0 d i)
    (hout : ∀ blk ∈ L, ¬ (within (blockOf b i) blk ∧ (blockOf b i).2 < blk.2)) :
    ∀ j y, Below y (j + 1) i → ¬ IsLive k b.longest y := by
  rintro j y hyi ⟨dy, hy, hdy, hyb, hvy, hly⟩
  have hdep := below_depth_unique hb (below_root_trans hyb hyi)
  have hhy : hy = j + 1 + h := by omega
  apply hout _ (live_mem hmem hdy hyb hvy hly)
  rw [blockOf_eq hinv hdh hb]
  obtain ⟨h0, _, hleaf0⟩ := first_unit hdh hb
  have c1 := covers_first_unit_below hdy hyb hyi (show j + 1 + h = hy by omega)
  -- the last unit of the span of `i`
  have hp := pow2_pos h
  have r := node_span_range hdh hb
  have clast := last_unit_covers ((((i + 1) * 2 ^ h : Nat) : Int) - ((2 ^ k : Nat) : Int))
    (2 ^ h) hp
  have hlast0 : 0 ≤ (((i + 1) * 2 ^ h : Nat) : Int) - ((2 ^ k : Nat) : Int) +
      ((2 ^ h : Nat) : Int) - 1 := by omega
  have hoi : (((i + 1) * 2 ^ h : Nat) : Int) - ((2 ^ k : Nat) : Int) + ((2 ^ k : Nat) : Int) =
      (((i + 1) * 2 ^ h : Nat) : Int) := by omega
  have hoy : (((y + 1) * 2 ^ hy : Nat) : Int) - ((2 ^ k : Nat) : Int) + ((2 ^ k : Nat) : Int) =
      (((y + 1) * 2 ^ hy : Nat) : Int) := by omega
  have hleafl := (covers_iff_below hdh hb hoi hlast0).mp clast
  have hbl := below_trans hyi hleafl
  rw [← hhy] at hbl
  have c2 := (covers_iff_below hdy hyb hoy hlast0).mpr hbl
  have hlt : 2 ^ h < 2 ^ hy := pow2_lt_iff.mpr (by omega)
  exact ⟨within_of_covers (a := (_, 2 ^ h)) c1 c2, hlt⟩

/-- Below a node that holds a non-zero value and has no live node above it there is an
entirely free node of exactly that value, again without a live node above it. -/
theorem largest_free_desc {k : Nat} {l : List Nat} (ht : Tree k l) :
    ∀ h d i, d + h = k → Below 0 d i → val l i ≠ 0 →
      (∀ j y, Below y (j + 1) i → ¬ IsLive k l y) →
      ∃ j x, Below i j x ∧ j ≤ h ∧ val l x = 2 ^ (h - j) ∧ val l i = 2 ^ (h - j) ∧
        ∀ j2 y, Below y (j2 + 1) x → ¬ IsLive k l y := by
  intro h
  induction h with
  | zero =>
    intro d i hdh hb hne hno
    have := ht.bound d 0 i hdh hb
    rw [pow_zero] at this
    exact ⟨0, i, Below.self, le_refl _, by rw [pow_zero]; omega, by rw [pow_zero]; omega, hno⟩
  | succ h ih =>
    intro d i hdh hb hne hno
    rcases ht.rule d h i hdh hb with ⟨_, _, hv | hv⟩ | ⟨_, hmax⟩
    · exact ⟨0, i, Below.self, by omega, hv, hv, hno⟩
    · exact absurd hv hne
    · have hnotlive : ¬ IsLive k l i := by
        rintro ⟨_, _, _, _, hv0, _⟩
        exact hne hv0
      have hnoL : ∀ j y, Below y (j + 1) (2 * i + 1) → ¬ IsLive k l y := by
        intro j y hy
        obtain ⟨q, hq, hiq⟩ := below_succ_inv hy
        have : q = i := by omega
        subst this
        cases j with
        | zero => rw [← below_zero hq]; exact hnotlive
        | succ j => exact hno j y hq
      have hnoR : ∀ j y, Below y (j + 1) (2 * i + 2) → ¬ IsLive k l y := by
        intro j y hy
        obtain ⟨q, hq, hiq⟩ := below_succ_inv hy
        have : q = i := by omega
        subst this
        cases j with
        | zero => rw [← below_zero hq]; exact hnotlive
        | succ j => exact hno j y hq
      rcases max_choice (val l (2 * i + 1)) (val l (2 * i + 2)) with e | e
      · rw [e] at hmax
        obtain ⟨j, x, hx, hj, hvx, hvc, hnox⟩ :=
          ih (d + 1) (2 * i + 1) (by omega) (Below.left hb) (by rw [← hmax]; exact hne) hnoL
        have esub : h + 1 - (j + 1) = h - j := by omega
        exact ⟨j + 1, x, below_child_left hx, by omega, by rw [esub]; exact hvx,
          by rw [esub, hmax]; exact hvc, hnox⟩
      · rw [e] at hmax
        obtain ⟨j, x, hx, hj, hvx, hvc, hnox⟩ :=
          ih (d + 1) (2 * i + 2) (by omega) (Below.right hb) (by rw [← hmax]; exact hne) hnoR
        have esub : h + 1 - (j + 1) = h - j := by omega
        exact ⟨j + 1, x, below_child_right hx, by omega, by rw [esub]; exact hvx,
          by rw [esub, hmax]; exact hvc, hnox⟩


/-- C16: along every history, for the root and for every node `i` that does not lie
strictly inside a block that is handed out: every free aligned block below `i` has a
size of at most `longest[i]`; when `longest[i]` is not `0` some free aligned block
below `i` has exactly that size; `longest[i]` is `0` exactly when every unit below `i`
is handed out, and it is the span of `i` exactly when no unit below `i` is handed
out. -/
theorem C16_longest_is_largest_free_block (b : buddy2) (L : List (Int × Nat))
    (hist : History b L) (i : Nat) (hi : i < 2 * b.size - 1)
    (hout : i = 0 ∨ ∀ blk ∈ L, ¬ (within (blockOf b i) blk ∧ (blockOf b i).2 < blk.2)) :
    (∀ j x, Below i j x → x < 2 * b.size - 1 → freeIn L (blockOf b x) →
        span b x ≤ val b.longest i) ∧
      (val b.longest i ≠ 0 →
        ∃ j x, Below i j x ∧ x < 2 * b.size - 1 ∧ freeIn L (blockOf b x) ∧
          span b x = val b.longest i) ∧
      (val b.longest i = 0 ↔ ∀ p, covers (blockOf b i) p → ∃ blk ∈ L, covers blk p) ∧
      (val b.longest i = span b i ↔ freeIn L (blockOf b i)) := by
  obtain ⟨k, hinv, _, hmem⟩ := history_inv hist
  obtain ⟨d, h, hdh, hb⟩ := node_levels hinv hi
  have ht := hinv.tree
  have hsz := hinv.size_eq
  have hnoabove : ∀ j y, Below y (j + 1) i → ¬ IsLive k b.longest y := by
    rcases hout with h0 | hout
    · intro j y hy
      have := below_lt hy
      omega
    · exact no_live_above_of_out hinv hmem hdh hb hout
  -- a free block below `i` of the value of `i`, when that value is not `0`
  have hattain : val b.longest i ≠ 0 →
      ∃ j x, Below i j x ∧ x < 2 * b.size - 1 ∧ freeIn L (blockOf b x) ∧
        span b x = val b.longest i ∧ j ≤ h := by
    intro hne
    obtain ⟨j, x, hx, hj, hvx, hvi, hnox⟩ := largest_free_desc ht h d i hdh hb hne hnoabove
    have hxb : Below 0 (d + j) x := below_root_trans hb hx
    have hdx : d + j + (h - j) = k := by omega
    refine ⟨j, x, hx, ?_, ?_, ?_, hj⟩
    · rw [hsz]; exact index_lt_of_below (by omega) hxb
    · exact (free_iff_avail hinv hmem hdx hxb).mpr (anc_ge_of_full ht hdx hxb hvx hnox)
    · rw [span_of_below hinv hdx hxb, hvi]
  refine ⟨?_, ?_, ⟨?_, ?_⟩, ⟨?_, ?_⟩⟩
  · intro j x hx hxlt hfree
    have hxb : Below 0 (d + j) x := below_root_trans hb hx
    obtain ⟨dx, hx2, hdx, hxb2⟩ := node_levels hinv hxlt
    have := below_depth_unique hxb hxb2
    subst this
    rw [span_of_below hinv hdx hxb]
    exact (free_iff_avail hinv hmem hdx hxb).mp hfree j i hx
  · intro hne
    obtain ⟨j, x, h1, h2, h3, h4, _⟩ := hattain hne
    exact ⟨j, x, h1, h2, h3, h4⟩
  · intro hv0 p hp
    rw [blockOf_eq hinv hdh hb] at hp
    have r := node_span_range hdh hb
    have hp0 : 0 ≤ p := by
      have : (((i + 1) * 2 ^ h : Nat) : Int) - ((2 ^ k : Nat) : Int) ≤ p := hp.1
      omega
    have hp1 : p.toNat < 2 ^ k := by
      have : p < (((i + 1) * 2 ^ h : Nat) : Int) - ((2 ^ k : Nat) : Int) +
          ((2 ^ h : Nat) : Int) := hp.2
      omega
    have hoi : (((i + 1) * 2 ^ h : Nat) : Int) - ((2 ^ k : Nat) : Int) +
        ((2 ^ k : Nat) : Int) = (((i + 1) * 2 ^ h : Nat) : Int) := by omega
    have hleaf := (covers_iff_below hdh hb hoi hp0).mp hp
    obtain ⟨_, hleafb⟩ := leaf_index hinv.k_le hp1
    rcases path_cases b.longest (leafOf k p.toNat) with hall | ⟨j2, z, hz, hvz, hlow⟩
    · exact absurd hv0 (hall h i hleaf)
    · obtain ⟨hjk, hzd, hl⟩ := lowest_zero_live ht hleafb hz hvz hlow
      have hdz : k - j2 + j2 = k := by omega
      have hoz : (((z + 1) * 2 ^ j2 : Nat) : Int) - ((2 ^ k : Nat) : Int) +
          ((2 ^ k : Nat) : Int) = (((z + 1) * 2 ^ j2 : Nat) : Int) := by omega
      exact ⟨_, live_mem hmem hdz hzd hvz hl, (covers_iff_below hdz hzd hoz hp0).mpr hz⟩
  · intro hcov
    by_contra hne
    obtain ⟨j, x, hx, hxlt, hfree, _, hj⟩ := hattain hne
    have hxb : Below 0 (d + j) x := below_root_trans hb hx
    have hdx : d + j + (h - j) = k := by omega
    have c1 := covers_first_unit_below hdh hb hx (show j + (h - j) = h by omega)
    rw [← blockOf_eq hinv hdh hb] at c1
    obtain ⟨blk, hblk, hc⟩ := hcov _ c1
    obtain ⟨_, c2, _⟩ := first_unit hdx hxb
    rw [← blockOf_eq hinv hdx hxb] at c2
    exact not_apart_of_common c2 hc (hfree blk hblk)
  · intro hv
    rw [span_of_below hinv hdh hb] at hv
    exact (free_iff_avail hinv hmem hdh hb).mpr (anc_ge_of_full ht hdh hb hv hnoabove)
  · intro hfree
    rw [span_of_below hinv hdh hb]
    exact le_antisymm (ht.bound d h i hdh hb)
      ((free_iff_avail hinv hmem hdh hb).mp hfree 0 i Below.self)

/-- Instance of C16: the root of a capacity-4 allocator in which only unit 2 is handed
out holds 2, the size of the free block `[0, 2)`. -/
theorem C16_witness :
    History st4_split [(2, 1)] ∧ 0 < 2 * st4_split.size - 1 ∧ val st4_split.longest 0 = 2 ∧
      (∀ j x, Below 0 j x → x < 2 * st4_split.size - 1 →
        freeIn [((2 : Int), 1)] (blockOf st4_split x) →
        span st4_split x ≤ val st4_split.longest 0) ∧
      (val st4_split.longest 0 ≠ 0 →
        ∃ j x, Below 0 j x ∧ x < 2 * st4_split.size - 1 ∧
          freeIn [((2 : Int), 1)] (blockOf st4_split x) ∧
          span st4_split x = val st4_split.longest 0) ∧
      (val st4_split.longest 0 = 0 ↔
        ∀ p, covers (blockOf st4_split 0) p → ∃ blk ∈ [((2 : Int), 1)], covers blk p) ∧
      (val st4_split.longest 0 = span st4_split 0 ↔
        freeIn [((2 : Int), 1)] (blockOf st4_split 0)) :=
  ⟨history_4_split, by decide, by decide,
    C16_longest_is_largest_free_block st4_split [(2, 1)] history_4_split 0 (by decide)
      (Or.inl rfl)⟩


end BuddyBTree
